import Mathlib

/-!
# slow5lib: the random-access index (`src/slow5_idx.c`) and the split tool

A shallow embedding of the index of slow5lib and of the streams it reads and
writes, of the auxiliary field types of `slow5.h` and of the split tool
(`src/split.c`), followed by theorems about them.

Conventions of the embedding.

* A byte is a `Nat`; a buffer or a file is a `List Nat`.  Machine integers are
  `Nat` with the reduction modulo `2 ^ w` written where the C type truncates.
* A `char *` is the list of bytes its buffer holds before the terminating NUL
  the code writes; every use the C code makes of it (`strlen`, the string hash
  map, `fwrite` of `strlen` bytes) goes through `cstr`, the bytes before the
  first NUL.
* A function taking a pointer to a structure takes the structure and returns
  its new value next to the C return value.
* Allocation and output never fail: the branches guarded by a failed `malloc`
  or a short `fwrite` are not part of the model.
-/

namespace Slow5

/-! ## Data model -/

/-- The `struct slow5_version` of `slow5.h`: three 8-bit components. -/
structure slow5_version where
  major : Nat
  minor : Nat
  patch : Nat
deriving DecidableEq, Repr

/-- The `struct slow5_rec_idx`: where a record lies in the file. -/
structure slow5_rec_idx where
  offset : Nat
  size : Nat
deriving DecidableEq, Repr

/-- The bytes of a C string: the content of the buffer before its first NUL. -/
def cstr (b : List Nat) : List Nat := b.takeWhile (fun c => c != 0)

/-- The `strlen` of the C library. -/
def strlen (b : List Nat) : Nat := (cstr b).length

/-- Modelled from the spec: the string hash map `khash_t(slow5_s2i)` of
`klib/khash.h`, which is not among the sources.  The spec asks of it only a
"mapping from string to T"; it is kept as the list of its buckets in use, keys
compared as C strings, and an iterator is a position in that list. -/
abbrev khash := List (List Nat × slow5_rec_idx)

/-- The iterator `kh_end(h)`: one past the last bucket. -/
def kh_end (h : khash) : Nat := h.length

/-- The lookup `kh_get(slow5_s2i, h, key)`: iterator of the bucket whose key
is `key` as a C string, `kh_end(h)` when there is none. -/
def kh_get : khash → List Nat → Nat
  | [], _ => 0
  | e :: t, key => if cstr e.1 = cstr key then 0 else kh_get t key + 1

/-- The accessor `kh_value(h, k)` read as a value. -/
def kh_value : khash → Nat → slow5_rec_idx
  | [], _ => ⟨0, 0⟩
  | e :: _, 0 => e.2
  | _ :: t, k + 1 => kh_value t k

/-- The accessor `kh_value(h, k)` assigned to. -/
def kh_set_value : khash → Nat → slow5_rec_idx → khash
  | [], _, _ => []
  | e :: t, 0, v => (e.1, v) :: t
  | e :: t, k + 1, v => e :: kh_set_value t k v

/-- The insertion `kh_put(slow5_s2i, h, key, &absent)`: the new table, the
iterator of the bucket of `key` and `absent`, which is 0 when the key was
already there and 1 when a bucket was made for it (its value is not yet
set). -/
def kh_put (h : khash) (key : List Nat) : khash × Nat × Int :=
  if kh_get h key = kh_end h then (h ++ [(key, ⟨0, 0⟩)], kh_end h, 1)
  else (h, kh_get h key, 0)

/-- The `struct slow5_idx`.  `ids` holds the slots of the array `ids`
(`cap_ids` of them in a valid index), of which the first `num_ids` are in
use.  The stream `fp` is passed to the functions that use it. -/
structure slow5_idx where
  version : slow5_version
  ids : List (List Nat)
  num_ids : Nat
  cap_ids : Nat
  hash : khash
deriving DecidableEq, Repr

/-- The ids of the index in the order of the array: `ids[0 .. num_ids)`. -/
def slow5_idx.ids_list (index : slow5_idx) : List (List Nat) :=
  index.ids.take index.num_ids

/-- A read id is a key of the hash map of the index. -/
def slow5_idx.is_key (index : slow5_idx) (read_id : List Nat) : Prop :=
  ∃ e ∈ index.hash, cstr e.1 = cstr read_id

/-- The array `ids` is an allocated object: it has `cap_ids` slots, at most
that many are in use, and its size in bytes fits the address space. -/
def slow5_idx.valid (index : slow5_idx) : Prop :=
  index.ids.length = index.cap_ids ∧ index.num_ids ≤ index.cap_ids ∧
    index.cap_ids < 2 ^ 60

instance (index : slow5_idx) : Decidable index.valid := by
  unfold slow5_idx.valid; infer_instance

/-- `slow5_idx_init_empty`: `calloc` zeroes the structure, `kh_init` gives an
empty table. -/
def slow5_idx_init_empty : slow5_idx :=
  { version := ⟨0, 0, 0⟩, ids := [], num_ids := 0, cap_ids := 0, hash := [] }

/-- The `realloc(index->ids, cap * sizeof *tmp)` of `slow5_idx_insert`, a
pointer being 8 bytes: the slots that fit the new size keep their content and
new slots hold no id yet (they read as the empty string). -/
def realloc_ids (ids : List (List Nat)) (cap : Nat) : List (List Nat) :=
  let n := (cap * 8 % 2 ^ 64) / 8
  ids.take n ++ List.replicate (n - ids.length) []

/-- `slow5_idx_insert` (slow5_idx.c, 346-373).  `offset` and `size` are
`uint64_t` arguments: the callers pass values below `2 ^ 64`.  A store past
the end of the array `ids` (undefined in C, excluded by `slow5_idx.valid`)
leaves the array as it is. -/
def slow5_idx_insert (index : slow5_idx) (read_id : List Nat) (offset size : Nat) :
    Int × slow5_idx :=
  match kh_put index.hash read_id with
  | (hash, k, absent) =>
    if absent = -1 ∨ absent = 0 then
      (-1, { index with hash := hash })
    else
      let index1 : slow5_idx :=
        if index.num_ids = index.cap_ids then
          let cap := if index.cap_ids ≠ 0 then (index.cap_ids <<< 1) % 2 ^ 64 else 16
          { index with hash := hash, cap_ids := cap, ids := realloc_ids index.ids cap }
        else { index with hash := hash }
      (0, { index1 with
              ids := index1.ids.set index1.num_ids read_id
              num_ids := (index1.num_ids + 1) % 2 ^ 64
              hash := kh_set_value hash k ⟨offset, size⟩ })

/-- `slow5_idx_get` (slow5_idx.c, 379-391).  The out-parameter `read_index`
is `none` for a NULL pointer and `some v` for a pointer to a structure
holding `v`; its value after the call is returned. -/
def slow5_idx_get (index : slow5_idx) (read_id : List Nat)
    (read_index : Option slow5_rec_idx) : Int × slow5_idx × Option slow5_rec_idx :=
  let pos := kh_get index.hash read_id
  if pos = kh_end index.hash then (-1, index, read_index)
  else
    match read_index with
    | some _ => (0, index, some (kh_value index.hash pos))
    | none => (0, index, none)

/-- `slow5_idx_is_version_compatible` (slow5_idx.c, 261-272); the constant
`SLOW5_INDEX_VERSION` it compares with is a parameter. -/
def slow5_idx_is_version_compatible (SLOW5_INDEX_VERSION : slow5_version)
    (file_version : slow5_version) : Int :=
  let supported_max_version := SLOW5_INDEX_VERSION
  if file_version.major > supported_max_version.major ∨
      file_version.minor > supported_max_version.minor ∨
      file_version.patch > supported_max_version.patch then 0
  else 1

/-! ## Streams -/

/-- A stdio stream over a file held in memory: the bytes of the file, the
position of the stream and its end-of-file indicator (`feof`). -/
structure FILE where
  data : List Nat
  pos : Nat
  eof : Bool
deriving DecidableEq, Repr

/-- The whence values of `stdio.h`. -/
def SEEK_SET : Int := 0

/-- Seek relative to the position of the stream. -/
def SEEK_CUR : Int := 1

/-- Seek relative to the end of the file. -/
def SEEK_END : Int := 2

/-- Conversion of a `uint64_t` to the signed 64-bit `off_t`. -/
def to_off_t (n : Nat) : Int :=
  if n % 2 ^ 64 < 2 ^ 63 then ((n % 2 ^ 64 : Nat) : Int) else ((n % 2 ^ 64 : Nat) : Int) - 2 ^ 64

/-- The `ftello` of the C library. -/
def ftello (fp : FILE) : Nat := fp.pos

/-- The `fseeko` (and `fseek`) of the C library: -1 for an unknown whence or
a negative resulting position; otherwise the position is set and the
end-of-file indicator cleared. -/
def fseeko (fp : FILE) (offset : Int) (whence : Int) : Int × FILE :=
  let base : Option Int :=
    if whence = SEEK_SET then some 0
    else if whence = SEEK_CUR then some (fp.pos : Int)
    else if whence = SEEK_END then some (fp.data.length : Int)
    else none
  match base with
  | none => (-1, fp)
  | some b =>
    if b + offset < 0 then (-1, fp)
    else (0, { fp with pos := (b + offset).toNat, eof := false })

/-- The `fread(ptr, size, nmemb, fp)` of the C library: the bytes stored, the
number of complete items read and the stream afterwards.  A read that meets
the end of the file sets the end-of-file indicator. -/
def fread (fp : FILE) (size nmemb : Nat) : List Nat × Nat × FILE :=
  let got := (fp.data.drop fp.pos).take (size * nmemb)
  (got, got.length / size,
    { fp with pos := fp.pos + got.length
              eof := fp.eof || decide (got.length < size * nmemb) })

/-- The first line of a buffer, its newline included. -/
def take_line : List Nat → List Nat
  | [] => []
  | c :: t => if c = 10 then [c] else c :: take_line t

/-- The `getline` of the C library: -1 at the end of the file, otherwise the
length of the line read, the line and the stream afterwards. -/
def getline (fp : FILE) : Int × List Nat × FILE :=
  let rest := fp.data.drop fp.pos
  if rest = [] then (-1, [], { fp with eof := true })
  else
    let line := take_line rest
    ((line.length : Int), line,
      { fp with pos := fp.pos + line.length
                eof := fp.eof || decide (line.getLast? ≠ some 10) })

/-- The `strdup` of the C library: a copy of the C string. -/
def strdup (s : List Nat) : List Nat := cstr s

/-- Modelled from the spec: `slow5_strsep` of `slow5_misc.c`, which is not
among the sources; it is the `strsep` of the C library, and "Tab separates
columns".  It gives the token, the bytes of the C string before its first
delimiter, and what follows that delimiter (`none` when there is none). -/
def slow5_strsep (s : List Nat) (delim : List Nat) : List Nat × Option (List Nat) :=
  let tok := (cstr s).takeWhile (fun c => !(delim.contains c))
  (tok, if tok.length < (cstr s).length then some (s.drop (tok.length + 1)) else none)

/-- The column separator `SLOW5_SEP_COL`, a tab. -/
def SLOW5_SEP_COL : List Nat := [9]

/-- Little-endian image of `v` in `n` bytes (the memory of an integer that
`fwrite` copies out). -/
def le_bytes : Nat → Nat → List Nat
  | 0, _ => []
  | n + 1, v => v % 256 :: le_bytes n (v / 256)

/-- Value of a little-endian byte sequence (the integer that `fread` or
`memcpy` leaves in memory). -/
def le_val : List Nat → Nat
  | [] => 0
  | b :: t => b + 256 * le_val t

/-- Modelled from the spec: `slow5_is_eof(fp, eof, n)` of `slow5_misc.c`,
which is not among the sources.  It is 1 when what is left of the stream is
exactly the end-of-file marker ("eof-marker" closes the layouts of the spec),
0 otherwise; the stream is left where it was.  The second component is the
value of `slow5_errno` after the call. -/
def slow5_is_eof (fp : FILE) (eof : List Nat) : Int × Int × FILE :=
  if fp.data.drop fp.pos = eof then (1, 0, fp) else (0, 0, fp)

/-- The constants of `slow5_defs.h` and `slow5_error.h` and the helper
`slow5_is_eof`, none of which is among the sources: they are parameters of
the functions that use them. -/
structure slow5_defs where
  SLOW5_INDEX_MAGIC_NUMBER : List Nat
  SLOW5_INDEX_VERSION : slow5_version
  SLOW5_INDEX_HEADER_SIZE_OFFSET : Nat
  SLOW5_INDEX_EOF : List Nat
  SLOW5_BINARY_EOF : List Nat
  SLOW5_ERR_TRUNC : Int
  SLOW5_ERR_IO : Int
  SLOW5_ERR_NOTFOUND : Int
  SLOW5_ERR_MAGIC : Int
  SLOW5_ERR_VERSION : Int
  slow5_is_eof : FILE → List Nat → Int × Int × FILE

/-! ## Writing and reading the sidecar -/

/-- The loop of `slow5_idx_write` (slow5_idx.c, 235-251) with `n` iterations
left, at `i`, after `out` was written: `some e` when it returned `e`. -/
def slow5_idx_write_loop (K : slow5_defs) (index : slow5_idx) :
    Nat → Nat → List Nat → Option Int × List Nat
  | 0, _, out => (none, out)
  | n + 1, i, out =>
    let id := index.ids.getD i []
    let pos := kh_get index.hash id
    if pos = kh_end index.hash then (some K.SLOW5_ERR_NOTFOUND, out)
    else
      let read_index := kh_value index.hash pos
      let read_id_len := strlen id % 2 ^ 16
      slow5_idx_write_loop K index n (i + 1)
        (out ++ le_bytes 2 read_id_len ++ id.take read_id_len ++
          le_bytes 8 read_index.offset ++ le_bytes 8 read_index.size)

/-- `slow5_idx_write` (slow5_idx.c, 209-259): the result and the bytes written
to `index->fp`, a file opened for writing. -/
def slow5_idx_write (K : slow5_defs) (index : slow5_idx) : Int × List Nat :=
  let version := K.SLOW5_INDEX_VERSION
  let out := K.SLOW5_INDEX_MAGIC_NUMBER ++ [version.major, version.minor, version.patch]
  let padding : Nat :=
    (((K.SLOW5_INDEX_HEADER_SIZE_OFFSET : Int) -
      (K.SLOW5_INDEX_MAGIC_NUMBER.length : Int) - 1 - 1 - 1) % 256).toNat
  let out := out ++ List.replicate padding 0
  match slow5_idx_write_loop K index index.num_ids 0 out with
  | (some e, out) => (e, out)
  | (none, out) => (0, out ++ K.SLOW5_INDEX_EOF)

/-- The loop of `slow5_idx_read` (slow5_idx.c, 305-341) and what follows it;
`none` when the fuel runs out. -/
def slow5_idx_read_loop (K : slow5_defs) :
    Nat → slow5_idx → FILE → Option (Int × slow5_idx × FILE)
  | 0, _, _ => none
  | fuel + 1, index, fp =>
    match K.slow5_is_eof fp K.SLOW5_INDEX_EOF with
    | (is_eof, slow5_errno, fp) =>
      if is_eof = 0 then
        match fread fp 2 1 with
        | (len_bytes, n, fp) =>
          if n ≠ 1 then
            if fp.eof then some ( K.SLOW5_ERR_TRUNC, index, fp)
            else some ( K.SLOW5_ERR_IO, index, fp)
          else
            let read_id_len := le_val len_bytes % 2 ^ 16
            match fread fp 1 read_id_len with
            | (read_id, n, fp) =>
              if n ≠ read_id_len then some ( K.SLOW5_ERR_IO, index, fp)
              else
                match fread fp 8 1 with
                | (offset_bytes, n, fp) =>
                  if n ≠ 1 then some ( K.SLOW5_ERR_IO, index, fp)
                  else
                    match fread fp 8 1 with
                    | (size_bytes, n, fp) =>
                      if n ≠ 1 then some ( K.SLOW5_ERR_IO, index, fp)
                      else
                        match slow5_idx_insert index read_id
                            (le_val offset_bytes % 2 ^ 64) (le_val size_bytes % 2 ^ 64) with
                        | (r, index) =>
                          if r = -1 then some (-1, index, fp)
                          else slow5_idx_read_loop K fuel index fp
      else if is_eof = -1 then some (slow5_errno, index, fp)
      else some (0, index, fp)

/-- `slow5_idx_read` (slow5_idx.c, 274-344) on the stream `index->fp`. -/
def slow5_idx_read (K : slow5_defs) (index : slow5_idx) (fp : FILE) :
    Option (Int × slow5_idx × FILE) :=
  let magic := K.SLOW5_INDEX_MAGIC_NUMBER
  match fread fp 1 magic.length with
  | (buf_magic, n, fp) =>
    if n ≠ magic.length then some ( K.SLOW5_ERR_IO, index, fp)
    else if magic ≠ buf_magic then some ( K.SLOW5_ERR_MAGIC, index, fp)
    else
      match fread fp 1 1 with
      | (b, n, fp) =>
        if n ≠ 1 then some ( K.SLOW5_ERR_IO, index, fp)
        else
          let index := { index with version := { index.version with major := le_val b } }
          match fread fp 1 1 with
          | (b, n, fp) =>
            if n ≠ 1 then some ( K.SLOW5_ERR_IO, index, fp)
            else
              let index := { index with version := { index.version with minor := le_val b } }
              match fread fp 1 1 with
              | (b, n, fp) =>
                if n ≠ 1 then some ( K.SLOW5_ERR_IO, index, fp)
                else
                  let index :=
                    { index with version := { index.version with patch := le_val b } }
                  if slow5_idx_is_version_compatible K.SLOW5_INDEX_VERSION index.version = 0
                  then some ( K.SLOW5_ERR_VERSION, index, fp)
                  else
                    match fseeko fp (K.SLOW5_INDEX_HEADER_SIZE_OFFSET : Int) SEEK_SET with
                    | (r, fp) =>
                      if r = -1 then some ( K.SLOW5_ERR_IO, index, fp)
                      else slow5_idx_read_loop K (fp.data.length + 1) index fp

/-! ## Building the index from the file -/

/-- The `enum slow5_fmt`. -/
inductive slow5_fmt where
  | SLOW5_FORMAT_UNKNOWN
  | SLOW5_FORMAT_ASCII
  | SLOW5_FORMAT_BINARY
deriving DecidableEq, Repr

/-- The `struct slow5_file`, as far as the index uses it.  `compress` is the
press object seen through `slow5_ptr_depress` (of `slow5_press.c`, not among
the sources): it maps the bytes of a compressed record to the decompressed
ones, `none` standing for the NULL of a failed decompression. -/
structure slow5_file where
  fp : FILE
  format : slow5_fmt
  compress : List Nat → Option (List Nat)
  start_rec_offset : Nat

/-- The end of `slow5_idx_build` (slow5_idx.c, 198-202): back to the position
at entry.  The whence argument is the C expression `SEEK_SET != 0`. -/
def slow5_idx_build_end (index : slow5_idx) (fp : FILE) (curr_offset : Nat) :
    Int × slow5_idx × FILE :=
  match fseeko fp (to_off_t curr_offset) (if SEEK_SET ≠ 0 then 1 else 0) with
  | (r, fp) => if r ≠ 0 then (-1, index, fp) else (0, index, fp)

/-- The text branch of `slow5_idx_build` (slow5_idx.c, 119-129) and what
follows it; `none` when the fuel runs out. -/
def slow5_idx_build_ascii (curr_offset : Nat) :
    Nat → slow5_idx → FILE → Nat → Option (Int × slow5_idx × FILE)
  | 0, _, _, _ => none
  | fuel + 1, index, fp, offset =>
    match getline fp with
    | (buf_len, buf, fp) =>
      if buf_len ≠ -1 then
        let read_id := strdup (slow5_strsep buf SLOW5_SEP_COL).1
        let size := buf_len.toNat % 2 ^ 64
        match slow5_idx_insert index read_id offset size with
        | (r, index) =>
          if r = -1 then some (-1, index, fp)
          else slow5_idx_build_ascii curr_offset fuel index fp
                ((offset + buf_len.toNat) % 2 ^ 64)
      else some (slow5_idx_build_end index fp curr_offset)

/-- The binary branch of `slow5_idx_build` (slow5_idx.c, 137-195) and what
follows it; `none` when the fuel runs out.  A `memcpy` that would read past
the decompressed record (undefined in C) reads the bytes there are. -/
def slow5_idx_build_binary (K : slow5_defs) (compress : List Nat → Option (List Nat))
    (curr_offset : Nat) : Nat → slow5_idx → FILE → Option (Int × slow5_idx × FILE)
  | 0, _, _ => none
  | fuel + 1, index, fp =>
    match K.slow5_is_eof fp K.SLOW5_BINARY_EOF with
    | (is_eof, slow5_errno, fp) =>
      if is_eof = 0 then
        let offset := ftello fp % 2 ^ 64
        match fread fp 8 1 with
        | (size_bytes, n, fp) =>
          if n ≠ 1 then some (-1, index, fp)
          else
            let record_size := le_val size_bytes % 2 ^ 64
            let size := (8 + record_size) % 2 ^ 64
            match fread fp record_size 1 with
            | (read_comp, n, fp) =>
              if n ≠ 1 then some (-1, index, fp)
              else
                match compress read_comp with
                | none => some (-1, index, fp)
                | some read_decomp =>
                  let read_id_len := le_val (read_decomp.take 2) % 2 ^ 16
                  let read_id := (read_decomp.drop 2).take read_id_len
                  match slow5_idx_insert index read_id offset size with
                  | (r, index) =>
                    if r = -1 then some (-1, index, fp)
                    else slow5_idx_build_binary K compress curr_offset fuel index fp
      else if is_eof = -1 then some (slow5_errno, index, fp)
      else some (slow5_idx_build_end index fp curr_offset)

/-- `slow5_idx_build` (slow5_idx.c, 101-203): the result, the index and the
stream of the file afterwards. -/
def slow5_idx_build (K : slow5_defs) (index : slow5_idx) (s5p : slow5_file) :
    Option (Int × slow5_idx × FILE) :=
  let curr_offset := ftello s5p.fp % 2 ^ 64
  match fseeko s5p.fp (to_off_t s5p.start_rec_offset) (if SEEK_SET ≠ 0 then 1 else 0) with
  | (r, fp) =>
    if r ≠ 0 then some (-1, index, fp)
    else
      match s5p.format with
      | .SLOW5_FORMAT_ASCII =>
        slow5_idx_build_ascii curr_offset (fp.data.length + 1) index fp (ftello fp % 2 ^ 64)
      | .SLOW5_FORMAT_BINARY =>
        slow5_idx_build_binary K s5p.compress curr_offset (fp.data.length + 1) index fp
      | .SLOW5_FORMAT_UNKNOWN => some (slow5_idx_build_end index fp curr_offset)

/-- An instance of the constants, for running the definitions on sample
inputs: a 9-byte magic number, a 64-byte header, end-of-file markers of 8 and
5 bytes, negative error codes, and the helper `slow5_is_eof` as modelled from
the spec. -/
def defs0 : slow5_defs :=
  { SLOW5_INDEX_MAGIC_NUMBER := [83, 76, 79, 87, 53, 73, 68, 88, 1]
    SLOW5_INDEX_VERSION := ⟨0, 1, 0⟩
    SLOW5_INDEX_HEADER_SIZE_OFFSET := 64
    SLOW5_INDEX_EOF := [88, 68, 73, 53, 87, 79, 76, 83]
    SLOW5_BINARY_EOF := [53, 87, 79, 76, 66]
    SLOW5_ERR_TRUNC := -3
    SLOW5_ERR_IO := -5
    SLOW5_ERR_NOTFOUND := -7
    SLOW5_ERR_MAGIC := -14
    SLOW5_ERR_VERSION := -15
    slow5_is_eof := slow5_is_eof }

/-! ## Auxiliary definitions -/

instance (index : slow5_idx) (read_id : List Nat) : Decidable (index.is_key read_id) := by
  unfold slow5_idx.is_key; infer_instance

/-- The array `ids` after the reallocation step of `slow5_idx_insert`. -/
def grow_ids (index : slow5_idx) : List (List Nat) :=
  if index.num_ids = index.cap_ids then
    realloc_ids index.ids
      (if index.cap_ids ≠ 0 then (index.cap_ids <<< 1) % 2 ^ 64 else 16)
  else index.ids

/-- The capacity after the reallocation step of `slow5_idx_insert`. -/
def grow_cap (index : slow5_idx) : Nat :=
  if index.num_ids = index.cap_ids then
    (if index.cap_ids ≠ 0 then (index.cap_ids <<< 1) % 2 ^ 64 else 16)
  else index.cap_ids

/-- The invariant of an index filled by insertions only: the ids in use are
the keys of the hash map in the order of insertion, and the capacity is 16 or
at most twice the number of ids. -/
def slow5_idx.wf (index : slow5_idx) : Prop :=
  index.ids_list = index.hash.map Prod.fst ∧ index.num_ids = index.hash.length ∧
    index.ids.length = index.cap_ids ∧ index.num_ids ≤ index.cap_ids ∧
    (index.cap_ids ≤ 16 ∨ index.cap_ids ≤ 2 * index.num_ids)

/-- The bytes `slow5_idx_write` emits for one id of the index. -/
def entry_bytes (index : slow5_idx) (id : List Nat) : List Nat :=
  le_bytes 2 (strlen id % 2 ^ 16) ++ id.take (strlen id % 2 ^ 16) ++
    le_bytes 8 (kh_value index.hash (kh_get index.hash id)).offset ++
    le_bytes 8 (kh_value index.hash (kh_get index.hash id)).size

/-- The entry of the sidecar layout: u16 length, id, u64 offset, u64 size. -/
def sidecar_entry (e : List Nat × slow5_rec_idx) : List Nat :=
  le_bytes 2 e.1.length ++ e.1 ++ le_bytes 8 e.2.offset ++ le_bytes 8 e.2.size

/-- The entries of a sidecar one after the other. -/
def sidecar_entries : khash → List Nat
  | [] => []
  | e :: t => sidecar_entry e ++ sidecar_entries t

/-- The bytes `slow5_idx_write` emits for a list of ids of the index. -/
def entries_bytes (index : slow5_idx) : List (List Nat) → List Nat
  | [] => []
  | id :: t => entry_bytes index id ++ entries_bytes index t

/-- The header `slow5_idx_write` emits: magic number, version, zero padding. -/
def sidecar_header (K : slow5_defs) : List Nat :=
  K.SLOW5_INDEX_MAGIC_NUMBER ++
    [K.SLOW5_INDEX_VERSION.major, K.SLOW5_INDEX_VERSION.minor, K.SLOW5_INDEX_VERSION.patch] ++
    List.replicate ((((K.SLOW5_INDEX_HEADER_SIZE_OFFSET : Int) -
      (K.SLOW5_INDEX_MAGIC_NUMBER.length : Int) - 1 - 1 - 1) % 256).toNat) 0

/-- The entry the index stores for an id, paired with the id. -/
def entry_of (index : slow5_idx) (id : List Nat) : List Nat × slow5_rec_idx :=
  (id, kh_value index.hash (kh_get index.hash id))

/-- The buffers of a list one after the other. -/
def concat_bytes : List (List Nat) → List Nat
  | [] => []
  | l :: t => l ++ concat_bytes t

/-- The read id the text branch of `slow5_idx_build` takes from a line. -/
def line_read_id (line : List Nat) : List Nat :=
  strdup (slow5_strsep line SLOW5_SEP_COL).1

/-- The entries the text branch of `slow5_idx_build` makes for lines that
start at `offset`. -/
def text_entries : Nat → List (List Nat) → khash
  | _, [] => []
  | offset, l :: t => (line_read_id l, ⟨offset, l.length⟩) :: text_entries (offset + l.length) t

/-- What `getline` reads one call after the other: each buffer is one line,
not empty, and all but the last end with the newline. -/
def lines_ok : List (List Nat) → Prop
  | [] => True
  | l :: t => l ≠ [] ∧ take_line l = l ∧ (l.getLast? = some 10 ∨ t = []) ∧ lines_ok t

/-- The on-disk bytes of a binary record: 8-byte size prefix, then payload. -/
def record_bytes (payload : List Nat) : List Nat :=
  le_bytes 8 payload.length ++ payload

/-- The read id the binary branch of `slow5_idx_build` takes from a
decompressed record. -/
def decomp_read_id (read_decomp : List Nat) : List Nat :=
  (read_decomp.drop 2).take (le_val (read_decomp.take 2) % 2 ^ 16)

/-- The read id of a record given by its payload on disk. -/
def record_read_id (compress : List Nat → Option (List Nat)) (payload : List Nat) : List Nat :=
  match compress payload with
  | some read_decomp => decomp_read_id read_decomp
  | none => []

/-- The entries the binary branch of `slow5_idx_build` makes for records that
start at `offset`. -/
def binary_entries (compress : List Nat → Option (List Nat)) : Nat → List (List Nat) → khash
  | _, [] => []
  | offset, p :: t =>
    (record_read_id compress p, ⟨offset, 8 + p.length⟩) ::
      binary_entries compress (offset + (8 + p.length)) t

/-- A sample index: the empty index after the insertion of the id "r1". -/
def idx_r1 : slow5_idx := (slow5_idx_insert slow5_idx_init_empty [114, 49] 0 40).2

/-- A sample index: the ids "r1" and "r2" inserted into the empty index. -/
def idx_r12 : slow5_idx := (slow5_idx_insert idx_r1 [114, 50] 40 50).2

/-- A sample text file: a one-line header, then the records "a" and "bb". -/
def text_hdr : List Nat := [35, 10]

/-- The lines of the records of the sample text file. -/
def text_lines : List (List Nat) := [[97, 9, 49, 10], [98, 98, 9, 50, 50, 10]]

/-- The payloads of the records of a sample binary file, not compressed: the
ids "a" and "bc", each followed by one more byte. -/
def bin_payloads : List (List Nat) := [[1, 0, 97, 7], [2, 0, 98, 99, 7]]

/-- The decompression of the method "none": the identity. -/
def press_none : List Nat → Option (List Nat) := fun b => some b

/-- The lines of a text file in which the id "a" occurs twice. -/
def dup_lines : List (List Nat) := [[97, 9, 49, 10], [98, 9, 50, 10], [97, 9, 51, 10]]

/-- The payloads of a binary file in which the id "a" occurs twice. -/
def dup_payloads : List (List Nat) := [[1, 0, 97, 7], [2, 0, 98, 99, 7], [1, 0, 97, 8]]

/-- A binary file in which the id "a" occurs twice. -/
def dup_file : slow5_file :=
  ⟨⟨text_hdr ++ concat_bytes (dup_payloads.map record_bytes) ++ defs0.SLOW5_BINARY_EOF, 0, false⟩,
    .SLOW5_FORMAT_BINARY, press_none, 2⟩

/-- A binary file that ends inside the size prefix of its second record. -/
def short_prefix_file : slow5_file :=
  ⟨⟨text_hdr ++ record_bytes [1, 0, 97, 7] ++ [5, 0, 0], 0, false⟩,
    .SLOW5_FORMAT_BINARY, press_none, 2⟩

/-- A binary file that ends inside the payload of its second record. -/
def short_payload_file : slow5_file :=
  ⟨⟨text_hdr ++ record_bytes [1, 0, 97, 7] ++ le_bytes 8 5 ++ [2, 0, 98], 0, false⟩,
    .SLOW5_FORMAT_BINARY, press_none, 2⟩

/-- The sample binary file read with a decompression that fails. -/
def bad_press_file : slow5_file :=
  ⟨⟨text_hdr ++ concat_bytes (bin_payloads.map record_bytes) ++ defs0.SLOW5_BINARY_EOF, 0, false⟩,
    .SLOW5_FORMAT_BINARY, fun _ => none, 2⟩

/-- The sample binary file with a start of records that is no `off_t`, for
which the seek fails. -/
def bad_seek_file : slow5_file :=
  ⟨⟨text_hdr ++ concat_bytes (bin_payloads.map record_bytes) ++ defs0.SLOW5_BINARY_EOF, 0, false⟩,
    .SLOW5_FORMAT_BINARY, press_none, 2 ^ 63⟩

/-- The sample binary file: a two-byte header, the two sample records, the
end-of-file marker. -/
def bin_data : List Nat :=
  text_hdr ++ concat_bytes (bin_payloads.map record_bytes) ++ defs0.SLOW5_BINARY_EOF

/-- The index built from the sample binary file. -/
def bin_index : slow5_idx :=
  { version := ⟨0, 0, 0⟩
    ids := [97] :: [98, 99] :: List.replicate 14 []
    num_ids := 2
    cap_ids := 16
    hash := [([97], ⟨2, 12⟩), ([98, 99], ⟨14, 13⟩)] }

/-! ## Auxiliary field types (`slow5.h`) -/

/-- The `enum aux_type` of `slow5.h`, in the order of its enumerators. -/
inductive aux_type where
  | INT8_T
  | INT16_T
  | INT32_T
  | INT64_T
  | UINT8_T
  | UINT16_T
  | UINT32_T
  | UINT64_T
  | FLOAT
  | DOUBLE
  | CHAR
  | INT8_T_ARRAY
  | INT16_T_ARRAY
  | INT32_T_ARRAY
  | INT64_T_ARRAY
  | UINT8_T_ARRAY
  | UINT16_T_ARRAY
  | UINT32_T_ARRAY
  | UINT64_T_ARRAY
  | FLOAT_ARRAY
  | DOUBLE_ARRAY
  | STRING
deriving DecidableEq, Repr

/-- The value of an enumerator: `INT8_T = 0` and each next one is one more. -/
def aux_type.val : aux_type → Int
  | .INT8_T => 0
  | .INT16_T => 1
  | .INT32_T => 2
  | .INT64_T => 3
  | .UINT8_T => 4
  | .UINT16_T => 5
  | .UINT32_T => 6
  | .UINT64_T => 7
  | .FLOAT => 8
  | .DOUBLE => 9
  | .CHAR => 10
  | .INT8_T_ARRAY => 11
  | .INT16_T_ARRAY => 12
  | .INT32_T_ARRAY => 13
  | .INT64_T_ARRAY => 14
  | .UINT8_T_ARRAY => 15
  | .UINT16_T_ARRAY => 16
  | .UINT32_T_ARRAY => 17
  | .UINT64_T_ARRAY => 18
  | .FLOAT_ARRAY => 19
  | .DOUBLE_ARRAY => 20
  | .STRING => 21

/-- The enumerators in their order. -/
def aux_type.all : List aux_type :=
  [.INT8_T, .INT16_T, .INT32_T, .INT64_T, .UINT8_T, .UINT16_T, .UINT32_T, .UINT64_T,
   .FLOAT, .DOUBLE, .CHAR,
   .INT8_T_ARRAY, .INT16_T_ARRAY, .INT32_T_ARRAY, .INT64_T_ARRAY, .UINT8_T_ARRAY,
   .UINT16_T_ARRAY, .UINT32_T_ARRAY, .UINT64_T_ARRAY, .FLOAT_ARRAY, .DOUBLE_ARRAY, .STRING]

/-- The cast `(enum aux_type) v`: the enumerator of value `v`, `none` when the
value names no enumerator. -/
def aux_type.of_val (v : Int) : Option aux_type :=
  aux_type.all.find? (fun t => t.val = v)

/-- The macro `IS_PTR(type)`: `(type >= INT8_T_ARRAY)`. -/
def IS_PTR (type : aux_type) : Bool :=
  decide (type.val ≥ aux_type.INT8_T_ARRAY.val)

/-- The macro `TO_PRIM_TYPE(type)`: `((enum aux_type) (type - INT8_T_ARRAY))`. -/
def TO_PRIM_TYPE (type : aux_type) : Option aux_type :=
  aux_type.of_val (type.val - aux_type.INT8_T_ARRAY.val)

/-- The `struct aux_type_meta`. -/
structure aux_type_meta where
  type : aux_type
  size : Nat
  type_str : String
deriving DecidableEq, Repr

/-- The table `AUX_TYPE_META` of `slow5.h`; `sizeof` of the fixed-width
integers is their width in bytes, of `float` 4, of `double` 8, of `char` 1. -/
def AUX_TYPE_META : List aux_type_meta :=
  [ ⟨.INT8_T, 1, "int8_t"⟩,
    ⟨.INT16_T, 2, "int16_t"⟩,
    ⟨.INT32_T, 4, "int32_t"⟩,
    ⟨.INT64_T, 8, "int64_t"⟩,
    ⟨.UINT8_T, 1, "uint8_t"⟩,
    ⟨.UINT16_T, 2, "uint16_t"⟩,
    ⟨.UINT32_T, 4, "uint32_t"⟩,
    ⟨.UINT64_T, 8, "uint64_t"⟩,
    ⟨.FLOAT, 4, "float"⟩,
    ⟨.DOUBLE, 8, "double"⟩,
    ⟨.CHAR, 1, "char"⟩,
    ⟨.INT8_T_ARRAY, 1, "int8_t*"⟩,
    ⟨.INT16_T_ARRAY, 2, "int16_t*"⟩,
    ⟨.INT32_T_ARRAY, 4, "int32_t*"⟩,
    ⟨.INT64_T_ARRAY, 8, "int64_t*"⟩,
    ⟨.UINT8_T_ARRAY, 1, "uint8_t*"⟩,
    ⟨.UINT16_T_ARRAY, 2, "uint16_t*"⟩,
    ⟨.UINT32_T_ARRAY, 4, "uint32_t*"⟩,
    ⟨.UINT64_T_ARRAY, 8, "uint64_t*"⟩,
    ⟨.FLOAT_ARRAY, 4, "float*"⟩,
    ⟨.DOUBLE_ARRAY, 8, "double*"⟩,
    ⟨.STRING, 1, "char*"⟩ ]

/-- The table entry `AUX_TYPE_META[k]`. -/
def AUX_TYPE_META_at (k : aux_type) : Option aux_type_meta :=
  AUX_TYPE_META.get? k.val.toNat

/-- The element width in bytes the spec gives a scalar kind: 1, 2, 4, 8 for
the 8/16/32/64-bit integers, signed or not, 4 for float, 8 for double, 1 for
char. -/
def scalar_width : aux_type → Option Nat
  | .INT8_T | .UINT8_T | .CHAR => some 1
  | .INT16_T | .UINT16_T => some 2
  | .INT32_T | .UINT32_T | .FLOAT => some 4
  | .INT64_T | .UINT64_T | .DOUBLE => some 8
  | _ => none

/-- A sample sidecar stream whose first bytes are not the magic number. -/
def bad_magic_data : List Nat := [83, 76, 79, 87, 53, 73, 68, 88, 2, 0, 1, 0, 7, 7]

/-- A sample sidecar stream with the magic number and the version 0.2.0,
above the 0.1.0 of the sample constants, followed by bytes of an entry. -/
def bad_version_data : List Nat :=
  defs0.SLOW5_INDEX_MAGIC_NUMBER ++ [0, 2, 0] ++ List.replicate 52 0 ++
    sidecar_entry ([114, 49], ⟨0, 40⟩) ++ defs0.SLOW5_INDEX_EOF

/-- The sidecar `slow5_idx_write` emits for the sample index holding "r1":
a 64-byte header, one entry of 20 bytes, the 8-byte end-of-file marker. -/
def sidecar_r1 : List Nat := (slow5_idx_write defs0 idx_r1).2

/-- The result of `slow5_idx_read` on the sample sidecar cut after `k`
bytes. -/
def read_cut (k : Nat) : Option Int :=
  (slow5_idx_read defs0 slow5_idx_init_empty ⟨sidecar_r1.take k, 0, false⟩).map (fun r => r.1)

/-- `slow5_idx_to` (slow5_idx.c, 78-94): the result, and the sidecar file at
`pathname` when it was opened for writing, with the bytes written to it
(`none` when it was not opened). -/
def slow5_idx_to (K : slow5_defs) (s5p : slow5_file) : Option (Int × Option (List Nat)) :=
  match slow5_idx_build K slow5_idx_init_empty s5p with
  | none => none
  | some (r, index, _) =>
    if r = -1 then some (-1, none)
    else
      match slow5_idx_write K index with
      | (w, out) => if w ≠ 0 then some (-1, some out) else some (0, some out)

/-- The sample constants with a helper `slow5_is_eof` that fails when the
stream stands at byte 14, leaving -5 (the sample SLOW5_ERR_IO) in
`slow5_errno`, and is the helper modelled from the spec elsewhere. -/
def defs_eof_fails : slow5_defs :=
  { defs0 with
    slow5_is_eof := fun fp eof => if fp.pos = 14 then (-1, -5, fp) else slow5_is_eof fp eof }

/-- The sample binary file as a `slow5_file`, its records starting at byte 2,
the second of them at byte 14. -/
def bin_file : slow5_file :=
  ⟨⟨bin_data, 0, false⟩, .SLOW5_FORMAT_BINARY, press_none, 2⟩

/-- What `slow5_idx_get` gives for an id: its result code and the entry it
stores through the out-parameter (the out-parameter holding zeroes before). -/
def slow5_idx.lookup (index : slow5_idx) (id : List Nat) : Int × Option slow5_rec_idx :=
  ((slow5_idx_get index id (some ⟨0, 0⟩)).1, (slow5_idx_get index id (some ⟨0, 0⟩)).2.2)

/-- A sample index with the ids and entries of `idx_r12` but another
capacity, another order of the buckets of its map and another version. -/
def idx_r12_other : slow5_idx :=
  { version := ⟨0, 1, 0⟩
    ids := [[114, 49], [114, 50], [7]]
    num_ids := 2
    cap_ids := 3
    hash := [([114, 50], ⟨40, 50⟩), ([114, 49], ⟨0, 40⟩)] }

/-! ## The split tool (`src/split.c`) -/

/-- The `struct slow5_rec`, as far as the split tool uses it: the read id,
the read group, and the other columns kept as bytes. -/
structure slow5_rec where
  read_id : List Nat
  read_group : Nat
  columns : List Nat
deriving DecidableEq, Repr

/-- The `slow5_file_t` as the split tool sees it after `slow5_open`: the
number of read groups of the header and the records `slow5_get_next` has yet
to give. -/
structure slow5_file_t where
  num_read_groups : Nat
  records : List slow5_rec
deriving DecidableEq, Repr

/-- Modelled from the spec: `slow5_get_next` of `slow5.c`, which is not among
the sources: "Sequential `next` yields records in file order", and at the
end of the records the result is not 0 (`slow5.h` documents -2 for a read
that fails).  It gives the result, the record read and the handle
afterwards. -/
def slow5_get_next (s5p : slow5_file_t) : Int × Option slow5_rec × slow5_file_t :=
  match s5p.records with
  | [] => (-2, none, s5p)
  | r :: t => (0, some r, { s5p with records := t })

/-- The `enum SplitMethod`. -/
inductive SplitMethod where
  | READS_SPLIT
  | FILE_SPLIT
  | GROUP_SPLIT
deriving DecidableEq, Repr

/-- The `meta_split_method`: the method and the number given with -f or -r. -/
structure meta_split_method where
  splitMethod : SplitMethod
  n : Nat
deriving DecidableEq, Repr

/-- The counting loop of FILE_SPLIT (split.c, 146-151); `number_of_records`
is an `int`, which the model follows below `2 ^ 31`. -/
def file_split_count : Nat → slow5_file_t → Int → Option Int
  | 0, _, _ => none
  | fuel + 1, s5p, number_of_records =>
    match slow5_get_next s5p with
    | (ret, _, s5p) =>
      if ret = 0 then file_split_count fuel s5p (number_of_records + 1)
      else some number_of_records

/-- A list cut into consecutive pieces of the given sizes. -/
def chunks : List Nat → List slow5_rec → List (List slow5_rec)
  | [], _ => []
  | k :: ks, l => l.take k :: chunks ks (l.drop k)

/-- Sample records: `sample_recs k` are the reads "0" to "k-1" of group 0. -/
def sample_recs (k : Nat) : List slow5_rec :=
  (List.range k).map (fun i => ⟨[48 + i], 0, []⟩)

/-- Sample records of a file with two read groups. -/
def group_recs : List slow5_rec :=
  [⟨[97], 1, [1]⟩, ⟨[98], 0, [2]⟩, ⟨[99], 1, [3]⟩]

/-- The record counts of the output files of a file split of `N` records
into `n` files, as the loop of split.c, 165-170, assigns them. -/
def file_split_sizes (N n : Nat) : List Nat :=
  List.replicate (N % n) (N / n + 1) ++
    (if N / n = 0 then [] else List.replicate (n - N % n) (N / n))

/-- The sample binary file with its stream at position `p`. -/
def bin_file_at (p : Nat) : slow5_file :=
  ⟨⟨bin_data, p, false⟩, .SLOW5_FORMAT_BINARY, press_none, 2⟩

/-- A sample decompression whose input ends in a check byte, as a zlib
stream ends in its Adler-32 checksum: the compressed record is the record
followed by the sum of its bytes modulo 256, and the decompression fails
(NULL) when the check byte is wrong. -/
def press_checked (b : List Nat) : Option (List Nat) :=
  match b.getLast? with
  | none => none
  | some c => if b.dropLast.sum % 256 = c then some b.dropLast else none

/-- A binary file of one record, the id "a" and one more byte, compressed
with the sample method and closed by the end-of-file marker. -/
def checked_file : slow5_file :=
  ⟨⟨text_hdr ++ record_bytes [1, 0, 97, 7, 105] ++ defs0.SLOW5_BINARY_EOF, 0, false⟩,
    .SLOW5_FORMAT_BINARY, press_checked, 2⟩

/-- The same file with another last byte of the compressed record: the size
prefix and the bytes of the read-id length and of the read id are the
same. -/
def checked_file_other : slow5_file :=
  ⟨⟨text_hdr ++ record_bytes [1, 0, 97, 7, 106] ++ defs0.SLOW5_BINARY_EOF, 0, false⟩,
    .SLOW5_FORMAT_BINARY, press_checked, 2⟩

/-- The payloads of a binary file with the ids of the sample binary file and
other bytes after them. -/
def bin_payloads_other : List (List Nat) := [[1, 0, 97, 8], [2, 0, 98, 99, 9]]

/-- The index after a sequence of calls of `slow5_idx_insert`, each call
given by its arguments read id, offset and size. -/
def slow5_idx_insert_all : slow5_idx → List (List Nat × Nat × Nat) → slow5_idx
  | index, [] => index
  | index, c :: t => slow5_idx_insert_all (slow5_idx_insert index c.1 c.2.1 c.2.2).2 t

/-- Sample calls of `slow5_idx_insert`: "r1", "r1" once more, then "r2". -/
def insert_calls : List (List Nat × Nat × Nat) :=
  [([114, 49], 0, 40), ([114, 49, 0, 7], 40, 5), ([114, 50], 40, 50)]

/-- The `proc_arg_t` of the tool's header, which is not among the sources:
the fields `split_iop` sets and `split_child_worker` reads. -/
structure proc_arg_t where
  starti : Int
  endi : Int
  proc_index : Int
deriving DecidableEq, Repr

/-- The loop of `split_iop` that sets `proc_args` (split.c, 293-302), with
`k` turns left at `t` and `i`.  `i` and `step` are `int32_t`, which the model
follows below `2 ^ 31`. -/
def split_iop_args (num_slow5_files step : Int) : Nat → Int → Int → List proc_arg_t
  | 0, _, _ => []
  | k + 1, t, i =>
    ⟨i, if i + step > num_slow5_files then num_slow5_files else i + step, t⟩ ::
      split_iop_args num_slow5_files step k (t + 1) (i + step)

/-- The array `proc_args` of `split_iop` for `iop` processes and
`num_slow5_files` input files (split.c, 279-302). -/
def split_iop_proc_args (iop num_slow5_files : Int) : List proc_arg_t :=
  let step := Int.tdiv (num_slow5_files + iop - 1) iop
  split_iop_args num_slow5_files step iop.toNat 0 0

/-- The exit codes of `stdlib.h`. -/
def EXIT_SUCCESS : Int := 0

/-- The exit code of a failure. -/
def EXIT_FAILURE : Int := 1

/-! ## Sequential reading (`slow5_get_next`) -/

/-- Modelled from the spec: `slow5_get_next` of `slow5.c`, which is not among
the sources (`slow5.h` declares it), as it reads the stream of the file: "in
text form, read a line; in binary form, read size_prefix, read that many
bytes, depress via C2, decode via C5.  If the file-end marker appears before
a record, return EOF.  If a size-prefix read short-reads, return truncated."
The results are those `slow5.h` and the conversion test give: 0 when a record
was read, -2 when none could be read, which is also the result at the end of
the records, -3 when the bytes read do not parse.  `parse` stands for the
decoding of a record from its line or from its decompressed bytes, which is
not among the sources either. -/
def slow5_get_next_bytes (K : slow5_defs) (parse : slow5_fmt → List Nat → Option slow5_rec)
    (s5p : slow5_file) : Int × Option slow5_rec × slow5_file :=
  match s5p.format with
  | .SLOW5_FORMAT_ASCII =>
    match getline s5p.fp with
    | (buf_len, buf, fp) =>
      if buf_len = -1 then (-2, none, { s5p with fp := fp })
      else
        match parse .SLOW5_FORMAT_ASCII buf with
        | none => (-3, none, { s5p with fp := fp })
        | some r => (0, some r, { s5p with fp := fp })
  | .SLOW5_FORMAT_BINARY =>
    match K.slow5_is_eof s5p.fp K.SLOW5_BINARY_EOF with
    | (is_eof, _, fp) =>
      if is_eof ≠ 0 then (-2, none, { s5p with fp := fp })
      else
        match fread fp 8 1 with
        | (size_bytes, n, fp) =>
          if n ≠ 1 then ( K.SLOW5_ERR_TRUNC, none, { s5p with fp := fp })
          else
            match fread fp (le_val size_bytes % 2 ^ 64) 1 with
            | (read_comp, n, fp) =>
              if n ≠ 1 then (-2, none, { s5p with fp := fp })
              else
                match s5p.compress read_comp with
                | none => (-2, none, { s5p with fp := fp })
                | some read_decomp =>
                  match parse .SLOW5_FORMAT_BINARY read_decomp with
                  | none => (-3, none, { s5p with fp := fp })
                  | some r => (0, some r, { s5p with fp := fp })
  | .SLOW5_FORMAT_UNKNOWN => (-2, none, s5p)

/-- The results and records of `k` calls of `slow5_get_next` on the stream,
one after the other. -/
def slow5_get_next_calls (K : slow5_defs) (parse : slow5_fmt → List Nat → Option slow5_rec) :
    Nat → slow5_file → List (Int × Option slow5_rec)
  | 0, _ => []
  | k + 1, s5p =>
    match slow5_get_next_bytes K parse s5p with
    | (r, read, s5p) => (r, read) :: slow5_get_next_calls K parse k s5p

/-- The results and records of `k` calls of `slow5_get_next` on the handle
the split tool sees. -/
def slow5_get_next_n : Nat → slow5_file_t → List (Int × Option slow5_rec)
  | 0, _ => []
  | k + 1, s5p =>
    match slow5_get_next s5p with
    | (r, read, s5p) => (r, read) :: slow5_get_next_n k s5p

/-- A sample decoding of records: the read id is the first column of a line,
or the bytes the read-id length announces; the read group is 0 and the other
columns are the bytes that follow the read id. -/
def parse_sample (format : slow5_fmt) (b : List Nat) : Option slow5_rec :=
  match format with
  | .SLOW5_FORMAT_ASCII =>
    some ⟨line_read_id b, 0, b.drop ((line_read_id b).length + 1)⟩
  | .SLOW5_FORMAT_BINARY =>
    some ⟨decomp_read_id b, 0, b.drop (2 + (decomp_read_id b).length)⟩
  | .SLOW5_FORMAT_UNKNOWN => none

/-- The records of the sample text file, as `parse_sample` decodes them. -/
def text_recs : List slow5_rec := [⟨[97], 0, [49, 10]⟩, ⟨[98, 98], 0, [50, 50, 10]⟩]

/-- The records of the sample binary file, as `parse_sample` decodes them. -/
def bin_recs : List slow5_rec := [⟨[97], 0, [7]⟩, ⟨[98, 99], 0, [7]⟩]

/-! ## The split tool: its output files and its processes -/

/-- How a piece of the split tool ends: it runs to its end, a `return` leaves
`split_child_worker`, `exit(status)` ends the process, or an exception that
nobody catches ends the process through `std::terminate` (SIGABRT). -/
inductive ending where
  | normal
  | returned
  | exited (status : Int)
  | aborted
deriving DecidableEq, Repr

/-- The value `std::string::npos`, the greatest `size_t`. -/
def npos : Nat := 2 ^ 64 - 1

/-- `std::string::find_last_of(c)`: the position of the last `c` of the
string, `npos` when it has none. -/
def find_last_of (s : List Nat) (c : Nat) : Nat :=
  if c ∈ s then s.length - 1 - s.reverse.indexOf c else npos

/-- `std::string::substr(pos, len)`: the characters from `pos` on, at most
`len` of them; `none` stands for the `std::out_of_range` it throws when `pos`
is greater than the size of the string. -/
def substr (s : List Nat) (pos len : Nat) : Option (List Nat) :=
  if pos > s.length then none else some ((s.drop pos).take len)

/-- The digits of `std::to_string`, the last first, with `fuel` steps left. -/
def to_string_loop : Nat → Nat → List Nat → List Nat
  | 0, _, acc => acc
  | fuel + 1, v, acc =>
    if v < 10 then (48 + v) :: acc else to_string_loop fuel (v / 10) ((48 + v % 10) :: acc)

/-- `std::to_string` of an unsigned integer: its decimal digits. -/
def to_string (v : Nat) : List Nat := to_string_loop (v + 1) v []

/-- The `extension` of `split_child_worker` (split.c, 47-50): ".slow5" for
the text format and ".blow5" otherwise. -/
def split_extension (format_out : slow5_fmt) : List Nat :=
  if format_out = .SLOW5_FORMAT_ASCII then [46, 115, 108, 111, 119, 53]
  else [46, 98, 108, 111, 119, 53]

/-- The path of an output file (split.c, 86-88, 171-173 and 226-228): the
output directory, then the input path from its last '/' on without its last
6 characters, then "_", the number and the extension.  The length passed to
`substr` is computed in `size_t`.  `none` stands for the exception of
`substr`. -/
def split_out_path (output_dir slow5_files_i : List Nat) (file_count : Nat)
    (extension : List Nat) : Option (List Nat) :=
  let pos := find_last_of slow5_files_i 47
  match substr slow5_files_i pos
      ((((slow5_files_i.length : Int) - (pos : Int) - 6) % 2 ^ 64).toNat) with
  | none => none
  | some stem => some (output_dir ++ (stem ++ [95] ++ to_string file_count ++ extension))

/-- What the split tool gets from its surroundings, the file system and the
functions of `slow5.c` that are not among the sources.  `slow5_open` gives
for a path what `slow5_open(path, "r")` returns (`none` for NULL; the input
files do not change while the tool runs); `fopen` tells whether
`fopen(path, "w")` gives a stream; the other three give the result of the
function of that name when it is called for the output file at that path. -/
structure split_env where
  slow5_open : List Nat → Option slow5_file_t
  fopen : List Nat → Bool
  slow5_hdr_add_rg_data : List Nat → Int
  slow5_hdr_fwrite : List Nat → Int
  slow5_rec_fwrite : List Nat → slow5_rec → Int

/-- An output file of the split tool: its path and the records written to it
after the header, in the order of writing.  A file whose writing ended in
`exit` is listed with what was written to it before. -/
structure out_file where
  path : List Nat
  records : List slow5_rec
deriving DecidableEq, Repr

/-- The inner loop of READS_SPLIT (split.c, 113-124): how it ends, the last
result of `slow5_get_next`, the records written and the handle; `none` when
the fuel runs out.  The counter counts records of the file and does not
overflow. -/
def reads_split_records (E : split_env) (slow5_path : List Nat) (n : Nat) :
    Nat → slow5_file_t → Nat → List slow5_rec →
      Option (ending × Int × List slow5_rec × slow5_file_t)
  | 0, _, _, _ => none
  | fuel + 1, s5p, record_count, written =>
    match slow5_get_next s5p with
    | (ret, read, s5p) =>
      if ret = 0 then
        if read.any (fun r => decide (E.slow5_rec_fwrite slow5_path r = -1)) then
          some (.exited EXIT_FAILURE, ret, written, s5p)
        else
          let written := written ++ read.toList
          let record_count := record_count + 1
          if record_count = n then some (.normal, ret, written, s5p)
          else reads_split_records E slow5_path n fuel s5p record_count written
      else some (.normal, ret, written, s5p)

/-- The outer loop of READS_SPLIT (split.c, 85-137): how it ends and the
output files made, in the order of their making; `none` when the fuel runs
out. -/
def reads_split_files (E : split_env) (output_dir slow5_files_i extension : List Nat)
    (n : Nat) : Nat → slow5_file_t → Nat → List out_file → Option (ending × List out_file)
  | 0, _, _, _ => none
  | fuel + 1, s5p, file_count, outs =>
    match split_out_path output_dir slow5_files_i file_count extension with
    | none => some (.aborted, outs)
    | some slow5_path =>
      if E.fopen slow5_path = false then some (.returned, outs)
      else if E.slow5_hdr_add_rg_data slow5_path < 0 then
        some (.exited EXIT_FAILURE, outs ++ [⟨slow5_path, []⟩])
      else if E.slow5_hdr_fwrite slow5_path = -1 then
        some (.exited EXIT_FAILURE, outs ++ [⟨slow5_path, []⟩])
      else
        match reads_split_records E slow5_path n (s5p.records.length + 1) s5p 0 [] with
        | none => none
        | some (e, ret, written, s5p) =>
          if e ≠ .normal then some (e, outs ++ [⟨slow5_path, written⟩])
          else if ret ≠ 0 then some (.normal, outs ++ [⟨slow5_path, written⟩])
          else
            reads_split_files E output_dir slow5_files_i extension n fuel s5p (file_count + 1)
              (outs ++ [⟨slow5_path, written⟩])

/-- The inner loop of FILE_SPLIT (split.c, 195-202): how it ends, the records
written and the handle. -/
def file_split_records (E : split_env) (slow5_path : List Nat) :
    Nat → slow5_file_t → Int → List slow5_rec →
      Option (ending × List slow5_rec × slow5_file_t)
  | 0, _, _, _ => none
  | fuel + 1, s5p, number_of_records_per_file, written =>
    if number_of_records_per_file > 0 then
      match slow5_get_next s5p with
      | (ret, read, s5p) =>
        if ret = 0 then
          if read.any (fun r => decide (E.slow5_rec_fwrite slow5_path r = -1)) then
            some (.exited EXIT_FAILURE, written, s5p)
          else
            file_split_records E slow5_path fuel s5p (number_of_records_per_file - 1)
              (written ++ read.toList)
        else some (.normal, written, s5p)
    else some (.normal, written, s5p)

/-- The outer loop of FILE_SPLIT (split.c, 165-212): how it ends and the
output files made. -/
def file_split_files (E : split_env) (output_dir slow5_files_i extension : List Nat)
    (limit : Int) :
    Nat → slow5_file_t → Int → Int → Nat → List out_file → Option (ending × List out_file)
  | 0, _, _, _, _, _ => none
  | fuel + 1, s5p, number_of_records, rem, file_count, outs =>
    if number_of_records > 0 then
      let number_of_records_per_file := (if rem > 0 then 1 else 0) + limit
      match split_out_path output_dir slow5_files_i file_count extension with
      | none => some (.aborted, outs)
      | some slow5_path =>
        if E.fopen slow5_path = false then some (.returned, outs)
        else if E.slow5_hdr_add_rg_data slow5_path < 0 then
          some (.exited EXIT_FAILURE, outs ++ [⟨slow5_path, []⟩])
        else if E.slow5_hdr_fwrite slow5_path = -1 then
          some (.exited EXIT_FAILURE, outs ++ [⟨slow5_path, []⟩])
        else
          match file_split_records E slow5_path (s5p.records.length + 1) s5p
              number_of_records_per_file [] with
          | none => none
          | some (e, written, s5p) =>
            if e ≠ .normal then some (e, outs ++ [⟨slow5_path, written⟩])
            else
              file_split_files E output_dir slow5_files_i extension limit fuel s5p
                (number_of_records - number_of_records_per_file) (rem - 1) (file_count + 1)
                (outs ++ [⟨slow5_path, written⟩])
    else some (.normal, outs)

/-- The reading loop of GROUP_SPLIT (split.c, 251-260) for the read group
`j`: how it ends and the records written. -/
def group_split_records (E : split_env) (slow5_path : List Nat) (j : Nat) :
    Nat → slow5_file_t → List slow5_rec → Option (ending × List slow5_rec)
  | 0, _, _ => none
  | fuel + 1, s5p, written =>
    match slow5_get_next s5p with
    | (ret, read, s5p) =>
      if ret = 0 then
        match read with
        | some r =>
          if r.read_group = j then
            if E.slow5_rec_fwrite slow5_path { r with read_group := 0 } = -1 then
              some (.exited EXIT_FAILURE, written)
            else
              group_split_records E slow5_path j fuel s5p
                (written ++ [{ r with read_group := 0 }])
          else group_split_records E slow5_path j fuel s5p written
        | none => group_split_records E slow5_path j fuel s5p written
      else some (.normal, written)

/-- The loop of GROUP_SPLIT over the read groups (split.c, 219-270), with
`k` groups yet to do from `j` on; each turn opens the input file anew. -/
def group_split_files (E : split_env) (output_dir slow5_files_i extension : List Nat) :
    Nat → Nat → List out_file → Option (ending × List out_file)
  | 0, _, outs => some (.normal, outs)
  | k + 1, j, outs =>
    match E.slow5_open slow5_files_i with
    | none => some (.returned, outs)
    | some slow5File_i =>
      match split_out_path output_dir slow5_files_i j extension with
      | none => some (.aborted, outs)
      | some slow5_path =>
        if E.fopen slow5_path = false then some (.returned, outs)
        else if E.slow5_hdr_add_rg_data slow5_path < 0 then
          some (.exited EXIT_FAILURE, outs ++ [⟨slow5_path, []⟩])
        else if E.slow5_hdr_fwrite slow5_path = -1 then
          some (.exited EXIT_FAILURE, outs ++ [⟨slow5_path, []⟩])
        else
          match group_split_records E slow5_path j (slow5File_i.records.length + 1)
              slow5File_i [] with
          | none => none
          | some (e, written) =>
            if e ≠ .normal then some (e, outs ++ [⟨slow5_path, written⟩])
            else
              group_split_files E output_dir slow5_files_i extension k (j + 1)
                (outs ++ [⟨slow5_path, written⟩])

/-- The body of the loop of `split_child_worker` (split.c, 51-272) for the
input file at the path `slow5_files_i`: how it ends (`normal` when the loop
goes on with the next file) and the output files made. -/
def split_child_worker_body (E : split_env) (output_dir extension : List Nat)
    (metaSplitMethod : meta_split_method) (slow5_files_i : List Nat) :
    Option (ending × List out_file) :=
  match E.slow5_open slow5_files_i with
  | none => some (.normal, [])
  | some slow5File_i =>
    let read_group_count_i := slow5File_i.num_read_groups
    if read_group_count_i = 1 ∧ metaSplitMethod.splitMethod = .GROUP_SPLIT then
      some (.normal, [])
    else if read_group_count_i > 1 ∧ metaSplitMethod.splitMethod ≠ .GROUP_SPLIT then
      some (.normal, [])
    else
      match metaSplitMethod.splitMethod with
      | .READS_SPLIT =>
        match E.slow5_open slow5_files_i with
        | none => some (.returned, [])
        | some slow5File_i =>
          reads_split_files E output_dir slow5_files_i extension metaSplitMethod.n
            (slow5File_i.records.length + 1) slow5File_i 0 []
      | .FILE_SPLIT =>
        match E.slow5_open slow5_files_i with
        | none => some (.returned, [])
        | some slow5File_i =>
          match file_split_count (slow5File_i.records.length + 1) slow5File_i 0 with
          | none => none
          | some number_of_records =>
            let limit := number_of_records / (metaSplitMethod.n : Int)
            let rem := number_of_records % (metaSplitMethod.n : Int)
            match E.slow5_open slow5_files_i with
            | none => some (.returned, [])
            | some slow5File_i =>
              file_split_files E output_dir slow5_files_i extension limit
                (slow5File_i.records.length + 1) slow5File_i number_of_records rem 0 []
      | .GROUP_SPLIT =>
        group_split_files E output_dir slow5_files_i extension read_group_count_i 0 []

/-- The loop of `split_child_worker` over its input files (split.c, 51-273),
with `k` turns left at index `i`: how the worker ends and, for each input
file reached, the output files made. -/
def split_child_worker_loop (E : split_env) (slow5_files : List (List Nat))
    (output_dir extension : List Nat) (metaSplitMethod : meta_split_method) :
    Nat → Int → List (Int × List out_file) → Option (ending × List (Int × List out_file))
  | 0, _, done => some (.normal, done)
  | k + 1, i, done =>
    match split_child_worker_body E output_dir extension metaSplitMethod
        (slow5_files.getD i.toNat []) with
    | none => none
    | some (e, outs) =>
      if e = .normal then
        split_child_worker_loop E slow5_files output_dir extension metaSplitMethod k (i + 1)
          (done ++ [(i, outs)])
      else some (e, done ++ [(i, outs)])

/-- `split_child_worker` (split.c, 44-274): the loop runs for the indices
`i` with `args.starti ≤ i < args.endi`. -/
def split_child_worker (E : split_env) (args : proc_arg_t) (slow5_files : List (List Nat))
    (output_dir : List Nat) (metaSplitMethod : meta_split_method) (format_out : slow5_fmt) :
    Option (ending × List (Int × List out_file)) :=
  split_child_worker_loop E slow5_files output_dir (split_extension format_out)
    metaSplitMethod (args.endi - args.starti).toNat args.starti []

/-- The workers of the children of `split_iop`, one for each element of
`proc_args`: how each ends and what it makes. -/
def split_iop_workers (E : split_env) (slow5_files : List (List Nat)) (output_dir : List Nat)
    (metaSplitMethod : meta_split_method) (format_out : slow5_fmt) :
    List proc_arg_t → Option (List (ending × List (Int × List out_file)))
  | [] => some []
  | args :: t =>
    match split_child_worker E args slow5_files output_dir metaSplitMethod format_out with
    | none => none
    | some r =>
      match split_iop_workers E slow5_files output_dir metaSplitMethod format_out t with
      | none => none
      | some rest => some (r :: rest)

/-- The status `waitpid` gives for a child of `split_iop` (split.c, 311-314):
the child calls `exit(EXIT_SUCCESS)` when its worker returns, leaves the
low 8 bits of the status of an `exit` of its worker, and is killed by a
signal (`none`) when an exception ends it. -/
def child_status : ending → Option Int
  | .exited status => some (status % 256)
  | .aborted => none
  | _ => some EXIT_SUCCESS

/-- The loop of `split_iop` that waits for its children (split.c, 332-361):
the parent calls `exit(EXIT_FAILURE)` at the first child that exited with a
status other than 0 or did not exit. -/
def split_iop_wait : List (Option Int) → ending
  | [] => .normal
  | some status :: t => if status ≠ 0 then .exited EXIT_FAILURE else split_iop_wait t
  | none :: _ => .exited EXIT_FAILURE

/-- `split_iop` (split.c, 277-362): how it ends and the output files of its
workers; `none` when a worker does not end.  With `iop = 1` the worker runs
in the process itself.  `fork` and `waitpid` are taken to succeed. -/
def split_iop (E : split_env) (iop : Int) (slow5_files : List (List Nat))
    (output_dir : List Nat) (metaSplitMethod : meta_split_method) (format_out : slow5_fmt) :
    Option (ending × List (List (Int × List out_file))) :=
  let num_slow5_files : Int := slow5_files.length
  let proc_args := split_iop_proc_args iop num_slow5_files
  if iop = 1 then
    match proc_args with
    | [] => some (.normal, [])
    | args :: _ =>
      match split_child_worker E args slow5_files output_dir metaSplitMethod format_out with
      | none => none
      | some (e, outs) => some (if e = .returned then .normal else e, [outs])
  else
    match split_iop_workers E slow5_files output_dir metaSplitMethod format_out proc_args with
    | none => none
    | some rs => some (split_iop_wait (rs.map (fun r => child_status r.1)), rs.map (fun r => r.2))

/-- How `split_main` ends: it returns a value, the process ends in `exit`, or
an exception ends the process (SIGABRT). -/
inductive main_ending where
  | returned (value : Int)
  | exited (status : Int)
  | aborted
deriving DecidableEq, Repr

/-- The command line of `split_main` as `getopt_long` and `list_all_items`
leave it: `argc`, whether an option was unknown, the value of `--iop` (1 by
default), the split method with its number, the output directory (`none`
when -o is missing), the output format (binary unless -s is given) and the
paths of the input files. -/
structure split_cmd where
  argc : Int
  unknown_option : Bool
  iop : Int
  metaSplitMethod : meta_split_method
  arg_dir_out : Option (List Nat)
  format_out : slow5_fmt
  slow5_files : List (List Nat)
deriving DecidableEq, Repr

/-- `split_main` (split.c, 364-509) for a command line without -h: how it
ends and the output files of the workers. -/
def split_main (E : split_env) (cmd : split_cmd) :
    Option (main_ending × List (List (Int × List out_file))) :=
  if cmd.argc ≤ 1 then some (.returned EXIT_FAILURE, [])
  else if cmd.unknown_option then some (.returned EXIT_FAILURE, [])
  else if cmd.iop < 1 then some (.exited EXIT_FAILURE, [])
  else if cmd.metaSplitMethod.splitMethod = .READS_SPLIT ∧ cmd.metaSplitMethod.n = 0 then
    some (.returned EXIT_FAILURE, [])
  else if cmd.metaSplitMethod.splitMethod = .FILE_SPLIT ∧ cmd.metaSplitMethod.n = 0 then
    some (.returned EXIT_FAILURE, [])
  else
    match cmd.arg_dir_out with
    | none => some (.returned EXIT_FAILURE, [])
    | some arg_dir_out =>
      match split_iop E cmd.iop cmd.slow5_files arg_dir_out cmd.metaSplitMethod
          cmd.format_out with
      | none => none
      | some (e, outs) =>
        match e with
        | .exited status => some (.exited status, outs)
        | .aborted => some (.aborted, outs)
        | _ => some (.returned EXIT_SUCCESS, outs)

/-- The output files can be opened and written: every `fopen` gives a
stream, and no read group, header or record fails to be written. -/
def split_env.writes (E : split_env) : Prop :=
  ∀ p, E.fopen p = true ∧ 0 ≤ E.slow5_hdr_add_rg_data p ∧ E.slow5_hdr_fwrite p ≠ -1 ∧
    ∀ r, E.slow5_rec_fwrite p r ≠ -1

/-- The part of the input path that names the output files: from its last
'/' on, without its last 6 characters. -/
def split_stem (slow5_files_i : List Nat) : List Nat :=
  (slow5_files_i.drop (find_last_of slow5_files_i 47)).take
    ((((slow5_files_i.length : Int) - (find_last_of slow5_files_i 47 : Int) - 6)
      % 2 ^ 64).toNat)

/-- The path of the output file with the number `k` for an input path that
has a '/'. -/
def out_path (output_dir slow5_files_i extension : List Nat) (k : Nat) : List Nat :=
  output_dir ++ (split_stem slow5_files_i ++ [95] ++ to_string k ++ extension)

/-- Output files with the paths `P file_count`, `P (file_count + 1)`, and so
on, and the given contents. -/
def number_files (P : Nat → List Nat) : Nat → List (List slow5_rec) → List out_file
  | _, [] => []
  | file_count, w :: ws => ⟨P file_count, w⟩ :: number_files P (file_count + 1) ws

/-- A sample surrounding: the files listed can be opened, every output file
can be opened and every write succeeds. -/
def env_sample (files : List (List Nat × slow5_file_t)) : split_env :=
  { slow5_open := fun p => files.lookup p
    fopen := fun _ => true
    slow5_hdr_add_rg_data := fun _ => 0
    slow5_hdr_fwrite := fun _ => 0
    slow5_rec_fwrite := fun _ _ => 0 }

/-- The sample path "d/a.blow5". -/
def path_a : List Nat := [100, 47, 97, 46, 98, 108, 111, 119, 53]

/-- The sample path "d/g.blow5". -/
def path_g : List Nat := [100, 47, 103, 46, 98, 108, 111, 119, 53]

/-- The sample path "d/x.blow5", of a file that cannot be opened. -/
def path_x : List Nat := [100, 47, 120, 46, 98, 108, 111, 119, 53]

/-- The sample path "a.blow5", which has no '/'. -/
def path_plain : List Nat := [97, 46, 98, 108, 111, 119, 53]

/-- The sample output directory "out". -/
def dir_out : List Nat := [111, 117, 116]

/-- A sample surrounding with one input file, "d/a.blow5", of one read group
and the `k` sample records. -/
def env_a (k : Nat) : split_env := env_sample [(path_a, ⟨1, sample_recs k⟩)]

/-- A sample surrounding with one input file, "a.blow5" in the working
directory, of one read group and the `k` sample records. -/
def env_plain (k : Nat) : split_env := env_sample [(path_plain, ⟨1, sample_recs k⟩)]

/-- A sample surrounding with one input file, "d/g.blow5", of two read
groups. -/
def env_g : split_env := env_sample [(path_g, ⟨2, group_recs⟩)]

/-- A sample surrounding with one input file, "a.blow5" in the working
directory, of two read groups. -/
def env_plain_g : split_env := env_sample [(path_plain, ⟨2, group_recs⟩)]

/-- The extension ".blow5" of the binary output format. -/
def ext_blow5 : List Nat := split_extension .SLOW5_FORMAT_BINARY

/-- The input file at the path `p` is skipped by `split_child_worker`:
`slow5_open` returns NULL for it, or the split method refuses it (a single
read group with GROUP_SPLIT, several read groups with another method). -/
def split_skips (E : split_env) (metaSplitMethod : meta_split_method) (p : List Nat) : Prop :=
  E.slow5_open p = none ∨
    ∃ f, E.slow5_open p = some f ∧
      ((f.num_read_groups = 1 ∧ metaSplitMethod.splitMethod = .GROUP_SPLIT) ∨
        (f.num_read_groups > 1 ∧ metaSplitMethod.splitMethod ≠ .GROUP_SPLIT))

/-- The command line is refused by `split_main` before any file is read. -/
def split_cmd.refused (cmd : split_cmd) : Prop :=
  cmd.argc ≤ 1 ∨ cmd.unknown_option = true ∨ cmd.iop < 1 ∨
    (cmd.metaSplitMethod.splitMethod ≠ .GROUP_SPLIT ∧ cmd.metaSplitMethod.n = 0) ∨
    cmd.arg_dir_out = none

instance (cmd : split_cmd) : Decidable cmd.refused := by
  unfold split_cmd.refused; infer_instance

/-- A sample surrounding: "d/a.blow5" has one read group and 3 records,
"d/g.blow5" has two read groups, and no other file can be opened. -/
def env_files : split_env :=
  env_sample [(path_a, ⟨1, sample_recs 3⟩), (path_g, ⟨2, group_recs⟩)]

/-- A sample command line: `-r 2 -o out d/x.blow5 d/g.blow5 d/a.blow5`. -/
def cmd_reads : split_cmd :=
  ⟨6, false, 1, ⟨.READS_SPLIT, 2⟩, some dir_out, .SLOW5_FORMAT_BINARY, [path_x, path_g, path_a]⟩

/-- A sample command line: `-g -o out d/a.blow5`, the file having a single
read group. -/
def cmd_group : split_cmd :=
  ⟨4, false, 1, ⟨.GROUP_SPLIT, 0⟩, some dir_out, .SLOW5_FORMAT_BINARY, [path_a]⟩

/-- A sample command line: `-r 2 -o out d/a.blow5`. -/
def cmd_one : split_cmd :=
  ⟨5, false, 1, ⟨.READS_SPLIT, 2⟩, some dir_out, .SLOW5_FORMAT_BINARY, [path_a]⟩

/-- The sample surrounding in which no header can be written. -/
def env_no_header : split_env := { env_files with slow5_hdr_fwrite := fun _ => -1 }

/-- The sample surrounding in which no record can be written. -/
def env_no_record : split_env := { env_files with slow5_rec_fwrite := fun _ _ => -1 }

/-- The split of the opened file makes a first output file: READS_SPLIT
always does, FILE_SPLIT when the file has a record (their count staying
below `2 ^ 31`, `number_of_records` being an `int`), GROUP_SPLIT when the
header counts a read group. -/
def split_first_file (metaSplitMethod : meta_split_method) (f : slow5_file_t) : Prop :=
  match metaSplitMethod.splitMethod with
  | .READS_SPLIT => True
  | .FILE_SPLIT => f.records ≠ [] ∧ f.records.length < 2 ^ 31
  | .GROUP_SPLIT => 1 ≤ f.num_read_groups

/-- The input file at the path `p` is split and written: the path has a '/',
the output files can be opened and written, and the file has fewer than
`2 ^ 31` records (`number_of_records` is an `int`). -/
def split_writes (E : split_env) (p : List Nat) : Prop :=
  47 ∈ p ∧ E.writes ∧ ∀ f, E.slow5_open p = some f → f.records.length < 2 ^ 31

/-- A sample command line that is refused: `--iop 0 -r 2 -o out d/a.blow5`. -/
def cmd_refused : split_cmd := { cmd_one with iop := 0 }

/-! # Theorems -/

/-! ## The hash map -/

theorem kh_get_le (h : khash) (key : List Nat) : kh_get h key ≤ h.length := by
  induction h with
  | nil => simp [kh_get]
  | cons e t ih =>
    simp only [kh_get, List.length_cons]
    split <;> omega

theorem kh_get_eq_end_iff (h : khash) (key : List Nat) :
    kh_get h key = kh_end h ↔ ∀ e ∈ h, cstr e.1 ≠ cstr key := by
  induction h with
  | nil => simp [kh_get, kh_end]
  | cons e t ih =>
    simp only [kh_get, kh_end, List.length_cons, List.mem_cons, forall_eq_or_imp] at ih ⊢
    by_cases hc : cstr e.1 = cstr key
    · simp [hc]
    · simp [hc, ih]

theorem kh_get_ne_end_iff (index : slow5_idx) (read_id : List Nat) :
    kh_get index.hash read_id ≠ kh_end index.hash ↔ index.is_key read_id := by
  rw [Ne, kh_get_eq_end_iff]
  simp [slow5_idx.is_key]

theorem kh_get_append_lt (h l : khash) (key : List Nat) (hk : kh_get h key ≠ kh_end h) :
    kh_get (h ++ l) key = kh_get h key := by
  induction h with
  | nil => simp [kh_get, kh_end] at hk
  | cons e t ih =>
    simp only [kh_get, kh_end, List.length_cons, List.cons_append] at hk ⊢
    by_cases hc : cstr e.1 = cstr key
    · simp [hc]
    · simp only [hc, if_false, add_left_inj] at hk ⊢
      exact ih (by simpa [kh_end] using hk)

theorem kh_get_append_end (h l : khash) (key : List Nat) (hk : kh_get h key = kh_end h) :
    kh_get (h ++ l) key = h.length + kh_get l key := by
  induction h with
  | nil => simp
  | cons e t ih =>
    simp only [kh_get, kh_end, List.length_cons, List.cons_append] at hk ⊢
    by_cases hc : cstr e.1 = cstr key
    · simp [hc] at hk
    · simp only [hc, if_false, add_left_inj] at hk ⊢
      have := ih hk
      simp only [List.append_eq] at this ⊢
      omega

theorem kh_value_append_lt (h l : khash) (k : Nat) (hk : k < h.length) :
    kh_value (h ++ l) k = kh_value h k := by
  induction h generalizing k with
  | nil => simp at hk
  | cons e t ih =>
    cases k with
    | zero => simp [kh_value]
    | succ k =>
      simp only [List.length_cons, add_lt_add_iff_right] at hk
      simpa [kh_value] using ih k hk

theorem kh_value_append_end (h : khash) (e : List Nat × slow5_rec_idx) (l : khash) :
    kh_value (h ++ e :: l) h.length = e.2 := by
  induction h with
  | nil => simp [kh_value]
  | cons a t ih => simpa [kh_value] using ih

theorem kh_set_value_append_end (h : khash) (key : List Nat) (d v : slow5_rec_idx) :
    kh_set_value (h ++ [(key, d)]) (kh_end h) v = h ++ [(key, v)] := by
  induction h with
  | nil => simp [kh_set_value, kh_end]
  | cons a t ih => simpa [kh_set_value, kh_end] using ih

/-! ## Insertion -/

theorem take_succ_set {α : Type} (l : List α) (n : Nat) (x : α) (h : n < l.length) :
    (l.set n x).take (n + 1) = l.take n ++ [x] := by
  induction l generalizing n with
  | nil => simp at h
  | cons a t ih =>
    cases n with
    | zero => simp
    | succ n =>
      simp only [List.length_cons, add_lt_add_iff_right] at h
      simp [ih n h]

theorem slow5_idx_insert_present (index : slow5_idx) (read_id : List Nat) (offset size : Nat)
    (h : kh_get index.hash read_id ≠ kh_end index.hash) :
    slow5_idx_insert index read_id offset size = (-1, index) := by
  simp [slow5_idx_insert, kh_put, h]

theorem slow5_idx_insert_absent (index : slow5_idx) (read_id : List Nat) (offset size : Nat)
    (h : kh_get index.hash read_id = kh_end index.hash) :
    slow5_idx_insert index read_id offset size =
      (0, { version := index.version
            ids := (grow_ids index).set index.num_ids read_id
            num_ids := (index.num_ids + 1) % 2 ^ 64
            cap_ids := grow_cap index
            hash := index.hash ++ [(read_id, ⟨offset, size⟩)] }) := by
  simp only [slow5_idx_insert, kh_put, h, if_true, grow_ids, grow_cap]
  simp only [kh_set_value_append_end]
  by_cases hc : index.num_ids = index.cap_ids <;> simp [hc]

theorem grow_ids_length (index : slow5_idx) (hv : index.valid) :
    (grow_ids index).length = grow_cap index ∧ index.num_ids < grow_cap index ∧
      (grow_ids index).take index.num_ids = index.ids.take index.num_ids := by
  obtain ⟨h1, h2, h3⟩ := hv
  unfold grow_ids grow_cap
  by_cases hc : index.num_ids = index.cap_ids
  · simp only [hc, if_true, realloc_ids, Nat.shiftLeft_eq]
    by_cases h0 : index.cap_ids = 0
    · simp only [h0, ne_eq, not_true_eq_false, if_false]
      rw [h0] at h1
      simp [List.length_eq_zero.mp h1]
    · simp only [h0, ne_eq, not_false_eq_true, if_true, pow_one]
      have e1 : index.cap_ids * 2 % 2 ^ 64 = index.cap_ids * 2 := Nat.mod_eq_of_lt (by omega)
      have e2 : index.cap_ids * 2 * 8 % 2 ^ 64 / 8 = index.cap_ids * 2 := by
        rw [Nat.mod_eq_of_lt (by omega)]; omega
      rw [e1, e2]
      refine ⟨?_, by omega, ?_⟩
      · simp only [List.length_append, List.length_take, List.length_replicate]; omega
      · rw [List.take_of_length_le (by omega : index.ids.length ≤ index.cap_ids * 2)]
        rw [List.take_append_of_le_length (by omega)]
  · simp only [hc, if_false]
    exact ⟨h1, by omega, trivial⟩

theorem slow5_idx_insert_wf (index : slow5_idx) (read_id : List Nat) (offset size : Nat)
    (hw : index.wf) (hn : index.num_ids < 2 ^ 58)
    (hk : kh_get index.hash read_id = kh_end index.hash) :
    (slow5_idx_insert index read_id offset size).1 = 0 ∧
      (slow5_idx_insert index read_id offset size).2.hash =
        index.hash ++ [(read_id, ⟨offset, size⟩)] ∧
      (slow5_idx_insert index read_id offset size).2.wf ∧
      (slow5_idx_insert index read_id offset size).2.version = index.version := by
  obtain ⟨w1, w2, w3, w4, w5⟩ := hw
  have hv : index.valid := ⟨w3, w4, by omega⟩
  obtain ⟨g1, g2, g3⟩ := grow_ids_length index hv
  have hlt : index.num_ids + 1 < 2 ^ 64 := by omega
  rw [slow5_idx_insert_absent index read_id offset size hk]
  refine ⟨rfl, rfl, ⟨?_, ?_, ?_, ?_, ?_⟩, rfl⟩
  · simp only [slow5_idx.ids_list, Nat.mod_eq_of_lt hlt, List.map_append, List.map_cons,
      List.map_nil]
    rw [take_succ_set _ _ _ (by omega), g3]
    simp only [slow5_idx.ids_list] at w1
    rw [w1]
  · show (index.num_ids + 1) % 2 ^ 64 =
      (index.hash ++ [(read_id, (⟨offset, size⟩ : slow5_rec_idx))]).length
    rw [Nat.mod_eq_of_lt hlt, w2, List.length_append, List.length_singleton]
  · simpa using g1
  · simp only [Nat.mod_eq_of_lt hlt]; omega
  · simp only [Nat.mod_eq_of_lt hlt]
    unfold grow_cap
    by_cases hc : index.num_ids = index.cap_ids
    · by_cases h0 : index.cap_ids = 0
      · simp [hc, h0]
      · have e1 : index.cap_ids * 2 % 2 ^ 64 = index.cap_ids * 2 :=
          Nat.mod_eq_of_lt (by omega)
        simp only [hc, h0, if_true, ne_eq, not_false_eq_true, Nat.shiftLeft_eq, pow_one, e1]
        omega
    · simp only [hc, if_false]; omega

/-! ## Streams and integers in memory -/

theorem le_bytes_length (n v : Nat) : (le_bytes n v).length = n := by
  induction n generalizing v with
  | zero => rfl
  | succ n ih => simp [le_bytes, ih]

theorem le_val_le_bytes (n v : Nat) (h : v < 256 ^ n) : le_val (le_bytes n v) = v := by
  induction n generalizing v with
  | zero => simp at h; simp [le_bytes, le_val, h]
  | succ n ih =>
    have h2 : v / 256 < 256 ^ n := by
      rw [Nat.div_lt_iff_lt_mul (by norm_num)]
      rw [pow_succ] at h; exact h
    simp only [le_bytes, le_val, ih _ h2]
    omega

theorem drop_add_of_drop {α : Type} (data : List α) (pos : Nat) (x rest : List α)
    (h : data.drop pos = x ++ rest) : data.drop (pos + x.length) = rest := by
  rw [← List.drop_drop, h, List.drop_left]

theorem fread_of_drop (data : List Nat) (pos : Nat) (e : Bool) (size nmemb : Nat)
    (x rest : List Nat) (h : data.drop pos = x ++ rest) (hx : x.length = size * nmemb) :
    fread ⟨data, pos, e⟩ size nmemb = (x, x.length / size, ⟨data, pos + x.length, e⟩) := by
  have ht : (data.drop pos).take (size * nmemb) = x := by
    rw [h, ← hx, List.take_left]
  simp [fread, ht, hx]

/-! ## Writing the sidecar -/

theorem slow5_idx_write_loop_ok (K : slow5_defs) (index : slow5_idx) :
    ∀ (n i : Nat) (out : List Nat), i + n ≤ index.ids.length →
      (∀ id ∈ (index.ids.drop i).take n, kh_get index.hash id ≠ kh_end index.hash) →
      slow5_idx_write_loop K index n i out =
        (none, out ++ entries_bytes index ((index.ids.drop i).take n)) := by
  intro n
  induction n with
  | zero => intro i out _ _; simp [slow5_idx_write_loop, entries_bytes]
  | succ n ih =>
    intro i out hlen hkey
    have hi : i < index.ids.length := by omega
    have hd : index.ids.drop i = index.ids[i] :: index.ids.drop (i + 1) :=
      List.drop_eq_getElem_cons hi
    have hg : index.ids.getD i [] = index.ids[i] := by
      simp [List.getD, List.getElem?_eq_getElem hi]
    rw [hd] at hkey ⊢
    simp only [List.take_succ_cons, List.mem_cons, forall_eq_or_imp] at hkey
    simp only [slow5_idx_write_loop, hg, hkey.1, if_false, List.take_succ_cons, entries_bytes]
    rw [ih (i + 1) _ (by omega) hkey.2]
    simp [entry_bytes, List.append_assoc]

theorem slow5_idx_write_ok (K : slow5_defs) (index : slow5_idx)
    (hv : index.num_ids ≤ index.ids.length)
    (hkey : ∀ id ∈ index.ids_list, index.is_key id) :
    slow5_idx_write K index =
      (0, sidecar_header K ++ entries_bytes index index.ids_list ++ K.SLOW5_INDEX_EOF) := by
  have hl := slow5_idx_write_loop_ok K index index.num_ids 0 (sidecar_header K)
    (by omega) (by
      intro id hid
      exact (kh_get_ne_end_iff index id).mpr (hkey id (by simpa [slow5_idx.ids_list] using hid)))
  simp only [List.drop_zero] at hl
  simp only [slow5_idx_write]
  simp only [sidecar_header] at hl
  rw [hl]
  simp [slow5_idx.ids_list, sidecar_header]

theorem cstr_of_nul_free (id : List Nat) (h : 0 ∉ id) : cstr id = id := by
  unfold cstr
  rw [List.takeWhile_eq_self_iff]
  intro x hx
  simp only [bne_iff_ne, ne_eq]
  intro hx0
  exact h (hx0 ▸ hx)

theorem entries_bytes_eq (index : slow5_idx) (l : List (List Nat))
    (h : ∀ id ∈ l, 0 ∉ id ∧ id.length < 65536) :
    entries_bytes index l = sidecar_entries (l.map (entry_of index)) := by
  induction l with
  | nil => rfl
  | cons id t ih =>
    simp only [List.mem_cons, forall_eq_or_imp] at h
    have hc := cstr_of_nul_free id h.1.1
    have hs : strlen id % 2 ^ 16 = id.length := by
      unfold strlen; rw [hc]; exact Nat.mod_eq_of_lt h.1.2
    simp only [entries_bytes, List.map_cons, sidecar_entries, ih h.2]
    simp only [entry_bytes, sidecar_entry, entry_of, hs, List.take_length]

/-! ## Reading the sidecar -/

theorem kh_get_end_of_nodup (h : khash) (e : List Nat × slow5_rec_idx) (t : khash)
    (hd : ((h ++ e :: t).map (fun e => cstr e.1)).Nodup) : kh_get h e.1 = kh_end h := by
  rw [kh_get_eq_end_iff]
  intro a ha heq
  rw [List.map_append, List.nodup_append] at hd
  have hdis := hd.2.2
  exact hdis (List.mem_map_of_mem (fun e => cstr e.1) ha)
    (by simp only [List.map_cons, List.mem_cons]; left; exact heq)

theorem slow5_idx_read_loop_ok (K : slow5_defs) (hK : K.slow5_is_eof = slow5_is_eof)
    (data : List Nat) :
    ∀ (todo : khash) (fuel pos : Nat) (index : slow5_idx),
      data.drop pos = sidecar_entries todo ++ K.SLOW5_INDEX_EOF →
      todo.length < fuel →
      index.wf →
      ((index.hash ++ todo).map (fun e => cstr e.1)).Nodup →
      (∀ e ∈ todo, e.1.length < 65536 ∧ e.2.offset < 2 ^ 64 ∧ e.2.size < 2 ^ 64) →
      (index.hash ++ todo).length < 2 ^ 58 →
      ∃ index2 fp2, slow5_idx_read_loop K fuel index ⟨data, pos, false⟩ =
          some (0, index2, fp2) ∧
        index2.hash = index.hash ++ todo ∧ index2.wf ∧ index2.version = index.version := by
  intro todo
  induction todo with
  | nil =>
    intro fuel pos index hdrop hfuel hw _ _ _
    obtain ⟨f, rfl⟩ : ∃ f, fuel = f + 1 := ⟨fuel - 1, by simp at hfuel; omega⟩
    refine ⟨index, ⟨data, pos, false⟩, ?_, by simp, hw, rfl⟩
    simp only [sidecar_entries, List.nil_append] at hdrop
    simp [slow5_idx_read_loop, hK, slow5_is_eof, hdrop]
  | cons e rest ih =>
    intro fuel pos index hdrop hfuel hw hnd hbound hlen
    obtain ⟨f, rfl⟩ : ∃ f, fuel = f + 1 := ⟨fuel - 1, by simp at hfuel; omega⟩
    simp only [List.mem_cons, forall_eq_or_imp] at hbound
    obtain ⟨⟨hb1, hb2, hb3⟩, hbrest⟩ := hbound
    -- the stream does not stand at the end-of-file marker
    have hne : data.drop pos ≠ K.SLOW5_INDEX_EOF := by
      intro heq
      have := congrArg List.length (hdrop.symm.trans heq)
      simp [sidecar_entries, sidecar_entry, le_bytes_length] at this
      omega
    -- the four reads
    have d1 : data.drop pos = le_bytes 2 e.1.length ++
        (e.1 ++ (le_bytes 8 e.2.offset ++ (le_bytes 8 e.2.size ++
          (sidecar_entries rest ++ K.SLOW5_INDEX_EOF)))) := by
      rw [hdrop]; simp [sidecar_entries, sidecar_entry, List.append_assoc]
    have r1 := fread_of_drop data pos false 2 1 _ _ d1 (by simp [le_bytes_length])
    have d2 := drop_add_of_drop data pos _ _ d1
    have r2 := fread_of_drop data _ false 1 e.1.length _ _ d2 (by simp)
    have d3 := drop_add_of_drop data _ _ _ d2
    have r3 := fread_of_drop data _ false 8 1 _ _ d3 (by simp [le_bytes_length])
    have d4 := drop_add_of_drop data _ _ _ d3
    have r4 := fread_of_drop data _ false 8 1 _ _ d4 (by simp [le_bytes_length])
    have d5 := drop_add_of_drop data _ _ _ d4
    have v1 : le_val (le_bytes 2 e.1.length) % 2 ^ 16 = e.1.length := by
      rw [le_val_le_bytes 2 _ (by norm_num; omega)]; exact Nat.mod_eq_of_lt hb1
    have v2 : le_val (le_bytes 8 e.2.offset) % 2 ^ 64 = e.2.offset := by
      rw [le_val_le_bytes 8 _ (by norm_num; omega)]; exact Nat.mod_eq_of_lt hb2
    have v3 : le_val (le_bytes 8 e.2.size) % 2 ^ 64 = e.2.size := by
      rw [le_val_le_bytes 8 _ (by norm_num; omega)]; exact Nat.mod_eq_of_lt hb3
    -- the insertion
    have hk := kh_get_end_of_nodup index.hash e rest hnd
    have hnum : index.num_ids < 2 ^ 58 := by
      rw [hw.2.1]; simp only [List.length_append, List.length_cons] at hlen; omega
    obtain ⟨i1, i2, i3, i4⟩ := slow5_idx_insert_wf index e.1 e.2.offset e.2.size hw hnum hk
    have hih := ih f (pos + (le_bytes 2 e.1.length).length + e.1.length +
        (le_bytes 8 e.2.offset).length + (le_bytes 8 e.2.size).length)
      (slow5_idx_insert index e.1 e.2.offset e.2.size).2 d5
      (by simp only [List.length_cons] at hfuel; omega) i3
      (by rw [i2]; simpa [List.append_assoc] using hnd)
      hbrest (by rw [i2]; simpa [List.append_assoc] using hlen)
    obtain ⟨index2, fp2, h1, h2, h3, h4⟩ := hih
    refine ⟨index2, fp2, ?_, by rw [h2, i2]; simp [List.append_assoc], h3, by rw [h4, i4]⟩
    rw [← h1]
    simp only [le_bytes_length, Nat.div_one, Nat.reduceDiv] at r1 r2 r3 r4
    simp only [slow5_idx_read_loop, hK, slow5_is_eof, hne, if_false, if_true, r1]
    simp only [le_bytes_length, v1, r2, r3, r4, v2, v3]
    simp [i1]

theorem sidecar_entries_length (es : khash) : es.length ≤ (sidecar_entries es).length := by
  induction es with
  | nil => simp
  | cons e t ih =>
    simp only [sidecar_entries, sidecar_entry, List.length_cons, List.length_append,
      le_bytes_length]
    omega

theorem sidecar_header_length (K : slow5_defs)
    (hhdr : K.SLOW5_INDEX_MAGIC_NUMBER.length + 3 ≤ K.SLOW5_INDEX_HEADER_SIZE_OFFSET ∧
      K.SLOW5_INDEX_HEADER_SIZE_OFFSET < K.SLOW5_INDEX_MAGIC_NUMBER.length + 3 + 256) :
    (sidecar_header K).length = K.SLOW5_INDEX_HEADER_SIZE_OFFSET := by
  simp only [sidecar_header, List.length_append, List.length_replicate, List.length_cons,
    List.length_nil]
  omega

theorem wf_init_empty : slow5_idx_init_empty.wf := by
  simp [slow5_idx.wf, slow5_idx_init_empty, slow5_idx.ids_list]

theorem slow5_idx_read_ok (K : slow5_defs) (hK : K.slow5_is_eof = slow5_is_eof)
    (hhdr : K.SLOW5_INDEX_MAGIC_NUMBER.length + 3 ≤ K.SLOW5_INDEX_HEADER_SIZE_OFFSET ∧
      K.SLOW5_INDEX_HEADER_SIZE_OFFSET < K.SLOW5_INDEX_MAGIC_NUMBER.length + 3 + 256)
    (es : khash) (hnd : (es.map (fun e => cstr e.1)).Nodup)
    (hb : ∀ e ∈ es, e.1.length < 65536 ∧ e.2.offset < 2 ^ 64 ∧ e.2.size < 2 ^ 64)
    (hlen : es.length < 2 ^ 58) :
    ∃ index2 fp2,
      slow5_idx_read K slow5_idx_init_empty
          ⟨sidecar_header K ++ sidecar_entries es ++ K.SLOW5_INDEX_EOF, 0, false⟩ =
        some (0, index2, fp2) ∧
      index2.hash = es ∧ index2.wf ∧ index2.version = K.SLOW5_INDEX_VERSION := by
  generalize hdata : sidecar_header K ++ sidecar_entries es ++ K.SLOW5_INDEX_EOF = data
  have hl := sidecar_header_length K hhdr
  have d0 : data.drop 0 = K.SLOW5_INDEX_MAGIC_NUMBER ++ ([K.SLOW5_INDEX_VERSION.major] ++
      ([K.SLOW5_INDEX_VERSION.minor] ++ ([K.SLOW5_INDEX_VERSION.patch] ++
        (List.replicate ((((K.SLOW5_INDEX_HEADER_SIZE_OFFSET : Int) -
          (K.SLOW5_INDEX_MAGIC_NUMBER.length : Int) - 1 - 1 - 1) % 256).toNat) 0 ++
          (sidecar_entries es ++ K.SLOW5_INDEX_EOF))))) := by
    rw [← hdata]; simp [sidecar_header, List.append_assoc]
  have r0 := fread_of_drop data 0 false 1 K.SLOW5_INDEX_MAGIC_NUMBER.length _ _ d0 (by simp)
  have d1 := drop_add_of_drop data 0 _ _ d0
  have r1 := fread_of_drop data _ false 1 1 _ _ d1 (by simp)
  have d2 := drop_add_of_drop data _ _ _ d1
  have r2 := fread_of_drop data _ false 1 1 _ _ d2 (by simp)
  have d3 := drop_add_of_drop data _ _ _ d2
  have r3 := fread_of_drop data _ false 1 1 _ _ d3 (by simp)
  have dbody : data.drop K.SLOW5_INDEX_HEADER_SIZE_OFFSET =
      sidecar_entries es ++ K.SLOW5_INDEX_EOF := by
    rw [← hdata, ← hl, List.append_assoc, List.drop_left]
  have hfuel : es.length < data.length + 1 := by
    have := sidecar_entries_length es
    rw [← hdata]
    simp only [List.length_append]
    omega
  obtain ⟨index2, fp2, h1, h2, h3, h4⟩ := slow5_idx_read_loop_ok K hK data es (data.length + 1)
    K.SLOW5_INDEX_HEADER_SIZE_OFFSET
    { slow5_idx_init_empty with version := K.SLOW5_INDEX_VERSION } dbody hfuel
    (by simpa [slow5_idx.wf, slow5_idx.ids_list] using wf_init_empty)
    (by simpa [slow5_idx_init_empty] using hnd) hb (by simpa [slow5_idx_init_empty] using hlen)
  refine ⟨index2, fp2, ?_, by simpa [slow5_idx_init_empty] using h2, h3, h4⟩
  rw [← h1]
  simp only [List.length_singleton, Nat.div_one, zero_add] at r0 r1 r2 r3
  have hc : slow5_idx_is_version_compatible K.SLOW5_INDEX_VERSION K.SLOW5_INDEX_VERSION = 1 := by
    simp [slow5_idx_is_version_compatible]
  have hnn : ¬ ((K.SLOW5_INDEX_HEADER_SIZE_OFFSET : Int) < 0) := by omega
  simp only [slow5_idx_read, r0, r1, r2, r3, ne_eq, not_true_eq_false, if_false, le_val]
  simp [hc, fseeko, SEEK_SET, slow5_idx_init_empty, hnn]

theorem kh_value_mem (h : khash) (k : Nat) (hk : k < h.length) :
    ∃ e ∈ h, kh_value h k = e.2 := by
  induction h generalizing k with
  | nil => simp at hk
  | cons a t ih =>
    cases k with
    | zero => exact ⟨a, by simp, rfl⟩
    | succ k =>
      simp only [List.length_cons, add_lt_add_iff_right] at hk
      obtain ⟨e, he, hv⟩ := ih k hk
      exact ⟨e, by simp [he], by simpa [kh_value] using hv⟩

theorem kh_get_map_entry_of (index : slow5_idx) (l : List (List Nat)) (id : List Nat)
    (hnul : ∀ x ∈ l, 0 ∉ x) (hid : id ∈ l) :
    kh_get (l.map (entry_of index)) id ≠ kh_end (l.map (entry_of index)) ∧
      kh_value (l.map (entry_of index)) (kh_get (l.map (entry_of index)) id) =
        kh_value index.hash (kh_get index.hash id) := by
  induction l with
  | nil => simp at hid
  | cons a t ih =>
    simp only [List.mem_cons, forall_eq_or_imp] at hnul
    by_cases hc : cstr a = cstr id
    · have ha : a = id := by
        have h0 : 0 ∉ id := by
          rcases List.mem_cons.mp hid with h | h
          · rw [h]; exact hnul.1
          · exact hnul.2 id h
        rw [cstr_of_nul_free a hnul.1, cstr_of_nul_free id h0] at hc
        exact hc
      subst ha
      simp [kh_get, kh_end, kh_value, entry_of]
    · have hmem : id ∈ t := by
        rcases List.mem_cons.mp hid with h | h
        · exact absurd (by rw [h]) hc
        · exact h
      obtain ⟨h1, h2⟩ := ih hnul.2 hmem
      simp only [kh_end, List.length_map] at h1
      simp only [List.map_cons, kh_get, entry_of, hc, if_false, kh_end, List.length_cons,
        List.length_map, ne_eq, add_left_inj, kh_value]
      exact ⟨h1, h2⟩

/-! ## Claims on the sidecar -/

/-- C1. An index whose ids in use are pairwise distinct NUL-free strings
shorter than 65536 bytes (all of them keys of its map, its entries 64-bit
values) is written with result 0, and reading the bytes written into an empty
index returns 0 and gives the same ids in the same order and, for each id,
the same offset and size. -/
theorem slow5_idx_write_read (K : slow5_defs) (index : slow5_idx)
    (hK : K.slow5_is_eof = slow5_is_eof)
    (hhdr : K.SLOW5_INDEX_MAGIC_NUMBER.length + 3 ≤ K.SLOW5_INDEX_HEADER_SIZE_OFFSET ∧
      K.SLOW5_INDEX_HEADER_SIZE_OFFSET < K.SLOW5_INDEX_MAGIC_NUMBER.length + 3 + 256)
    (hv : index.num_ids ≤ index.ids.length) (hn : index.num_ids < 2 ^ 58)
    (hd : index.ids_list.Nodup)
    (hnul : ∀ id ∈ index.ids_list, 0 ∉ id ∧ id.length < 65536)
    (hkey : ∀ id ∈ index.ids_list, index.is_key id)
    (h64 : ∀ e ∈ index.hash, e.2.offset < 2 ^ 64 ∧ e.2.size < 2 ^ 64) :
    (slow5_idx_write K index).1 = 0 ∧
      ∃ index2 fp2,
        slow5_idx_read K slow5_idx_init_empty ⟨(slow5_idx_write K index).2, 0, false⟩ =
          some (0, index2, fp2) ∧
        index2.ids_list = index.ids_list ∧ index2.num_ids = index.num_ids ∧
        ∀ id ∈ index.ids_list, ∀ e,
          slow5_idx_get index2 id (some e) =
              (0, index2, some (kh_value index.hash (kh_get index.hash id))) ∧
            slow5_idx_get index id (some e) =
              (0, index, some (kh_value index.hash (kh_get index.hash id))) := by
  rw [slow5_idx_write_ok K index hv hkey]
  refine ⟨rfl, ?_⟩
  rw [entries_bytes_eq index index.ids_list hnul]
  have hnul0 : ∀ x ∈ index.ids_list, 0 ∉ x := fun x hx => (hnul x hx).1
  have hlen : index.ids_list.length = index.num_ids := by
    simp [slow5_idx.ids_list, hv]
  have hmap : (index.ids_list.map (entry_of index)).map (fun e => cstr e.1) = index.ids_list := by
    rw [List.map_map]
    conv_rhs => rw [← List.map_id index.ids_list]
    apply List.map_congr_left
    intro x hx
    simp [entry_of, cstr_of_nul_free x (hnul0 x hx)]
  obtain ⟨index2, fp2, h1, h2, h3, _⟩ := slow5_idx_read_ok K hK hhdr
    (index.ids_list.map (entry_of index)) (by rw [hmap]; exact hd)
    (by
      intro e he
      obtain ⟨id, hid, rfl⟩ := List.mem_map.mp he
      have hk := (kh_get_ne_end_iff index id).mpr (hkey id hid)
      have hlt : kh_get index.hash id < index.hash.length := by
        have := kh_get_le index.hash id
        simp only [kh_end] at hk
        omega
      obtain ⟨e2, he2, hv2⟩ := kh_value_mem index.hash _ hlt
      simp only [entry_of]
      rw [hv2]
      exact ⟨(hnul id hid).2, h64 e2 he2⟩)
    (by simp only [List.length_map, hlen]; exact hn)
  refine ⟨index2, fp2, h1, ?_, ?_, ?_⟩
  · rw [h3.1, h2, List.map_map]
    conv_rhs => rw [← List.map_id index.ids_list]
    apply List.map_congr_left
    intro x _
    simp [entry_of]
  · rw [h3.2.1, h2, List.length_map, hlen]
  · intro id hid e
    obtain ⟨g1, g2⟩ := kh_get_map_entry_of index index.ids_list id hnul0 hid
    have hk := (kh_get_ne_end_iff index id).mpr (hkey id hid)
    constructor
    · simp only [slow5_idx_get, h2, g1, if_false, g2]
    · simp only [slow5_idx_get, hk, if_false]

/-- Witness of C1: the index holding "r1" and "r2", with the sample
constants. -/
theorem slow5_idx_write_read_witness :
    (defs0.slow5_is_eof = slow5_is_eof ∧
      (defs0.SLOW5_INDEX_MAGIC_NUMBER.length + 3 ≤ defs0.SLOW5_INDEX_HEADER_SIZE_OFFSET ∧
        defs0.SLOW5_INDEX_HEADER_SIZE_OFFSET < defs0.SLOW5_INDEX_MAGIC_NUMBER.length + 3 + 256) ∧
      idx_r12.num_ids ≤ idx_r12.ids.length ∧ idx_r12.num_ids < 2 ^ 58 ∧
      idx_r12.ids_list.Nodup ∧
      (∀ id ∈ idx_r12.ids_list, 0 ∉ id ∧ id.length < 65536) ∧
      (∀ id ∈ idx_r12.ids_list, idx_r12.is_key id) ∧
      (∀ e ∈ idx_r12.hash, e.2.offset < 2 ^ 64 ∧ e.2.size < 2 ^ 64)) ∧
    ((slow5_idx_write defs0 idx_r12).1 = 0 ∧
      ∃ index2 fp2,
        slow5_idx_read defs0 slow5_idx_init_empty ⟨(slow5_idx_write defs0 idx_r12).2, 0, false⟩ =
          some (0, index2, fp2) ∧
        index2.ids_list = idx_r12.ids_list ∧ index2.num_ids = idx_r12.num_ids ∧
        ∀ id ∈ idx_r12.ids_list, ∀ e,
          slow5_idx_get index2 id (some e) =
              (0, index2, some (kh_value idx_r12.hash (kh_get idx_r12.hash id))) ∧
            slow5_idx_get idx_r12 id (some e) =
              (0, idx_r12, some (kh_value idx_r12.hash (kh_get idx_r12.hash id)))) :=
  ⟨⟨rfl, by decide, by decide, by decide, by decide, by decide, by decide, by decide⟩,
    slow5_idx_write_read defs0 idx_r12 rfl (by decide) (by decide) (by decide) (by decide)
      (by decide) (by decide) (by decide)⟩

/-! ## Lines -/

theorem take_line_append (l rest : List Nat) (h1 : take_line l = l)
    (h2 : l.getLast? = some 10 ∨ rest = []) : take_line (l ++ rest) = l := by
  induction l with
  | nil =>
    rcases h2 with h | h
    · simp at h
    · simp [h, take_line]
  | cons c t ih =>
    by_cases hc : c = 10
    · simp only [take_line, hc, if_true, List.cons.injEq, true_and] at h1
      simp [take_line, hc, ← h1]
    · simp only [take_line, hc, if_false, List.cons.injEq, true_and] at h1
      simp only [List.cons_append, take_line, hc, if_false, List.cons.injEq, true_and]
      apply ih h1
      rcases h2 with h | h
      · cases t with
        | nil => simp at h; exact absurd h hc
        | cons d u => left; simpa [List.getLast?_cons_cons] using h
      · right; exact h

theorem getline_of_drop (data : List Nat) (pos : Nat) (e : Bool) (l rest : List Nat)
    (h : data.drop pos = l ++ rest) (hl : l ≠ []) (h1 : take_line l = l)
    (h2 : l.getLast? = some 10 ∨ rest = []) :
    ∃ e2, getline ⟨data, pos, e⟩ = ((l.length : Int), l, ⟨data, pos + l.length, e2⟩) := by
  have hne : l ++ rest ≠ [] := by simp [hl]
  refine ⟨e || decide (l.getLast? ≠ some 10), ?_⟩
  simp only [getline, h, hne, if_false, take_line_append l rest h1 h2]

theorem getline_of_drop_nil (data : List Nat) (pos : Nat) (e : Bool)
    (h : data.drop pos = []) : getline ⟨data, pos, e⟩ = (-1, [], ⟨data, pos, true⟩) := by
  simp [getline, h]

/-! ## Building from a text file -/

theorem nodup_keys_snoc (h : khash) (e : List Nat × slow5_rec_idx)
    (hnd : (h.map (fun e => cstr e.1)).Nodup) (hk : kh_get h e.1 = kh_end h) :
    ((h ++ [e]).map (fun e => cstr e.1)).Nodup := by
  rw [List.map_append, List.nodup_append]
  refine ⟨hnd, by simp, ?_⟩
  intro a ha hb
  simp only [List.map_cons, List.map_nil, List.mem_singleton] at hb
  obtain ⟨x, hx, rfl⟩ := List.mem_map.mp ha
  exact (kh_get_eq_end_iff h e.1).mp hk x hx hb

theorem slow5_idx_build_ascii_ok (curr : Nat) (data : List Nat) :
    ∀ (lines : List (List Nat)) (fuel pos : Nat) (e : Bool) (index : slow5_idx),
      data.drop pos = concat_bytes lines → lines_ok lines → lines.length < fuel →
      index.wf → (index.hash.map (fun e => cstr e.1)).Nodup →
      index.hash.length + lines.length < 2 ^ 58 →
      pos + (concat_bytes lines).length < 2 ^ 64 →
      (((index.hash ++ text_entries pos lines).map (fun e => cstr e.1)).Nodup →
        ∃ index2, slow5_idx_build_ascii curr fuel index ⟨data, pos, e⟩ pos =
            some (slow5_idx_build_end index2
              ⟨data, pos + (concat_bytes lines).length, true⟩ curr) ∧
          index2.hash = index.hash ++ text_entries pos lines ∧ index2.wf ∧
          index2.version = index.version) ∧
      (¬ ((index.hash ++ text_entries pos lines).map (fun e => cstr e.1)).Nodup →
        ∃ index2 fp2, slow5_idx_build_ascii curr fuel index ⟨data, pos, e⟩ pos =
          some (-1, index2, fp2)) := by
  intro lines
  induction lines with
  | nil =>
    intro fuel pos e index hdrop _ hfuel hw hnd0 _ _
    obtain ⟨f, rfl⟩ : ∃ f, fuel = f + 1 := ⟨fuel - 1, by simp at hfuel; omega⟩
    simp only [concat_bytes] at hdrop
    constructor
    · intro _
      refine ⟨index, ?_, by simp [text_entries], hw, rfl⟩
      simp [slow5_idx_build_ascii, getline_of_drop_nil data pos e hdrop, concat_bytes]
    · intro hn
      exact absurd (by simpa [text_entries] using hnd0) hn
  | cons l t ih =>
    intro fuel pos e index hdrop hok hfuel hw hnd0 hlen hpos
    obtain ⟨f, rfl⟩ : ∃ f, fuel = f + 1 := ⟨fuel - 1, by simp at hfuel; omega⟩
    obtain ⟨hl, h1, h2, hokt⟩ := hok
    simp only [concat_bytes] at hdrop hpos
    have h2b : l.getLast? = some 10 ∨ concat_bytes t = [] := by
      rcases h2 with h | h
      · left; exact h
      · right; simp [h, concat_bytes]
    obtain ⟨e2, hg⟩ := getline_of_drop data pos e l (concat_bytes t) hdrop hl h1 h2b
    have d2 := drop_add_of_drop data pos _ _ hdrop
    simp only [List.length_append] at hpos
    have hsz : l.length % 2 ^ 64 = l.length := Nat.mod_eq_of_lt (by omega)
    have hoff : (pos + l.length) % 2 ^ 64 = pos + l.length := Nat.mod_eq_of_lt (by omega)
    have hne : ((l.length : Int) = -1) = False := by
      simp only [eq_iff_iff, iff_false]; omega
    have hstep : slow5_idx_build_ascii curr (f + 1) index ⟨data, pos, e⟩ pos =
        (match slow5_idx_insert index (line_read_id l) pos l.length with
          | (r, index) =>
            if r = -1 then some (-1, index, ⟨data, pos + l.length, e2⟩)
            else slow5_idx_build_ascii curr f index ⟨data, pos + l.length, e2⟩
              (pos + l.length)) := by
      simp only [slow5_idx_build_ascii, hg, ne_eq, hne, not_false_eq_true, if_true,
        Int.toNat_ofNat, hsz, hoff, line_read_id]
    rw [hstep]
    by_cases hk : kh_get index.hash (line_read_id l) = kh_end index.hash
    · have hnum : index.num_ids < 2 ^ 58 := by rw [hw.2.1]; omega
      obtain ⟨i1, i2, i3, i4⟩ := slow5_idx_insert_wf index (line_read_id l) pos l.length hw hnum hk
      have hih := ih f (pos + l.length) e2 (slow5_idx_insert index (line_read_id l) pos l.length).2
        d2 hokt (by simp only [List.length_cons] at hfuel; omega) i3
        (by rw [i2]; exact nodup_keys_snoc _ _ hnd0 hk)
        (by rw [i2]; simp only [List.length_append, List.length_cons, List.length_nil] at hlen ⊢
            omega)
        (by omega)
      rw [i2] at hih
      simp only [List.append_assoc, List.singleton_append] at hih
      have hres : (match slow5_idx_insert index (line_read_id l) pos l.length with
          | (r, index) =>
            if r = -1 then some (-1, index, (⟨data, pos + l.length, e2⟩ : FILE))
            else slow5_idx_build_ascii curr f index ⟨data, pos + l.length, e2⟩
              (pos + l.length)) =
          slow5_idx_build_ascii curr f (slow5_idx_insert index (line_read_id l) pos l.length).2
            ⟨data, pos + l.length, e2⟩ (pos + l.length) := by
        generalize slow5_idx_insert index (line_read_id l) pos l.length = res at i1 ⊢
        obtain ⟨r, ix⟩ := res
        simp only at i1
        simp [i1]
      rw [hres]
      simp only [text_entries, List.length_append]
      constructor
      · intro hnd
        obtain ⟨index2, g1, g2, g3, g4⟩ := hih.1 hnd
        exact ⟨index2, by rw [g1, Nat.add_assoc]; simp [concat_bytes], g2, g3, by rw [g4, i4]⟩
      · intro hnd
        exact hih.2 hnd
    · rw [slow5_idx_insert_present index _ _ _ hk]
      constructor
      · intro hnd
        simp only [text_entries] at hnd
        exact absurd (kh_get_end_of_nodup index.hash _ _ hnd) hk
      · intro _
        exact ⟨index, ⟨data, pos + l.length, e2⟩, by simp⟩

theorem slow5_idx_get_of_entries (index : slow5_idx) (a b : khash)
    (e : List Nat × slow5_rec_idx) (h : index.hash = a ++ e :: b)
    (hnd : ((a ++ e :: b).map (fun e => cstr e.1)).Nodup) (out : slow5_rec_idx) :
    slow5_idx_get index e.1 (some out) = (0, index, some e.2) := by
  have hk := kh_get_end_of_nodup a e b hnd
  have e1 : kh_get (a ++ e :: b) e.1 = a.length := by
    rw [kh_get_append_end _ _ _ hk]; simp [kh_get]
  simp [slow5_idx_get, h, e1, kh_end, kh_value_append_end]

theorem text_entries_append (offset : Nat) (l1 : List (List Nat)) (line : List Nat)
    (l2 : List (List Nat)) :
    text_entries offset (l1 ++ line :: l2) =
      text_entries offset l1 ++
        (line_read_id line, ⟨offset + (concat_bytes l1).length, line.length⟩) ::
          text_entries (offset + (concat_bytes l1).length + line.length) l2 := by
  induction l1 generalizing offset with
  | nil => simp [text_entries, concat_bytes]
  | cons a t ih =>
    have h := ih (offset + a.length)
    simp only [Nat.add_assoc] at h
    simp only [List.cons_append, text_entries, concat_bytes, List.length_append,
      Nat.add_assoc]
    exact congrArg (List.cons _) h

theorem cstr_cstr (x : List Nat) : cstr (cstr x) = cstr x := by
  apply cstr_of_nul_free
  intro h
  have := List.mem_takeWhile_imp h
  simp at this

theorem to_off_t_small (n : Nat) (h : n < 2 ^ 63) : to_off_t n = (n : Int) := by
  have h1 : n % 2 ^ 64 = n := Nat.mod_eq_of_lt (by omega)
  unfold to_off_t
  rw [h1, if_pos h]

theorem line_read_id_of_nul_free (l : List Nat) (h : 0 ∉ l) :
    line_read_id l = l.takeWhile (fun c => c != 9) := by
  have h1 : cstr l = l := cstr_of_nul_free l h
  have h2 : 0 ∉ l.takeWhile (fun c => !([9] : List Nat).contains c) :=
    fun hm => h ((List.takeWhile_sublist _).subset hm)
  simp only [line_read_id, strdup, slow5_strsep, SLOW5_SEP_COL, h1]
  rw [cstr_of_nul_free _ h2]
  congr 1
  funext c
  by_cases hc : c = 9 <;> simp [hc]

theorem text_entries_keys (offset : Nat) (lines : List (List Nat)) :
    (text_entries offset lines).map (fun e => cstr e.1) = lines.map line_read_id := by
  induction lines generalizing offset with
  | nil => rfl
  | cons a t ih =>
    simp only [text_entries, List.map_cons, ih, List.cons.injEq, and_true]
    exact cstr_cstr _

theorem text_entries_ids (offset : Nat) (lines : List (List Nat)) :
    (text_entries offset lines).map Prod.fst = lines.map line_read_id := by
  induction lines generalizing offset with
  | nil => rfl
  | cons a t ih => simp [text_entries, ih]

theorem take_line_newline (b : List Nat) (h : 10 ∉ b) : take_line (b ++ [10]) = b ++ [10] := by
  induction b with
  | nil => simp [take_line]
  | cons c t ih =>
    simp only [List.mem_cons, not_or] at h
    have hc : c ≠ 10 := fun hc => h.1 hc.symm
    simp [take_line, hc, ih h.2]

theorem lines_ok_of_newlines (lines : List (List Nat))
    (h : ∀ l ∈ lines, l.getLast? = some 10 ∧ 10 ∉ l.dropLast) : lines_ok lines := by
  induction lines with
  | nil => trivial
  | cons l t ih =>
    simp only [List.mem_cons, forall_eq_or_imp] at h
    obtain ⟨⟨h1, h2⟩, ht⟩ := h
    have hl : l.dropLast ++ [10] = l := List.dropLast_append_getLast? 10 (by simp [h1])
    refine ⟨?_, ?_, Or.inl h1, ih ht⟩
    · intro h0; simp [h0] at h1
    · rw [← hl]; exact take_line_newline _ h2

theorem lines_ok_length (lines : List (List Nat)) (h : lines_ok lines) :
    lines.length ≤ (concat_bytes lines).length := by
  induction lines with
  | nil => simp
  | cons l t ih =>
    obtain ⟨h1, _, _, h4⟩ := h
    have := ih h4
    have : 0 < l.length := List.length_pos.mpr h1
    simp only [List.length_cons, concat_bytes, List.length_append]
    omega

theorem slow5_idx_build_end_ok (index : slow5_idx) (fp : FILE) (curr : Nat)
    (h : curr < 2 ^ 63) :
    slow5_idx_build_end index fp curr = (0, index, ⟨fp.data, curr, false⟩) := by
  have h2 : ¬ ((curr : Int) < 0) := by omega
  simp [slow5_idx_build_end, fseeko, SEEK_SET, to_off_t_small curr h, h2]

theorem fseeko_start (fp : FILE) (start : Nat) (h : start < 2 ^ 63) :
    fseeko fp (to_off_t start) (if SEEK_SET ≠ 0 then 1 else 0) =
      (0, ⟨fp.data, start, false⟩) := by
  have h2 : ¬ ((start : Int) < 0) := by omega
  simp [fseeko, SEEK_SET, to_off_t_small start h, h2]

/-! ## Building from a binary file -/

theorem slow5_idx_build_binary_ok (K : slow5_defs) (hK : K.slow5_is_eof = slow5_is_eof)
    (compress : List Nat → Option (List Nat)) (curr : Nat) (data : List Nat) :
    ∀ (payloads : List (List Nat)) (fuel pos : Nat) (index : slow5_idx),
      data.drop pos = concat_bytes (payloads.map record_bytes) ++ K.SLOW5_BINARY_EOF →
      (∀ p ∈ payloads, p ≠ [] ∧ (compress p).isSome) →
      payloads.length < fuel →
      index.wf → (index.hash.map (fun e => cstr e.1)).Nodup →
      index.hash.length + payloads.length < 2 ^ 58 →
      pos + (concat_bytes (payloads.map record_bytes)).length < 2 ^ 64 →
      (((index.hash ++ binary_entries compress pos payloads).map (fun e => cstr e.1)).Nodup →
        ∃ index2, slow5_idx_build_binary K compress curr fuel index ⟨data, pos, false⟩ =
            some (slow5_idx_build_end index2
              ⟨data, pos + (concat_bytes (payloads.map record_bytes)).length, false⟩ curr) ∧
          index2.hash = index.hash ++ binary_entries compress pos payloads ∧ index2.wf ∧
          index2.version = index.version) ∧
      (¬ ((index.hash ++ binary_entries compress pos payloads).map (fun e => cstr e.1)).Nodup →
        ∃ index2 fp2, slow5_idx_build_binary K compress curr fuel index ⟨data, pos, false⟩ =
          some (-1, index2, fp2)) := by
  intro payloads
  induction payloads with
  | nil =>
    intro fuel pos index hdrop _ hfuel hw hnd0 _ _
    obtain ⟨f, rfl⟩ : ∃ f, fuel = f + 1 := ⟨fuel - 1, by simp at hfuel; omega⟩
    simp only [List.map_nil, concat_bytes, List.nil_append] at hdrop
    constructor
    · intro _
      refine ⟨index, ?_, by simp [binary_entries], hw, rfl⟩
      simp [slow5_idx_build_binary, hK, slow5_is_eof, hdrop, concat_bytes]
    · intro hn
      exact absurd (by simpa [binary_entries] using hnd0) hn
  | cons p t ih =>
    intro fuel pos index hdrop hwf hfuel hw hnd0 hlen hpos
    obtain ⟨f, rfl⟩ : ∃ f, fuel = f + 1 := ⟨fuel - 1, by simp at hfuel; omega⟩
    simp only [List.mem_cons, forall_eq_or_imp] at hwf
    obtain ⟨⟨hp0, hpc⟩, hwft⟩ := hwf
    obtain ⟨d, hd⟩ := Option.isSome_iff_exists.mp hpc
    simp only [List.map_cons, concat_bytes, record_bytes, List.length_append,
      le_bytes_length] at hdrop hpos
    have hne : data.drop pos ≠ K.SLOW5_BINARY_EOF := by
      intro heq
      have := congrArg List.length (hdrop.symm.trans heq)
      simp [le_bytes_length] at this
      omega
    have d1 : data.drop pos = le_bytes 8 p.length ++
        (p ++ (concat_bytes (t.map record_bytes) ++ K.SLOW5_BINARY_EOF)) := by
      rw [hdrop]; simp [List.append_assoc]
    have r1 := fread_of_drop data pos false 8 1 _ _ d1 (by simp [le_bytes_length])
    have d2 := drop_add_of_drop data pos _ _ d1
    have r2 := fread_of_drop data _ false p.length 1 _ _ d2 (by simp)
    have d3 := drop_add_of_drop data _ _ _ d2
    have hplen : 0 < p.length := List.length_pos.mpr hp0
    simp only [le_bytes_length, Nat.reduceDiv, Nat.div_self hplen] at r1 r2 d2 d3
    have v1 : le_val (le_bytes 8 p.length) % 2 ^ 64 = p.length := by
      rw [le_val_le_bytes 8 _ (by norm_num; omega)]; exact Nat.mod_eq_of_lt (by omega)
    have hsz : (8 + p.length) % 2 ^ 64 = 8 + p.length := Nat.mod_eq_of_lt (by omega)
    have hoff : pos % 2 ^ 64 = pos := Nat.mod_eq_of_lt (by omega)
    have hid : record_read_id compress p = decomp_read_id d := by simp [record_read_id, hd]
    have hstep : slow5_idx_build_binary K compress curr (f + 1) index ⟨data, pos, false⟩ =
        (match slow5_idx_insert index (record_read_id compress p) pos (8 + p.length) with
          | (r, index) =>
            if r = -1 then some (-1, index, ⟨data, pos + 8 + p.length, false⟩)
            else slow5_idx_build_binary K compress curr f index
              ⟨data, pos + 8 + p.length, false⟩) := by
      simp only [slow5_idx_build_binary, hK, slow5_is_eof, hne, if_false, if_true, ftello, r1,
        ne_eq, not_true_eq_false, v1, r2, hd, hsz, hoff, hid, decomp_read_id]
    rw [hstep]
    by_cases hk : kh_get index.hash (record_read_id compress p) = kh_end index.hash
    · have hnum : index.num_ids < 2 ^ 58 := by
        rw [hw.2.1]; simp only [List.length_cons] at hlen; omega
      obtain ⟨i1, i2, i3, i4⟩ := slow5_idx_insert_wf index (record_read_id compress p) pos
        (8 + p.length) hw hnum hk
      have hih := ih f (pos + 8 + p.length)
        (slow5_idx_insert index (record_read_id compress p) pos (8 + p.length)).2
        d3 hwft (by simp only [List.length_cons] at hfuel; omega) i3
        (by rw [i2]; exact nodup_keys_snoc _ _ hnd0 hk)
        (by rw [i2]; simp only [List.length_append, List.length_cons, List.length_nil] at hlen ⊢
            omega)
        (by omega)
      rw [i2] at hih
      simp only [List.append_assoc, List.singleton_append] at hih
      have hres : (match slow5_idx_insert index (record_read_id compress p) pos
            (8 + p.length) with
          | (r, index) =>
            if r = -1 then some (-1, index, (⟨data, pos + 8 + p.length, false⟩ : FILE))
            else slow5_idx_build_binary K compress curr f index
              ⟨data, pos + 8 + p.length, false⟩) =
          slow5_idx_build_binary K compress curr f
            (slow5_idx_insert index (record_read_id compress p) pos (8 + p.length)).2
            ⟨data, pos + 8 + p.length, false⟩ := by
        generalize slow5_idx_insert index (record_read_id compress p) pos (8 + p.length) = res
          at i1 ⊢
        obtain ⟨r, ix⟩ := res
        simp only at i1
        simp [i1]
      rw [hres]
      have hpe : pos + (8 + p.length) = pos + 8 + p.length := by omega
      simp only [binary_entries, List.map_cons, concat_bytes, record_bytes, List.length_append,
        le_bytes_length, hpe]
      constructor
      · intro hnd
        obtain ⟨index2, g1, g2, g3, g4⟩ := hih.1 hnd
        refine ⟨index2, ?_, g2, g3, by rw [g4, i4]⟩
        rw [g1]
        have : pos + 8 + p.length + (concat_bytes (t.map record_bytes)).length =
            pos + (8 + p.length + (concat_bytes (t.map record_bytes)).length) := by omega
        rw [this]
      · intro hnd
        exact hih.2 hnd
    · rw [slow5_idx_insert_present index _ _ _ hk]
      constructor
      · intro hnd
        simp only [binary_entries] at hnd
        exact absurd (kh_get_end_of_nodup index.hash _ _ hnd) hk
      · intro _
        exact ⟨index, ⟨data, pos + 8 + p.length, false⟩, by simp⟩

theorem binary_entries_append (compress : List Nat → Option (List Nat)) (offset : Nat)
    (l1 : List (List Nat)) (pl : List Nat) (l2 : List (List Nat)) :
    binary_entries compress offset (l1 ++ pl :: l2) =
      binary_entries compress offset l1 ++
        (record_read_id compress pl,
          ⟨offset + (l1.map (fun q => 8 + q.length)).sum, 8 + pl.length⟩) ::
          binary_entries compress
            (offset + (l1.map (fun q => 8 + q.length)).sum + (8 + pl.length)) l2 := by
  induction l1 generalizing offset with
  | nil => simp [binary_entries]
  | cons a t ih =>
    have h := ih (offset + (8 + a.length))
    simp only [Nat.add_assoc] at h
    simp only [List.cons_append, binary_entries, List.map_cons, List.sum_cons, Nat.add_assoc]
    exact congrArg (List.cons _) h

theorem binary_entries_keys (compress : List Nat → Option (List Nat)) (offset : Nat)
    (l : List (List Nat)) :
    (binary_entries compress offset l).map (fun e => cstr e.1) =
      l.map (fun pl => cstr (record_read_id compress pl)) := by
  induction l generalizing offset with
  | nil => rfl
  | cons a t ih => simp [binary_entries, ih]

theorem binary_entries_ids (compress : List Nat → Option (List Nat)) (offset : Nat)
    (l : List (List Nat)) :
    (binary_entries compress offset l).map Prod.fst = l.map (record_read_id compress) := by
  induction l generalizing offset with
  | nil => rfl
  | cons a t ih => simp [binary_entries, ih]

theorem records_length (l : List (List Nat)) :
    (concat_bytes (l.map record_bytes)).length = (l.map (fun q => 8 + q.length)).sum := by
  induction l with
  | nil => rfl
  | cons a t ih =>
    simp only [List.map_cons, concat_bytes, record_bytes, List.length_append, le_bytes_length,
      List.sum_cons] at ih ⊢
    omega

theorem records_count (l : List (List Nat)) :
    l.length ≤ (concat_bytes (l.map record_bytes)).length := by
  induction l with
  | nil => simp
  | cons a t ih =>
    simp only [List.map_cons, concat_bytes, record_bytes, List.length_append, le_bytes_length,
      List.length_cons]
    omega

theorem concat_bytes_append (a b : List (List Nat)) :
    concat_bytes (a ++ b) = concat_bytes a ++ concat_bytes b := by
  induction a with
  | nil => rfl
  | cons x t ih => simp [concat_bytes, ih]

/-! ## From a successful build back to the records -/

theorem take_line_spec (data : List Nat) :
    ∃ rest, data = take_line data ++ rest ∧ take_line (take_line data) = take_line data ∧
      (rest ≠ [] → (take_line data).getLast? = some 10) ∧
      (data ≠ [] → take_line data ≠ []) := by
  induction data with
  | nil => exact ⟨[], by simp [take_line]⟩
  | cons c t ih =>
    by_cases hc : c = 10
    · exact ⟨t, by simp [take_line, hc]⟩
    · obtain ⟨rest, h1, h2, h3, h4⟩ := ih
      refine ⟨rest, ?_, ?_, ?_, ?_⟩
      · simp only [take_line, hc, if_false, List.cons_append]
        exact congrArg (List.cons c) h1
      · simp [take_line, hc, h2]
      · intro hr
        have h5 := h3 hr
        simp only [take_line, hc, if_false]
        cases ht : take_line t with
        | nil => rw [ht] at h5; simp at h5
        | cons d u => rw [ht] at h5; simpa [List.getLast?_cons_cons] using h5
      · intro _
        simp [take_line, hc]

theorem lines_ok_nil_of_concat (lines : List (List Nat)) (h : lines_ok lines)
    (h0 : concat_bytes lines = []) : lines = [] := by
  cases lines with
  | nil => rfl
  | cons l t =>
    obtain ⟨h1, _⟩ := h
    simp only [concat_bytes, List.append_eq_nil] at h0
    exact absurd h0.1 h1

theorem lines_of_data (n : Nat) :
    ∀ data : List Nat, data.length ≤ n →
      ∃ lines, data = concat_bytes lines ∧ lines_ok lines := by
  induction n with
  | zero =>
    intro data h
    have : data = [] := List.length_eq_zero.mp (by omega)
    exact ⟨[], by simp [this, concat_bytes], trivial⟩
  | succ n ih =>
    intro data h
    by_cases hd : data = []
    · exact ⟨[], by simp [hd, concat_bytes], trivial⟩
    · obtain ⟨rest, h1, h2, h3, h4⟩ := take_line_spec data
      have hl := h4 hd
      have hlen : rest.length ≤ n := by
        have := congrArg List.length h1
        have hpos : 0 < (take_line data).length := List.length_pos.mpr hl
        simp only [List.length_append] at this
        omega
      obtain ⟨lines, g1, g2⟩ := ih rest hlen
      refine ⟨take_line data :: lines, ?_, hl, h2, ?_, g2⟩
      · simp only [concat_bytes, ← g1]; exact h1
      · by_cases hr : rest = []
        · right; exact lines_ok_nil_of_concat lines g2 (by rw [← g1, hr])
        · left; exact h3 hr

theorem le_val_lt (l : List Nat) (h : ∀ b ∈ l, b < 256) : le_val l < 256 ^ l.length := by
  induction l with
  | nil => simp [le_val]
  | cons b t ih =>
    simp only [List.mem_cons, forall_eq_or_imp] at h
    have := ih h.2
    simp only [le_val, List.length_cons, pow_succ]
    omega

theorem le_bytes_le_val (l : List Nat) (h : ∀ b ∈ l, b < 256) :
    le_bytes l.length (le_val l) = l := by
  induction l with
  | nil => rfl
  | cons b t ih =>
    simp only [List.mem_cons, forall_eq_or_imp] at h
    have h1 : (b + 256 * le_val t) % 256 = b := by omega
    have h2 : (b + 256 * le_val t) / 256 = le_val t := by omega
    simp only [List.length_cons, le_bytes, le_val, h1, h2, ih h.2]

theorem slow5_idx_build_end_index (index : slow5_idx) (fp : FILE) (curr : Nat) :
    (slow5_idx_build_end index fp curr).2.1 = index := by
  simp only [slow5_idx_build_end]
  generalize fseeko fp (to_off_t curr) (if SEEK_SET ≠ 0 then 1 else 0) = res
  by_cases h : res.1 ≠ 0 <;> simp [h]

theorem fread_eq (data : List Nat) (pos size nmemb : Nat) :
    fread ⟨data, pos, false⟩ size nmemb =
      ((data.drop pos).take (size * nmemb), ((data.drop pos).take (size * nmemb)).length / size,
        ⟨data, pos + ((data.drop pos).take (size * nmemb)).length,
          decide (((data.drop pos).take (size * nmemb)).length < size * nmemb)⟩) := by
  simp [fread]

theorem drop_eq_take_append {α : Type} (l : List α) (pos n : Nat) :
    l.drop pos = (l.drop pos).take n ++ l.drop (pos + n) := by
  rw [← List.drop_drop, List.take_append_drop]

theorem slow5_idx_build_binary_inv (K : slow5_defs) (hK : K.slow5_is_eof = slow5_is_eof)
    (compress : List Nat → Option (List Nat)) (curr : Nat) (data : List Nat)
    (hbytes : ∀ b ∈ data, b < 256) :
    ∀ (fuel pos : Nat) (index index2 : slow5_idx) (fp2 : FILE),
      slow5_idx_build_binary K compress curr fuel index ⟨data, pos, false⟩ =
        some (0, index2, fp2) →
      ∃ payloads : List (List Nat), data.drop pos =
          concat_bytes (payloads.map record_bytes) ++ K.SLOW5_BINARY_EOF ∧
        ∀ pl ∈ payloads, pl ≠ [] ∧ (compress pl).isSome := by
  intro fuel
  induction fuel with
  | zero => intro pos index index2 fp2 h; simp [slow5_idx_build_binary] at h
  | succ f ih =>
    intro pos index index2 fp2 h
    by_cases heof : data.drop pos = K.SLOW5_BINARY_EOF
    · exact ⟨[], by simp [concat_bytes, heof], by simp⟩
    · have r1 := fread_eq data pos 8 1
      have hd1 := drop_eq_take_append data pos (8 * 1)
      generalize hgot : (data.drop pos).take (8 * 1) = got at r1 hd1
      have hgl : got.length ≤ 8 := by rw [← hgot]; simp
      by_cases h8 : got.length = 8
      · have hgb : ∀ b ∈ got, b < 256 := by
          intro b hb
          rw [← hgot] at hb
          exact hbytes b (List.mem_of_mem_drop (List.mem_of_mem_take hb))
        have hv := le_val_lt got hgb
        rw [h8] at hv
        have hrs : le_val got % 18446744073709551616 = le_val got :=
          Nat.mod_eq_of_lt (by norm_num at hv ⊢; omega)
        have r2 := fread_eq data (pos + 8) (le_val got) 1
        have hd2 := drop_eq_take_append data (pos + 8) (le_val got * 1)
        generalize hgot2 : (data.drop (pos + 8)).take (le_val got * 1) = got2 at r2 hd2
        have hg2l : got2.length ≤ le_val got := by rw [← hgot2]; simp
        simp only [h8, Nat.reduceDiv, Nat.lt_irrefl, decide_False] at r1
        by_cases h2 : got2.length = le_val got ∧ 0 < le_val got
        · simp only [h2.1, Nat.div_self h2.2, Nat.lt_irrefl, decide_False, Nat.mul_one] at r2
          simp only [slow5_idx_build_binary, hK, slow5_is_eof, heof, if_false, if_true, r1,
            ne_eq, not_true_eq_false, Nat.reducePow, hrs, r2] at h
          cases hc : compress got2 with
          | none => simp [hc] at h
          | some d =>
            simp only [hc] at h
            split at h
            · simp at h
            · obtain ⟨payloads, g1, g2⟩ := ih _ _ _ _ h
              refine ⟨got2 :: payloads, ?_, ?_⟩
              · have hgb2 := le_bytes_le_val got hgb
                rw [h8, ← h2.1] at hgb2
                simp only [Nat.mul_one] at hd1 hd2
                rw [hd1, hd2, g1]
                simp [concat_bytes, record_bytes, hgb2, List.append_assoc]
              · intro pl hpl
                rcases List.mem_cons.mp hpl with hh | hh
                · subst hh
                  refine ⟨?_, by simp [hc]⟩
                  intro h0
                  rw [h0] at h2
                  simp at h2
                  omega
                · exact g2 pl hh
        · have hn : got2.length / le_val got ≠ 1 := by
            intro hdiv
            by_cases h0 : le_val got = 0
            · simp [h0] at hdiv
            · have hlt : got2.length < le_val got := by
                rcases Nat.lt_or_ge got2.length (le_val got) with hh | hh
                · exact hh
                · exact absurd ⟨by omega, by omega⟩ h2
              rw [Nat.div_eq_of_lt hlt] at hdiv
              exact absurd hdiv (by decide)
          simp [slow5_idx_build_binary, hK, slow5_is_eof, heof, r1, hrs, r2, hn] at h
      · have hn : got.length / 8 ≠ 1 := by omega
        simp [slow5_idx_build_binary, hK, slow5_is_eof, heof, r1, hn] at h

theorem fseeko_start_fail (fp : FILE) (start : Nat) (h1 : 2 ^ 63 ≤ start)
    (h2 : start < 2 ^ 64) :
    fseeko fp (to_off_t start) (if SEEK_SET ≠ 0 then 1 else 0) = (-1, fp) := by
  have hm : start % 2 ^ 64 = start := Nat.mod_eq_of_lt h2
  have ht : to_off_t start = (start : Int) - 2 ^ 64 := by
    unfold to_off_t
    rw [hm, if_neg (by omega)]
  have h3 : start < 18446744073709551616 := h2
  simp [fseeko, SEEK_SET, ht, h3]

/-! ## Claims on building the index -/

/-- C3. For a text file whose record region is a sequence of
newline-terminated lines with pairwise distinct read ids (first columns),
`slow5_idx_build` returns 0 and restores the position of the stream; the ids
are those of the lines in order, and the entry of each line has for offset
the position of the first byte of the line (the start of the records plus the
lengths of the lines before it) and for size the length of the line, newline
included. -/
theorem slow5_idx_build_text (K : slow5_defs) (hdr : List Nat) (lines : List (List Nat))
    (p : Nat) (e : Bool) (compress : List Nat → Option (List Nat))
    (hlines : ∀ l ∈ lines, l.getLast? = some 10 ∧ 10 ∉ l.dropLast)
    (hnd : (lines.map line_read_id).Nodup)
    (hsize : (hdr ++ concat_bytes lines).length < 2 ^ 58) (hp : p < 2 ^ 63) :
    ∃ index2,
      slow5_idx_build K slow5_idx_init_empty
          ⟨⟨hdr ++ concat_bytes lines, p, e⟩, .SLOW5_FORMAT_ASCII, compress, hdr.length⟩ =
        some (0, index2, ⟨hdr ++ concat_bytes lines, p, false⟩) ∧
      index2.ids_list = lines.map line_read_id ∧ index2.num_ids = lines.length ∧
      ∀ l1 line l2 out, lines = l1 ++ line :: l2 →
        slow5_idx_get index2 (line_read_id line) (some out) =
          (0, index2, some ⟨hdr.length + (concat_bytes l1).length, line.length⟩) := by
  have hok := lines_ok_of_newlines lines hlines
  have hll := lines_ok_length lines hok
  simp only [List.length_append] at hsize
  have hdrop : (hdr ++ concat_bytes lines).drop hdr.length = concat_bytes lines :=
    List.drop_left _ _
  have hkeys : ((slow5_idx_init_empty.hash ++ text_entries hdr.length lines).map
      (fun e => cstr e.1)).Nodup := by
    simpa [slow5_idx_init_empty, text_entries_keys] using hnd
  obtain ⟨index2, g1, g2, g3, _⟩ := (slow5_idx_build_ascii_ok (p % 2 ^ 64)
    (hdr ++ concat_bytes lines) lines ((hdr ++ concat_bytes lines).length + 1) hdr.length false
    slow5_idx_init_empty hdrop hok (by simp only [List.length_append]; omega) wf_init_empty
    (by simp [slow5_idx_init_empty]) (by simp [slow5_idx_init_empty]; omega) (by omega)).1 hkeys
  have hpm : p % 2 ^ 64 = p := Nat.mod_eq_of_lt (by omega)
  have hsm : hdr.length % 2 ^ 64 = hdr.length := Nat.mod_eq_of_lt (by omega)
  simp only [slow5_idx_init_empty, List.nil_append] at g2
  rw [hpm, slow5_idx_build_end_ok _ _ _ hp] at g1
  refine ⟨index2, ?_, ?_, ?_, ?_⟩
  · simp only [slow5_idx_build, ftello, fseeko_start _ hdr.length (by omega), ne_eq,
      not_true_eq_false, if_false, hsm, hpm]
    simp only [Nat.zero_ne_one, not_false_eq_true, not_true_eq_false, if_false, g1]
  · rw [g3.1, g2, text_entries_ids]
  · rw [g3.2.1, g2]
    have := congrArg List.length (text_entries_ids hdr.length lines)
    simpa using this
  · intro l1 line l2 out hdec
    have happ := text_entries_append hdr.length l1 line l2
    rw [← hdec] at happ
    rw [happ] at g2
    have hnd2 : ((text_entries hdr.length l1 ++
        (line_read_id line, (⟨hdr.length + (concat_bytes l1).length, line.length⟩ :
          slow5_rec_idx)) ::
        text_entries (hdr.length + (concat_bytes l1).length + line.length) l2).map
          (fun e => cstr e.1)).Nodup := by
      rw [← happ, text_entries_keys]; exact hnd
    exact slow5_idx_get_of_entries index2 _ _ _ g2 hnd2 out

/-! ## Claims on insertion and lookup -/

/-- C10. `slow5_idx_is_version_compatible` returns 1 exactly when the file
version does not exceed the supported maximum in any of its three components,
and 0 otherwise; a triple with one larger component is refused although it
precedes the maximum lexicographically. -/
theorem slow5_idx_is_version_compatible_iff (m v : slow5_version) :
    (slow5_idx_is_version_compatible m v = 1 ↔
        v.major ≤ m.major ∧ v.minor ≤ m.minor ∧ v.patch ≤ m.patch) ∧
      (¬ (v.major ≤ m.major ∧ v.minor ≤ m.minor ∧ v.patch ≤ m.patch) →
        slow5_idx_is_version_compatible m v = 0) ∧
      slow5_idx_is_version_compatible ⟨1, 0, 0⟩ ⟨0, 1, 0⟩ = 0 := by
  refine ⟨?_, ?_, by decide⟩
  · unfold slow5_idx_is_version_compatible
    by_cases h : v.major > m.major ∨ v.minor > m.minor ∨ v.patch > m.patch
    · simp only [h, if_true]
      constructor
      · intro h0; exact absurd h0 (by decide)
      · intro h1; omega
    · simp only [h, if_false, true_iff]
      omega
  · intro h
    unfold slow5_idx_is_version_compatible
    have : v.major > m.major ∨ v.minor > m.minor ∨ v.patch > m.patch := by omega
    simp [this]

/-- C5. Inserting a read id that is already a key of the index returns -1 and
leaves the index as it was: same ids, same `num_ids`, and the entry stored
for the read id keeps its offset and size, whatever offset and size were
passed. -/
theorem slow5_idx_insert_duplicate (index : slow5_idx) (read_id : List Nat)
    (offset size : Nat) (h : index.is_key read_id) :
    (slow5_idx_insert index read_id offset size).1 = -1 ∧
      (slow5_idx_insert index read_id offset size).2 = index ∧
      (slow5_idx_insert index read_id offset size).2.ids_list = index.ids_list ∧
      (slow5_idx_insert index read_id offset size).2.num_ids = index.num_ids ∧
      ∀ e, slow5_idx_get (slow5_idx_insert index read_id offset size).2 read_id (some e) =
        (0, index, some (kh_value index.hash (kh_get index.hash read_id))) := by
  have hk := (kh_get_ne_end_iff index read_id).mpr h
  rw [slow5_idx_insert_present index read_id offset size hk]
  refine ⟨rfl, rfl, rfl, rfl, ?_⟩
  intro e
  simp [slow5_idx_get, hk]

/-- Witness of C5: the second insertion of the id "r1". -/
theorem slow5_idx_insert_duplicate_witness :
    idx_r1.is_key [114, 49] ∧
      (slow5_idx_insert idx_r1 [114, 49] 40 50).1 = -1 ∧
      (slow5_idx_insert idx_r1 [114, 49] 40 50).2 = idx_r1 ∧
      (slow5_idx_insert idx_r1 [114, 49] 40 50).2.ids_list = idx_r1.ids_list ∧
      (slow5_idx_insert idx_r1 [114, 49] 40 50).2.num_ids = idx_r1.num_ids ∧
      ∀ e, slow5_idx_get (slow5_idx_insert idx_r1 [114, 49] 40 50).2 [114, 49] (some e) =
        (0, idx_r1, some (kh_value idx_r1.hash (kh_get idx_r1.hash [114, 49]))) :=
  ⟨by decide, slow5_idx_insert_duplicate idx_r1 [114, 49] 40 50 (by decide)⟩

/-- C6. Inserting a read id that is not a key into a valid index returns 0 and
appends the id to the ids: the ids in use are the old ones followed by the
new id, `num_ids` grows by one, and this holds across the doubling of the
capacity, after which the array is again as long as `cap_ids` says. -/
theorem slow5_idx_insert_appends (index : slow5_idx) (read_id : List Nat)
    (offset size : Nat) (hv : index.valid) (hk : ¬ index.is_key read_id) :
    (slow5_idx_insert index read_id offset size).1 = 0 ∧
      (slow5_idx_insert index read_id offset size).2.ids_list =
        index.ids_list ++ [read_id] ∧
      (slow5_idx_insert index read_id offset size).2.num_ids = index.num_ids + 1 ∧
      (slow5_idx_insert index read_id offset size).2.ids.length =
        (slow5_idx_insert index read_id offset size).2.cap_ids ∧
      (slow5_idx_insert index read_id offset size).2.num_ids ≤
        (slow5_idx_insert index read_id offset size).2.cap_ids := by
  have hk2 : kh_get index.hash read_id = kh_end index.hash := by
    by_contra hne
    exact hk ((kh_get_ne_end_iff index read_id).mp hne)
  obtain ⟨g1, g2, g3⟩ := grow_ids_length index hv
  have hlt : index.num_ids + 1 < 2 ^ 64 := by
    obtain ⟨_, h2, h3⟩ := hv
    omega
  rw [slow5_idx_insert_absent index read_id offset size hk2]
  simp only [slow5_idx.ids_list, Nat.mod_eq_of_lt hlt, List.length_set]
  refine ⟨trivial, ?_, trivial, g1, by omega⟩
  rw [← g3]
  exact take_succ_set (grow_ids index) index.num_ids read_id (by omega)

/-- Witness of C6: the first insertion into the empty index, which allocates
the array. -/
theorem slow5_idx_insert_appends_witness :
    slow5_idx_init_empty.valid ∧ ¬ slow5_idx_init_empty.is_key [114, 49] ∧
      (slow5_idx_insert slow5_idx_init_empty [114, 49] 0 40).1 = 0 ∧
      (slow5_idx_insert slow5_idx_init_empty [114, 49] 0 40).2.ids_list =
        slow5_idx_init_empty.ids_list ++ [[114, 49]] ∧
      (slow5_idx_insert slow5_idx_init_empty [114, 49] 0 40).2.num_ids =
        slow5_idx_init_empty.num_ids + 1 ∧
      (slow5_idx_insert slow5_idx_init_empty [114, 49] 0 40).2.ids.length =
        (slow5_idx_insert slow5_idx_init_empty [114, 49] 0 40).2.cap_ids ∧
      (slow5_idx_insert slow5_idx_init_empty [114, 49] 0 40).2.num_ids ≤
        (slow5_idx_insert slow5_idx_init_empty [114, 49] 0 40).2.cap_ids :=
  ⟨by decide, by decide,
    slow5_idx_insert_appends slow5_idx_init_empty [114, 49] 0 40 (by decide) (by decide)⟩

/-- C7. After an insertion that returned 0, looking the inserted id up returns
0 and stores the offset and size just inserted; for any other id (another C
string) the lookup gives the result code and the entry it gave before the
insertion. -/
theorem slow5_idx_get_after_insert (index : slow5_idx) (id : List Nat) (offset size : Nat)
    (h : (slow5_idx_insert index id offset size).1 = 0) :
    (∀ e, slow5_idx_get (slow5_idx_insert index id offset size).2 id (some e) =
        (0, (slow5_idx_insert index id offset size).2, some ⟨offset, size⟩)) ∧
      ∀ id2 e, cstr id2 ≠ cstr id →
        (slow5_idx_get (slow5_idx_insert index id offset size).2 id2 e).1 =
            (slow5_idx_get index id2 e).1 ∧
          (slow5_idx_get (slow5_idx_insert index id offset size).2 id2 e).2.2 =
            (slow5_idx_get index id2 e).2.2 := by
  have hk : kh_get index.hash id = kh_end index.hash := by
    by_contra hne
    rw [slow5_idx_insert_present index id offset size hne] at h
    simp at h
  rw [slow5_idx_insert_absent index id offset size hk]
  constructor
  · intro e
    have e1 : kh_get (index.hash ++ [(id, (⟨offset, size⟩ : slow5_rec_idx))]) id =
        index.hash.length := by
      rw [kh_get_append_end _ _ _ hk]; simp [kh_get]
    simp [slow5_idx_get, e1, kh_end, kh_value_append_end]
  · intro id2 e hne
    by_cases hk2 : kh_get index.hash id2 = kh_end index.hash
    · have e1 : kh_get (index.hash ++ [(id, (⟨offset, size⟩ : slow5_rec_idx))]) id2 =
          index.hash.length + 1 := by
        rw [kh_get_append_end _ _ _ hk2]; simp [kh_get, Ne.symm hne]
      simp [slow5_idx_get, e1, hk2, kh_end]
    · have e1 := kh_get_append_lt index.hash [(id, (⟨offset, size⟩ : slow5_rec_idx))] id2 hk2
      have hlt : kh_get index.hash id2 < index.hash.length := by
        have := kh_get_le index.hash id2
        simp only [kh_end] at hk2
        omega
      have hne2 : kh_get index.hash id2 ≠ index.hash.length + 1 := by omega
      have hne3 : kh_get index.hash id2 ≠ index.hash.length := by omega
      cases e with
      | none => simp [slow5_idx_get, e1, kh_end, hne2, hne3]
      | some v =>
        simp [slow5_idx_get, e1, kh_end, hne2, hne3, kh_value_append_lt _ _ _ hlt]

/-- Witness of C7: the id "r2" inserted after "r1". -/
theorem slow5_idx_get_after_insert_witness :
    (slow5_idx_insert idx_r1 [114, 50] 40 50).1 = 0 ∧
      (∀ e, slow5_idx_get (slow5_idx_insert idx_r1 [114, 50] 40 50).2 [114, 50] (some e) =
        (0, (slow5_idx_insert idx_r1 [114, 50] 40 50).2, some ⟨40, 50⟩)) ∧
      ∀ id2 e, cstr id2 ≠ cstr [114, 50] →
        (slow5_idx_get (slow5_idx_insert idx_r1 [114, 50] 40 50).2 id2 e).1 =
            (slow5_idx_get idx_r1 id2 e).1 ∧
          (slow5_idx_get (slow5_idx_insert idx_r1 [114, 50] 40 50).2 id2 e).2.2 =
            (slow5_idx_get idx_r1 id2 e).2.2 :=
  ⟨by decide, slow5_idx_get_after_insert idx_r1 [114, 50] 40 50 (by decide)⟩

/-- C8. Looking up a read id that is not a key returns -1, leaves the
out-parameter as it was and leaves the index as it was; and for every id the
lookup returns 0 exactly when the id is a key of the index. -/
theorem slow5_idx_get_missing (index : slow5_idx) (read_id : List Nat)
    (read_index : Option slow5_rec_idx) (h : ¬ index.is_key read_id) :
    slow5_idx_get index read_id read_index = (-1, index, read_index) ∧
      ∀ id out, (slow5_idx_get index id out).1 = 0 ↔ index.is_key id := by
  constructor
  · have hk : kh_get index.hash read_id = kh_end index.hash := by
      by_contra hne
      exact h ((kh_get_ne_end_iff index read_id).mp hne)
    simp [slow5_idx_get, hk]
  · intro id out
    rw [← kh_get_ne_end_iff]
    by_cases hk : kh_get index.hash id = kh_end index.hash
    · simp [slow5_idx_get, hk]
    · cases out <;> simp [slow5_idx_get, hk]

/-- Witness of C8: the id "r2" looked up in the index that holds "r1". -/
theorem slow5_idx_get_missing_witness :
    ¬ idx_r1.is_key [114, 50] ∧
      slow5_idx_get idx_r1 [114, 50] (some ⟨7, 7⟩) = (-1, idx_r1, some ⟨7, 7⟩) ∧
      ∀ id out, (slow5_idx_get idx_r1 id out).1 = 0 ↔ idx_r1.is_key id :=
  ⟨by decide, slow5_idx_get_missing idx_r1 [114, 50] (some ⟨7, 7⟩) (by decide)⟩

/-- Witness of C3: the sample text file, the stream standing at its start. -/
theorem slow5_idx_build_text_witness :
    ((∀ l ∈ text_lines, l.getLast? = some 10 ∧ 10 ∉ l.dropLast) ∧
      (text_lines.map line_read_id).Nodup ∧
      (text_hdr ++ concat_bytes text_lines).length < 2 ^ 58 ∧ 0 < 2 ^ 63) ∧
    ∃ index2,
      slow5_idx_build defs0 slow5_idx_init_empty
          ⟨⟨text_hdr ++ concat_bytes text_lines, 0, false⟩, .SLOW5_FORMAT_ASCII, press_none,
            text_hdr.length⟩ =
        some (0, index2, ⟨text_hdr ++ concat_bytes text_lines, 0, false⟩) ∧
      index2.ids_list = text_lines.map line_read_id ∧ index2.num_ids = text_lines.length ∧
      ∀ l1 line l2 out, text_lines = l1 ++ line :: l2 →
        slow5_idx_get index2 (line_read_id line) (some out) =
          (0, index2, some ⟨text_hdr.length + (concat_bytes l1).length, line.length⟩) :=
  ⟨⟨by decide, by decide, by decide, by decide⟩,
    slow5_idx_build_text defs0 text_hdr text_lines 0 false press_none (by decide) (by decide)
      (by decide) (by decide)⟩

/-- C2. For a binary file whose record region is a sequence of records (an
8-byte size prefix followed by that many payload bytes, each payload one that
decompresses) with pairwise distinct read ids, closed by the binary
end-of-file marker, `slow5_idx_build` returns 0 and restores the position of
the stream; the ids are those of the records in order, and the entry of each
record has for offset the position of its size prefix (the start of the
records plus the sum of 8 + prefix over the records before it) and for size
8 + its prefix, so that the bytes of the file from offset on, size of them,
are the bytes of the record. -/
theorem slow5_idx_build_binary_geometry (K : slow5_defs) (hK : K.slow5_is_eof = slow5_is_eof)
    (hdr : List Nat) (payloads : List (List Nat)) (p : Nat) (e : Bool)
    (compress : List Nat → Option (List Nat))
    (hrec : ∀ pl ∈ payloads, pl ≠ [] ∧ (compress pl).isSome)
    (hnd : (payloads.map (fun pl => cstr (record_read_id compress pl))).Nodup)
    (hsize : (hdr ++ concat_bytes (payloads.map record_bytes) ++ K.SLOW5_BINARY_EOF).length
      < 2 ^ 58)
    (hp : p < 2 ^ 63) :
    ∃ index2,
      slow5_idx_build K slow5_idx_init_empty
          ⟨⟨hdr ++ concat_bytes (payloads.map record_bytes) ++ K.SLOW5_BINARY_EOF, p, e⟩,
            .SLOW5_FORMAT_BINARY, compress, hdr.length⟩ =
        some (0, index2,
          ⟨hdr ++ concat_bytes (payloads.map record_bytes) ++ K.SLOW5_BINARY_EOF, p, false⟩) ∧
      index2.ids_list = payloads.map (record_read_id compress) ∧
      index2.num_ids = payloads.length ∧
      ∀ l1 pl l2 out, payloads = l1 ++ pl :: l2 →
        slow5_idx_get index2 (record_read_id compress pl) (some out) =
            (0, index2,
              some ⟨hdr.length + (l1.map (fun q => 8 + q.length)).sum, 8 + pl.length⟩) ∧
          ((hdr ++ concat_bytes (payloads.map record_bytes) ++ K.SLOW5_BINARY_EOF).drop
              (hdr.length + (l1.map (fun q => 8 + q.length)).sum)).take (8 + pl.length) =
            record_bytes pl := by
  generalize hdata : hdr ++ concat_bytes (payloads.map record_bytes) ++ K.SLOW5_BINARY_EOF = data
    at hsize ⊢
  have hcount := records_count payloads
  have hdl : data.length = hdr.length + (concat_bytes (payloads.map record_bytes)).length +
      K.SLOW5_BINARY_EOF.length := by
    rw [← hdata]; simp only [List.length_append]
  have hdrop : data.drop hdr.length =
      concat_bytes (payloads.map record_bytes) ++ K.SLOW5_BINARY_EOF := by
    rw [← hdata, List.append_assoc, List.drop_left]
  have hkeys : ((slow5_idx_init_empty.hash ++ binary_entries compress hdr.length payloads).map
      (fun e => cstr e.1)).Nodup := by
    simpa [slow5_idx_init_empty, binary_entries_keys] using hnd
  obtain ⟨index2, g1, g2, g3, _⟩ := (slow5_idx_build_binary_ok K hK compress (p % 2 ^ 64)
    data payloads (data.length + 1) hdr.length slow5_idx_init_empty hdrop hrec (by omega)
    wf_init_empty (by simp [slow5_idx_init_empty]) (by simp [slow5_idx_init_empty]; omega)
    (by omega)).1 hkeys
  have hpm : p % 2 ^ 64 = p := Nat.mod_eq_of_lt (by omega)
  simp only [slow5_idx_init_empty, List.nil_append] at g2
  rw [hpm, slow5_idx_build_end_ok _ _ _ hp] at g1
  refine ⟨index2, ?_, ?_, ?_, ?_⟩
  · simp only [slow5_idx_build, ftello, fseeko_start _ hdr.length (by omega), ne_eq,
      not_true_eq_false, if_false, hpm]
    simp only [Nat.zero_ne_one, not_false_eq_true, not_true_eq_false, if_false, g1]
  · rw [g3.1, g2, binary_entries_ids]
  · rw [g3.2.1, g2]
    have := congrArg List.length (binary_entries_ids compress hdr.length payloads)
    simpa using this
  · intro l1 pl l2 out hdec
    have happ := binary_entries_append compress hdr.length l1 pl l2
    rw [← hdec] at happ
    rw [happ] at g2
    have hnd2 : ((binary_entries compress hdr.length l1 ++
        (record_read_id compress pl,
          (⟨hdr.length + (l1.map (fun q => 8 + q.length)).sum, 8 + pl.length⟩ : slow5_rec_idx)) ::
        binary_entries compress
          (hdr.length + (l1.map (fun q => 8 + q.length)).sum + (8 + pl.length)) l2).map
          (fun e => cstr e.1)).Nodup := by
      rw [← happ, binary_entries_keys]; exact hnd
    refine ⟨slow5_idx_get_of_entries index2 _ _ _ g2 hnd2 out, ?_⟩
    have hsplit : data = (hdr ++ concat_bytes (l1.map record_bytes)) ++
        (record_bytes pl ++ (concat_bytes (l2.map record_bytes) ++ K.SLOW5_BINARY_EOF)) := by
      rw [← hdata, hdec]
      simp [concat_bytes_append, concat_bytes, List.append_assoc]
    have hpre : (hdr ++ concat_bytes (l1.map record_bytes)).length =
        hdr.length + (l1.map (fun q => 8 + q.length)).sum := by
      rw [List.length_append, records_length]
    have hrl : (record_bytes pl).length = 8 + pl.length := by
      simp [record_bytes, le_bytes_length]
    rw [hsplit, ← hpre, List.drop_left, ← hrl, List.take_left]

/-- Witness of C2: the sample binary file with the sample constants, records
not compressed, the stream standing at its start. -/
theorem slow5_idx_build_binary_geometry_witness :
    (defs0.slow5_is_eof = slow5_is_eof ∧
      (∀ pl ∈ bin_payloads, pl ≠ [] ∧ (press_none pl).isSome) ∧
      (bin_payloads.map (fun pl => cstr (record_read_id press_none pl))).Nodup ∧
      (text_hdr ++ concat_bytes (bin_payloads.map record_bytes) ++
        defs0.SLOW5_BINARY_EOF).length < 2 ^ 58 ∧
      0 < 2 ^ 63) ∧
    ∃ index2,
      slow5_idx_build defs0 slow5_idx_init_empty
          ⟨⟨text_hdr ++ concat_bytes (bin_payloads.map record_bytes) ++ defs0.SLOW5_BINARY_EOF,
              0, false⟩,
            .SLOW5_FORMAT_BINARY, press_none, text_hdr.length⟩ =
        some (0, index2,
          ⟨text_hdr ++ concat_bytes (bin_payloads.map record_bytes) ++ defs0.SLOW5_BINARY_EOF,
            0, false⟩) ∧
      index2.ids_list = bin_payloads.map (record_read_id press_none) ∧
      index2.num_ids = bin_payloads.length ∧
      ∀ l1 pl l2 out, bin_payloads = l1 ++ pl :: l2 →
        slow5_idx_get index2 (record_read_id press_none pl) (some out) =
            (0, index2,
              some ⟨text_hdr.length + (l1.map (fun q => 8 + q.length)).sum, 8 + pl.length⟩) ∧
          ((text_hdr ++ concat_bytes (bin_payloads.map record_bytes) ++
                defs0.SLOW5_BINARY_EOF).drop
              (text_hdr.length + (l1.map (fun q => 8 + q.length)).sum)).take (8 + pl.length) =
            record_bytes pl :=
  ⟨⟨rfl, by decide, by decide, by decide, by decide⟩,
    slow5_idx_build_binary_geometry defs0 rfl text_hdr bin_payloads 0 false press_none
      (by decide) (by decide) (by decide) (by decide)⟩

/-- C9, as the claim states it, fails: on a file with a duplicated read id
`slow5_idx_build` returns -1, and -1 is also what it returns for a short read
of the size prefix, a short read of the payload, a failed decompression and a
failed seek. -/
theorem slow5_idx_build_duplicate_same_value :
    (slow5_idx_build defs0 slow5_idx_init_empty dup_file).map (fun r => r.1) = some (-1) ∧
      (slow5_idx_build defs0 slow5_idx_init_empty short_prefix_file).map (fun r => r.1) =
        some (-1) ∧
      (slow5_idx_build defs0 slow5_idx_init_empty short_payload_file).map (fun r => r.1) =
        some (-1) ∧
      (slow5_idx_build defs0 slow5_idx_init_empty bad_press_file).map (fun r => r.1) =
        some (-1) ∧
      (slow5_idx_build defs0 slow5_idx_init_empty bad_seek_file).map (fun r => r.1) =
        some (-1) := by
  refine ⟨by decide, by decide, by decide, by decide, by decide⟩

/-- C9, amended. On a file in which some read id occurs in two records
`slow5_idx_build` fails with -1, the value of its other failures: this holds
for a text file of newline-terminated lines and for a binary file of records
that decompress, closed by the end-of-file marker. -/
theorem slow5_idx_build_duplicate (K : slow5_defs) (hK : K.slow5_is_eof = slow5_is_eof)
    (hdr : List Nat) (p : Nat) (e : Bool) (compress : List Nat → Option (List Nat))
    (hp : p < 2 ^ 63) :
    (∀ lines : List (List Nat),
      (∀ l ∈ lines, l.getLast? = some 10 ∧ 10 ∉ l.dropLast) →
      ¬ (lines.map line_read_id).Nodup →
      (hdr ++ concat_bytes lines).length < 2 ^ 58 →
      ∃ index2 fp2,
        slow5_idx_build K slow5_idx_init_empty
            ⟨⟨hdr ++ concat_bytes lines, p, e⟩, .SLOW5_FORMAT_ASCII, compress, hdr.length⟩ =
          some (-1, index2, fp2)) ∧
    (∀ payloads : List (List Nat),
      (∀ pl ∈ payloads, pl ≠ [] ∧ (compress pl).isSome) →
      ¬ (payloads.map (fun pl => cstr (record_read_id compress pl))).Nodup →
      (hdr ++ concat_bytes (payloads.map record_bytes) ++ K.SLOW5_BINARY_EOF).length < 2 ^ 58 →
      ∃ index2 fp2,
        slow5_idx_build K slow5_idx_init_empty
            ⟨⟨hdr ++ concat_bytes (payloads.map record_bytes) ++ K.SLOW5_BINARY_EOF, p, e⟩,
              .SLOW5_FORMAT_BINARY, compress, hdr.length⟩ =
          some (-1, index2, fp2)) := by
  have hpm : p % 2 ^ 64 = p := Nat.mod_eq_of_lt (by omega)
  constructor
  · intro lines hlines hnd hsize
    have hok := lines_ok_of_newlines lines hlines
    have hll := lines_ok_length lines hok
    simp only [List.length_append] at hsize
    have hdrop : (hdr ++ concat_bytes lines).drop hdr.length = concat_bytes lines :=
      List.drop_left _ _
    have hkeys : ¬ ((slow5_idx_init_empty.hash ++ text_entries hdr.length lines).map
        (fun e => cstr e.1)).Nodup := by
      simpa [slow5_idx_init_empty, text_entries_keys] using hnd
    obtain ⟨index2, fp2, g1⟩ := (slow5_idx_build_ascii_ok (p % 2 ^ 64)
      (hdr ++ concat_bytes lines) lines ((hdr ++ concat_bytes lines).length + 1) hdr.length
      false slow5_idx_init_empty hdrop hok (by simp only [List.length_append]; omega)
      wf_init_empty (by simp [slow5_idx_init_empty]) (by simp [slow5_idx_init_empty]; omega)
      (by omega)).2 hkeys
    have hsm : hdr.length % 2 ^ 64 = hdr.length := Nat.mod_eq_of_lt (by omega)
    refine ⟨index2, fp2, ?_⟩
    simp only [slow5_idx_build, ftello, fseeko_start _ hdr.length (by omega), ne_eq,
      not_true_eq_false, if_false, hsm]
    simp only [Nat.zero_ne_one, not_false_eq_true, not_true_eq_false, if_false, g1]
  · intro payloads hrec hnd hsize
    generalize hdata :
      hdr ++ concat_bytes (payloads.map record_bytes) ++ K.SLOW5_BINARY_EOF = data at hsize ⊢
    have hcount := records_count payloads
    have hdl : data.length = hdr.length + (concat_bytes (payloads.map record_bytes)).length +
        K.SLOW5_BINARY_EOF.length := by
      rw [← hdata]; simp only [List.length_append]
    have hdrop : data.drop hdr.length =
        concat_bytes (payloads.map record_bytes) ++ K.SLOW5_BINARY_EOF := by
      rw [← hdata, List.append_assoc, List.drop_left]
    have hkeys : ¬ ((slow5_idx_init_empty.hash ++
        binary_entries compress hdr.length payloads).map (fun e => cstr e.1)).Nodup := by
      simpa [slow5_idx_init_empty, binary_entries_keys] using hnd
    obtain ⟨index2, fp2, g1⟩ := (slow5_idx_build_binary_ok K hK compress (p % 2 ^ 64)
      data payloads (data.length + 1) hdr.length slow5_idx_init_empty hdrop hrec (by omega)
      wf_init_empty (by simp [slow5_idx_init_empty]) (by simp [slow5_idx_init_empty]; omega)
      (by omega)).2 hkeys
    refine ⟨index2, fp2, ?_⟩
    simp only [slow5_idx_build, ftello, fseeko_start _ hdr.length (by omega), ne_eq,
      not_true_eq_false, if_false]
    simp only [Nat.zero_ne_one, not_false_eq_true, not_true_eq_false, if_false, g1]

/-- Witness of the amended C9: the text file and the binary file in which the
id "a" occurs twice. -/
theorem slow5_idx_build_duplicate_witness :
    (defs0.slow5_is_eof = slow5_is_eof ∧ 0 < 2 ^ 63 ∧
      (∀ l ∈ dup_lines, l.getLast? = some 10 ∧ 10 ∉ l.dropLast) ∧
      ¬ (dup_lines.map line_read_id).Nodup ∧
      (text_hdr ++ concat_bytes dup_lines).length < 2 ^ 58 ∧
      (∀ pl ∈ dup_payloads, pl ≠ [] ∧ (press_none pl).isSome) ∧
      ¬ (dup_payloads.map (fun pl => cstr (record_read_id press_none pl))).Nodup ∧
      (text_hdr ++ concat_bytes (dup_payloads.map record_bytes) ++
        defs0.SLOW5_BINARY_EOF).length < 2 ^ 58) ∧
    (∃ index2 fp2,
      slow5_idx_build defs0 slow5_idx_init_empty
          ⟨⟨text_hdr ++ concat_bytes dup_lines, 0, false⟩, .SLOW5_FORMAT_ASCII, press_none,
            text_hdr.length⟩ =
        some (-1, index2, fp2)) ∧
    (∃ index2 fp2,
      slow5_idx_build defs0 slow5_idx_init_empty
          ⟨⟨text_hdr ++ concat_bytes (dup_payloads.map record_bytes) ++ defs0.SLOW5_BINARY_EOF,
              0, false⟩,
            .SLOW5_FORMAT_BINARY, press_none, text_hdr.length⟩ =
        some (-1, index2, fp2)) :=
  ⟨⟨rfl, by decide, by decide, by decide, by decide, by decide, by decide, by decide⟩,
    (slow5_idx_build_duplicate defs0 rfl text_hdr 0 false press_none (by decide)).1 dup_lines
      (by decide) (by decide) (by decide),
    (slow5_idx_build_duplicate defs0 rfl text_hdr 0 false press_none (by decide)).2 dup_payloads
      (by decide) (by decide) (by decide)⟩

/-- C4. When `slow5_idx_build` returns 0 on a file, the record region of the
file is a sequence of records (text: the lines `getline` reads; binary: size
prefix and payload, each payload one that decompresses, closed by the
end-of-file marker) and the ids of the index are the read ids of these
records in file order, `num_ids` being their number. -/
theorem slow5_idx_build_scan_order (K : slow5_defs) (hK : K.slow5_is_eof = slow5_is_eof)
    (data : List Nat) (p : Nat) (e : Bool) (compress : List Nat → Option (List Nat))
    (start : Nat) (fmt : slow5_fmt) (index2 : slow5_idx) (fp2 : FILE)
    (hbytes : ∀ b ∈ data, b < 256) (hsize : data.length < 2 ^ 58) (hstart : start < 2 ^ 64)
    (h : slow5_idx_build K slow5_idx_init_empty ⟨⟨data, p, e⟩, fmt, compress, start⟩ =
      some (0, index2, fp2)) :
    (fmt = .SLOW5_FORMAT_ASCII →
      ∃ lines : List (List Nat), data.drop start = concat_bytes lines ∧ lines_ok lines ∧
        index2.ids_list = lines.map line_read_id ∧ index2.num_ids = lines.length) ∧
    (fmt = .SLOW5_FORMAT_BINARY →
      ∃ payloads : List (List Nat),
        data.drop start = concat_bytes (payloads.map record_bytes) ++ K.SLOW5_BINARY_EOF ∧
        (∀ pl ∈ payloads, pl ≠ [] ∧ (compress pl).isSome) ∧
        index2.ids_list = payloads.map (record_read_id compress) ∧
        index2.num_ids = payloads.length) := by
  have hs : start < 2 ^ 63 := by
    by_contra hge
    have hf := fseeko_start_fail ⟨data, p, e⟩ start (by omega) hstart
    simp only [slow5_idx_build, hf] at h
    simp at h
  have hsm : start % 2 ^ 64 = start := Nat.mod_eq_of_lt hstart
  have hdl : (data.drop start).length ≤ data.length := by simp
  have hdl2 : start + (data.drop start).length < 2 ^ 64 := by
    simp only [List.length_drop]; omega
  simp only [slow5_idx_build, ftello, fseeko_start _ start hs, ne_eq, not_true_eq_false,
    if_false, hsm] at h
  constructor
  · intro hf
    subst hf
    simp only at h
    obtain ⟨lines, l1, l2⟩ := lines_of_data (data.drop start).length (data.drop start) le_rfl
    have hll := lines_ok_length lines l2
    rw [← l1] at hll
    have hlem := slow5_idx_build_ascii_ok (p % 2 ^ 64) data lines (data.length + 1) start false
      slow5_idx_init_empty l1 l2 (by omega) wf_init_empty (by simp [slow5_idx_init_empty])
      (by simp [slow5_idx_init_empty]; omega) (by rw [← l1]; exact hdl2)
    by_cases hnd : ((slow5_idx_init_empty.hash ++ text_entries start lines).map
        (fun e => cstr e.1)).Nodup
    · obtain ⟨ix, g1, g2, g3, _⟩ := hlem.1 hnd
      rw [g1] at h
      have hix : ix = index2 := by
        have := slow5_idx_build_end_index ix
          ⟨data, start + (concat_bytes lines).length, true⟩ (p % 2 ^ 64)
        rw [Option.some.inj h] at this
        exact this.symm
      subst hix
      simp only [slow5_idx_init_empty, List.nil_append] at g2
      refine ⟨lines, l1, l2, ?_, ?_⟩
      · rw [g3.1, g2, text_entries_ids]
      · rw [g3.2.1, g2]
        have := congrArg List.length (text_entries_ids start lines)
        simpa using this
    · obtain ⟨ix, fx, g1⟩ := hlem.2 hnd
      rw [g1] at h
      simp at h
  · intro hf
    subst hf
    simp only at h
    obtain ⟨payloads, l1, l2⟩ := slow5_idx_build_binary_inv K hK compress (p % 2 ^ 64) data
      hbytes _ _ _ _ _ h
    have hcount := records_count payloads
    have hpl : (concat_bytes (payloads.map record_bytes)).length ≤ (data.drop start).length := by
      rw [l1]; simp
    have hlem := slow5_idx_build_binary_ok K hK compress (p % 2 ^ 64) data payloads
      (data.length + 1) start slow5_idx_init_empty l1 l2 (by omega) wf_init_empty
      (by simp [slow5_idx_init_empty]) (by simp [slow5_idx_init_empty]; omega) (by omega)
    by_cases hnd : ((slow5_idx_init_empty.hash ++ binary_entries compress start payloads).map
        (fun e => cstr e.1)).Nodup
    · obtain ⟨ix, g1, g2, g3, _⟩ := hlem.1 hnd
      rw [g1] at h
      have hix : ix = index2 := by
        have := slow5_idx_build_end_index ix
          ⟨data, start + (concat_bytes (payloads.map record_bytes)).length, false⟩ (p % 2 ^ 64)
        rw [Option.some.inj h] at this
        exact this.symm
      subst hix
      simp only [slow5_idx_init_empty, List.nil_append] at g2
      refine ⟨payloads, l1, l2, ?_, ?_⟩
      · rw [g3.1, g2, binary_entries_ids]
      · rw [g3.2.1, g2]
        have := congrArg List.length (binary_entries_ids compress start payloads)
        simpa using this
    · obtain ⟨ix, fx, g1⟩ := hlem.2 hnd
      rw [g1] at h
      simp at h

/-- Witness of C4: the build of the sample binary file. -/
theorem slow5_idx_build_scan_order_witness :
    (defs0.slow5_is_eof = slow5_is_eof ∧ (∀ b ∈ bin_data, b < 256) ∧
      bin_data.length < 2 ^ 58 ∧ 2 < 2 ^ 64 ∧
      slow5_idx_build defs0 slow5_idx_init_empty
          ⟨⟨bin_data, 0, false⟩, .SLOW5_FORMAT_BINARY, press_none, 2⟩ =
        some (0, bin_index, ⟨bin_data, 0, false⟩)) ∧
    ((slow5_fmt.SLOW5_FORMAT_BINARY = .SLOW5_FORMAT_ASCII →
      ∃ lines : List (List Nat), bin_data.drop 2 = concat_bytes lines ∧ lines_ok lines ∧
        bin_index.ids_list = lines.map line_read_id ∧ bin_index.num_ids = lines.length) ∧
    (slow5_fmt.SLOW5_FORMAT_BINARY = .SLOW5_FORMAT_BINARY →
      ∃ payloads : List (List Nat),
        bin_data.drop 2 =
          concat_bytes (payloads.map record_bytes) ++ defs0.SLOW5_BINARY_EOF ∧
        (∀ pl ∈ payloads, pl ≠ [] ∧ (press_none pl).isSome) ∧
        bin_index.ids_list = payloads.map (record_read_id press_none) ∧
        bin_index.num_ids = payloads.length)) :=
  ⟨⟨rfl, by decide, by decide, by decide, by decide⟩,
    slow5_idx_build_scan_order defs0 rfl bin_data 0 false press_none 2 .SLOW5_FORMAT_BINARY
      bin_index ⟨bin_data, 0, false⟩ (by decide) (by decide) (by decide) (by decide)⟩

/-! ## Claims on the auxiliary field types -/

/-- C16. Every pointer kind of `enum aux_type` (the ten array kinds and
STRING) satisfies `IS_PTR`, and `TO_PRIM_TYPE` sends it to the scalar kind of
its elements, whose value is the value of the pointer kind minus that of
INT8_T_ARRAY and for which `IS_PTR` is false: INT8_T_ARRAY to INT8_T, and so
on to DOUBLE_ARRAY to DOUBLE and STRING to CHAR; for each of the eleven scalar
kinds `IS_PTR` is false. -/
theorem TO_PRIM_TYPE_scalar :
    (∀ t : aux_type, IS_PTR t = true ↔
        t ∈ [aux_type.INT8_T_ARRAY, .INT16_T_ARRAY, .INT32_T_ARRAY, .INT64_T_ARRAY,
          .UINT8_T_ARRAY, .UINT16_T_ARRAY, .UINT32_T_ARRAY, .UINT64_T_ARRAY, .FLOAT_ARRAY,
          .DOUBLE_ARRAY, .STRING]) ∧
      (∀ t : aux_type, IS_PTR t = true →
        ∃ s, TO_PRIM_TYPE t = some s ∧ IS_PTR s = false ∧
          s.val = t.val - aux_type.INT8_T_ARRAY.val) ∧
      (List.map TO_PRIM_TYPE [aux_type.INT8_T_ARRAY, .INT16_T_ARRAY, .INT32_T_ARRAY,
          .INT64_T_ARRAY, .UINT8_T_ARRAY, .UINT16_T_ARRAY, .UINT32_T_ARRAY, .UINT64_T_ARRAY,
          .FLOAT_ARRAY, .DOUBLE_ARRAY, .STRING] =
        List.map some [aux_type.INT8_T, .INT16_T, .INT32_T, .INT64_T, .UINT8_T, .UINT16_T,
          .UINT32_T, .UINT64_T, .FLOAT, .DOUBLE, .CHAR]) ∧
      (∀ s ∈ [aux_type.INT8_T, .INT16_T, .INT32_T, .INT64_T, .UINT8_T, .UINT16_T,
          .UINT32_T, .UINT64_T, .FLOAT, .DOUBLE, .CHAR], IS_PTR s = false) := by
  refine ⟨?_, ?_, by decide, by decide⟩
  · intro t; cases t <;> decide
  · intro t ht
    cases t <;> first | exact absurd ht (by decide) | exact ⟨_, rfl, by decide, by decide⟩

/-- C17. The table `AUX_TYPE_META` is indexed by kind: its entry at each of
the 22 kinds has that kind as type; the size of a scalar kind is its element
width (1, 2, 4, 8 for the integers of 8, 16, 32, 64 bits, 4 for float, 8 for
double, 1 for char); and the entry of a pointer kind has the size of the
entry of its element kind and its type name followed by a star. -/
theorem AUX_TYPE_META_indexed :
    AUX_TYPE_META.length = 22 ∧
      (∀ k : aux_type, ∃ m, AUX_TYPE_META_at k = some m ∧ m.type = k) ∧
      (∀ k : aux_type, IS_PTR k = false →
        ∃ m, AUX_TYPE_META_at k = some m ∧ some m.size = scalar_width k) ∧
      (∀ t : aux_type, IS_PTR t = true →
        ∃ m s ms, AUX_TYPE_META_at t = some m ∧ TO_PRIM_TYPE t = some s ∧
          AUX_TYPE_META_at s = some ms ∧ m.size = ms.size ∧
          m.type_str = ms.type_str ++ "*") := by
  refine ⟨rfl, ?_, ?_, ?_⟩
  · intro k; cases k <;> exact ⟨_, rfl, rfl⟩
  · intro k hk
    cases k <;> first | exact absurd hk (by decide) | exact ⟨_, rfl, rfl⟩
  · intro t ht
    cases t <;>
      first
      | exact absurd ht (by decide)
      | exact ⟨_, _, _, rfl, rfl, rfl, rfl, by decide⟩

/-! ## Claims on the failures of reading and building -/

/-- C11. The header of a sidecar is checked before any entry is read: when
the first bytes of the stream (as many as the magic number has) are not the
magic number `slow5_idx_read` returns SLOW5_ERR_MAGIC and leaves the index as
it was, and when the stream starts with the magic number followed by a
version that exceeds SLOW5_INDEX_VERSION in some component it returns
SLOW5_ERR_VERSION having changed nothing of the index but its version: ids,
`num_ids` and the map are as before (empty for a new index), whatever
follows the header. -/
theorem slow5_idx_read_header_check (K : slow5_defs) (index : slow5_idx) (data : List Nat)
    (e : Bool) :
    (K.SLOW5_INDEX_MAGIC_NUMBER.length ≤ data.length →
      data.take K.SLOW5_INDEX_MAGIC_NUMBER.length ≠ K.SLOW5_INDEX_MAGIC_NUMBER →
      slow5_idx_read K index ⟨data, 0, e⟩ =
        some ( K.SLOW5_ERR_MAGIC, index, ⟨data, K.SLOW5_INDEX_MAGIC_NUMBER.length, e⟩)) ∧
    (∀ a b c rest, data = K.SLOW5_INDEX_MAGIC_NUMBER ++ a :: b :: c :: rest →
      (a > K.SLOW5_INDEX_VERSION.major ∨ b > K.SLOW5_INDEX_VERSION.minor ∨
        c > K.SLOW5_INDEX_VERSION.patch) →
      ∃ index2 fp2, slow5_idx_read K index ⟨data, 0, e⟩ =
          some ( K.SLOW5_ERR_VERSION, index2, fp2) ∧
        index2.ids = index.ids ∧ index2.num_ids = index.num_ids ∧
        index2.cap_ids = index.cap_ids ∧ index2.hash = index.hash ∧
        index2.ids_list = index.ids_list) := by
  constructor
  · intro hlen hne
    have hgl : (data.take K.SLOW5_INDEX_MAGIC_NUMBER.length).length =
        K.SLOW5_INDEX_MAGIC_NUMBER.length := by
      rw [List.length_take]; omega
    have hne2 : K.SLOW5_INDEX_MAGIC_NUMBER ≠ data.take K.SLOW5_INDEX_MAGIC_NUMBER.length :=
      fun h => hne h.symm
    simp [slow5_idx_read, fread, hgl, hne2]
  · intro a b c rest hdata hv
    have d0 : data.drop 0 = K.SLOW5_INDEX_MAGIC_NUMBER ++ ([a] ++ ([b] ++ ([c] ++ rest))) := by
      rw [hdata]; simp
    have r0 := fread_of_drop data 0 e 1 K.SLOW5_INDEX_MAGIC_NUMBER.length _ _ d0 (by simp)
    have d1 := drop_add_of_drop data 0 _ _ d0
    have r1 := fread_of_drop data _ e 1 1 _ _ d1 (by simp)
    have d2 := drop_add_of_drop data _ _ _ d1
    have r2 := fread_of_drop data _ e 1 1 _ _ d2 (by simp)
    have d3 := drop_add_of_drop data _ _ _ d2
    have r3 := fread_of_drop data _ e 1 1 _ _ d3 (by simp)
    simp only [List.length_singleton, Nat.div_one, zero_add] at r0 r1 r2 r3
    have hc : slow5_idx_is_version_compatible K.SLOW5_INDEX_VERSION ⟨a, b, c⟩ = 0 := by
      simp [slow5_idx_is_version_compatible, hv]
    refine ⟨{ index with version := ⟨a, b, c⟩ },
      ⟨data, K.SLOW5_INDEX_MAGIC_NUMBER.length + 1 + 1 + 1, e⟩, ?_, rfl, rfl, rfl, rfl, rfl⟩
    simp only [slow5_idx_read, r0, r1, r2, r3, ne_eq, not_true_eq_false, if_false, le_val]
    simp [hc]

/-- Witness of C11: the two sample streams read into the empty index. -/
theorem slow5_idx_read_header_check_witness :
    (defs0.SLOW5_INDEX_MAGIC_NUMBER.length ≤ bad_magic_data.length ∧
      bad_magic_data.take defs0.SLOW5_INDEX_MAGIC_NUMBER.length ≠
        defs0.SLOW5_INDEX_MAGIC_NUMBER ∧
      bad_version_data = defs0.SLOW5_INDEX_MAGIC_NUMBER ++ 0 :: 2 :: 0 ::
        (List.replicate 52 0 ++ sidecar_entry ([114, 49], ⟨0, 40⟩) ++ defs0.SLOW5_INDEX_EOF) ∧
      (0 > defs0.SLOW5_INDEX_VERSION.major ∨ 2 > defs0.SLOW5_INDEX_VERSION.minor ∨
        0 > defs0.SLOW5_INDEX_VERSION.patch)) ∧
    slow5_idx_read defs0 slow5_idx_init_empty ⟨bad_magic_data, 0, false⟩ =
      some ( defs0.SLOW5_ERR_MAGIC, slow5_idx_init_empty,
        ⟨bad_magic_data, defs0.SLOW5_INDEX_MAGIC_NUMBER.length, false⟩) ∧
    ∃ index2 fp2, slow5_idx_read defs0 slow5_idx_init_empty ⟨bad_version_data, 0, false⟩ =
        some ( defs0.SLOW5_ERR_VERSION, index2, fp2) ∧
      index2.ids = slow5_idx_init_empty.ids ∧ index2.num_ids = slow5_idx_init_empty.num_ids ∧
      index2.cap_ids = slow5_idx_init_empty.cap_ids ∧
      index2.hash = slow5_idx_init_empty.hash ∧
      index2.ids_list = slow5_idx_init_empty.ids_list :=
  ⟨⟨by decide, by decide, by decide, by decide⟩,
    (slow5_idx_read_header_check defs0 slow5_idx_init_empty bad_magic_data false).1
      (by decide) (by decide),
    (slow5_idx_read_header_check defs0 slow5_idx_init_empty bad_version_data false).2
      0 2 0 (List.replicate 52 0 ++ sidecar_entry ([114, 49], ⟨0, 40⟩) ++ defs0.SLOW5_INDEX_EOF)
      (by decide) (by decide)⟩

/-- C12, evaluated on the code. A binary file whose record region ends in
fewer than 8 bytes that are not the end-of-file marker makes
`slow5_idx_build` return -1, the value of its other failures, whatever the
value of SLOW5_ERR_TRUNC is: so it is for a region with no complete record,
and so it is for the sample file that ends 3 bytes into the size prefix of
its second record, where SLOW5_ERR_TRUNC is -3. -/
theorem slow5_idx_build_short_prefix (K : slow5_defs) (hK : K.slow5_is_eof = slow5_is_eof)
    (hdr tail : List Nat) (p : Nat) (e : Bool) (compress : List Nat → Option (List Nat))
    (hshort : tail.length < 8) (hmark : tail ≠ K.SLOW5_BINARY_EOF)
    (hsize : hdr.length < 2 ^ 63) :
    slow5_idx_build K slow5_idx_init_empty
        ⟨⟨hdr ++ tail, p, e⟩, .SLOW5_FORMAT_BINARY, compress, hdr.length⟩ =
      some (-1, slow5_idx_init_empty, ⟨hdr ++ tail, hdr.length + tail.length, true⟩) ∧
    (slow5_idx_build defs0 slow5_idx_init_empty short_prefix_file).map (fun r => r.1) =
      some (-1) ∧
    defs0.SLOW5_ERR_TRUNC = -3 := by
  refine ⟨?_, by decide, rfl⟩
  have hdrop : (hdr ++ tail).drop hdr.length = tail := List.drop_left _ _
  have htake : List.take 8 tail = tail := List.take_of_length_le (by omega)
  have hdiv : tail.length / 8 = 0 := Nat.div_eq_of_lt hshort
  simp only [slow5_idx_build, ftello, fseeko_start _ hdr.length hsize, ne_eq,
    not_true_eq_false, if_false]
  simp [slow5_idx_build_binary, hK, slow5_is_eof, hdrop, hmark, fread, htake, hdiv, hshort]

/-- Witness of the evaluation for C12: a record region of three bytes. -/
theorem slow5_idx_build_short_prefix_witness :
    (defs0.slow5_is_eof = slow5_is_eof ∧ [5, 0, 0].length < 8 ∧
      [5, 0, 0] ≠ defs0.SLOW5_BINARY_EOF ∧ text_hdr.length < 2 ^ 63) ∧
    (slow5_idx_build defs0 slow5_idx_init_empty
        ⟨⟨text_hdr ++ [5, 0, 0], 0, false⟩, .SLOW5_FORMAT_BINARY, press_none, text_hdr.length⟩ =
      some (-1, slow5_idx_init_empty,
        ⟨text_hdr ++ [5, 0, 0], text_hdr.length + [5, 0, 0].length, true⟩) ∧
    (slow5_idx_build defs0 slow5_idx_init_empty short_prefix_file).map (fun r => r.1) =
      some (-1) ∧
    defs0.SLOW5_ERR_TRUNC = -3) :=
  ⟨⟨rfl, by decide, by decide, by decide⟩,
    slow5_idx_build_short_prefix defs0 rfl text_hdr [5, 0, 0] 0 false press_none (by decide)
      (by decide) (by decide)⟩

/-- C13, evaluated on the code. The sample sidecar (92 bytes: header, one
entry, marker) cut inside the read id (67 bytes), inside the offset (70),
inside the size (80) or four bytes into the end-of-file marker (88) makes
`slow5_idx_read` return SLOW5_ERR_IO, not SLOW5_ERR_TRUNC; it returns
SLOW5_ERR_TRUNC when the cut falls at an entry boundary (64 or 84 bytes) or
inside a read-id length (65). -/
theorem slow5_idx_read_cut_sidecar :
    sidecar_r1.length = 92 ∧
      read_cut 67 = some defs0.SLOW5_ERR_IO ∧ read_cut 70 = some defs0.SLOW5_ERR_IO ∧
      read_cut 80 = some defs0.SLOW5_ERR_IO ∧ read_cut 88 = some defs0.SLOW5_ERR_IO ∧
      read_cut 64 = some defs0.SLOW5_ERR_TRUNC ∧ read_cut 65 = some defs0.SLOW5_ERR_TRUNC ∧
      read_cut 84 = some defs0.SLOW5_ERR_TRUNC ∧ read_cut 92 = some 0 ∧
      defs0.SLOW5_ERR_IO ≠ defs0.SLOW5_ERR_TRUNC := by
  refine ⟨by decide, by decide, by decide, by decide, by decide, by decide, by decide,
    by decide, by decide, by decide⟩

/-- C14, evaluated on the code. Whenever `slow5_idx_build` returns a value
other than -1, a failure value included, `slow5_idx_to` goes on to write the
sidecar from the index built so far and returns 0 when the writing succeeds;
on the sample file, with an end-of-file check that fails at the second
record, the build returns -5 and `slow5_idx_to` returns 0 and writes a
sidecar. -/
theorem slow5_idx_to_after_failed_build (K : slow5_defs) (s5p : slow5_file) (r : Int)
    (index : slow5_idx) (fp : FILE)
    (hb : slow5_idx_build K slow5_idx_init_empty s5p = some (r, index, fp)) (hr : r ≠ -1) :
    slow5_idx_to K s5p =
        some (if (slow5_idx_write K index).1 ≠ 0 then -1 else 0,
          some (slow5_idx_write K index).2) ∧
    (slow5_idx_build defs_eof_fails slow5_idx_init_empty bin_file).map (fun r => r.1) =
      some (-5) ∧
    (slow5_idx_to defs_eof_fails bin_file).map (fun r => r.1) = some 0 ∧
    (slow5_idx_to defs_eof_fails bin_file).map (fun r => r.2.isSome) = some true := by
  refine ⟨?_, by decide, by decide, by decide⟩
  simp only [slow5_idx_to, hb, hr, if_false]
  by_cases hw : (slow5_idx_write K index).1 = 0 <;> simp [hw]

/-- Witness of the evaluation for C14: the failed build of the sample file. -/
theorem slow5_idx_to_after_failed_build_witness :
    (slow5_idx_build defs_eof_fails slow5_idx_init_empty bin_file =
        some (-5, (slow5_idx_insert slow5_idx_init_empty [97] 2 12).2, ⟨bin_data, 14, false⟩) ∧
      (-5 : Int) ≠ -1) ∧
    (slow5_idx_to defs_eof_fails bin_file =
        some (if (slow5_idx_write defs_eof_fails
            (slow5_idx_insert slow5_idx_init_empty [97] 2 12).2).1 ≠ 0 then -1 else 0,
          some (slow5_idx_write defs_eof_fails
            (slow5_idx_insert slow5_idx_init_empty [97] 2 12).2).2) ∧
    (slow5_idx_build defs_eof_fails slow5_idx_init_empty bin_file).map (fun r => r.1) =
      some (-5) ∧
    (slow5_idx_to defs_eof_fails bin_file).map (fun r => r.1) = some 0 ∧
    (slow5_idx_to defs_eof_fails bin_file).map (fun r => r.2.isSome) = some true) :=
  ⟨⟨by decide, by decide⟩,
    slow5_idx_to_after_failed_build defs_eof_fails bin_file (-5)
      (slow5_idx_insert slow5_idx_init_empty [97] 2 12).2 ⟨bin_data, 14, false⟩
      (by decide) (by decide)⟩

/-! ## Determinism of the sidecar -/

theorem lookup_eq_iff (i1 i2 : slow5_idx) (id : List Nat) (h : i1.lookup id = i2.lookup id) :
    (kh_get i1.hash id = kh_end i1.hash ↔ kh_get i2.hash id = kh_end i2.hash) ∧
      (kh_get i1.hash id ≠ kh_end i1.hash →
        kh_value i1.hash (kh_get i1.hash id) = kh_value i2.hash (kh_get i2.hash id)) := by
  simp only [slow5_idx.lookup, slow5_idx_get, Prod.mk.injEq] at h
  by_cases h1 : kh_get i1.hash id = kh_end i1.hash <;>
    by_cases h2 : kh_get i2.hash id = kh_end i2.hash <;>
    simp [h1, h2] at h ⊢
  exact h

theorem getD_take {α : Type} (l : List α) (n k : Nat) (d : α) (h : k < n) :
    (l.take n).getD k d = l.getD k d := by
  simp [List.getD, List.getElem?_take, h]

theorem slow5_idx_write_loop_congr (K : slow5_defs) (i1 i2 : slow5_idx) :
    ∀ (n i : Nat) (out : List Nat),
      (∀ k, i ≤ k → k < i + n → i1.ids.getD k [] = i2.ids.getD k [] ∧
        i1.lookup (i1.ids.getD k []) = i2.lookup (i1.ids.getD k [])) →
      slow5_idx_write_loop K i1 n i out = slow5_idx_write_loop K i2 n i out := by
  intro n
  induction n with
  | zero => intro i out _; rfl
  | succ n ih =>
    intro i out h
    obtain ⟨hid, hl⟩ := h i le_rfl (by omega)
    obtain ⟨g1, g2⟩ := lookup_eq_iff i1 i2 _ hl
    have hrec := fun out2 => ih (i + 1) out2 (fun k hk1 hk2 => h k (by omega) (by omega))
    simp only [slow5_idx_write_loop, ← hid]
    by_cases hk : kh_get i1.hash (i1.ids.getD i []) = kh_end i1.hash
    · simp only [hk, g1.mp hk, if_true]
    · have hk2 : ¬ kh_get i2.hash (i1.ids.getD i []) = kh_end i2.hash := fun hh => hk (g1.mpr hh)
      simp only [hk, hk2, if_false, g2 hk]
      exact hrec _

theorem slow5_idx_build_binary_curr (K : slow5_defs) (compress : List Nat → Option (List Nat))
    (c1 c2 : Nat) (h1 : c1 < 2 ^ 63) (h2 : c2 < 2 ^ 63) :
    ∀ (fuel : Nat) (index : slow5_idx) (fp : FILE),
      (slow5_idx_build_binary K compress c1 fuel index fp).map (fun r => (r.1, r.2.1)) =
        (slow5_idx_build_binary K compress c2 fuel index fp).map (fun r => (r.1, r.2.1)) := by
  intro fuel
  induction fuel with
  | zero => intro index fp; rfl
  | succ f ih =>
    intro index fp
    simp only [slow5_idx_build_binary]
    split_ifs
    · rfl
    · rfl
    · cases hc : compress (fread (fread (K.slow5_is_eof fp K.SLOW5_BINARY_EOF).2.2 8 1).2.2
          (le_val (fread (K.slow5_is_eof fp K.SLOW5_BINARY_EOF).2.2 8 1).1 % 2 ^ 64) 1).1 with
      | none => rfl
      | some d =>
        simp only
        split_ifs
        · rfl
        · exact ih _ _
    · rfl
    · simp [slow5_idx_build_end_ok _ _ _ h1, slow5_idx_build_end_ok _ _ _ h2]

theorem slow5_idx_build_ascii_curr (c1 c2 : Nat) (h1 : c1 < 2 ^ 63) (h2 : c2 < 2 ^ 63) :
    ∀ (fuel : Nat) (index : slow5_idx) (fp : FILE) (offset : Nat),
      (slow5_idx_build_ascii c1 fuel index fp offset).map (fun r => (r.1, r.2.1)) =
        (slow5_idx_build_ascii c2 fuel index fp offset).map (fun r => (r.1, r.2.1)) := by
  intro fuel
  induction fuel with
  | zero => intro index fp offset; rfl
  | succ f ih =>
    intro index fp offset
    simp only [slow5_idx_build_ascii]
    split_ifs
    · rfl
    · exact ih _ _ _
    · simp [slow5_idx_build_end_ok _ _ _ h1, slow5_idx_build_end_ok _ _ _ h2]

theorem slow5_idx_build_pos (K : slow5_defs) (data : List Nat) (p1 p2 : Nat) (e1 e2 : Bool)
    (fmt : slow5_fmt) (compress : List Nat → Option (List Nat)) (start : Nat)
    (h1 : p1 < 2 ^ 63) (h2 : p2 < 2 ^ 63) :
    (slow5_idx_build K slow5_idx_init_empty ⟨⟨data, p1, e1⟩, fmt, compress, start⟩).map
        (fun r => (r.1, r.2.1)) =
      (slow5_idx_build K slow5_idx_init_empty ⟨⟨data, p2, e2⟩, fmt, compress, start⟩).map
        (fun r => (r.1, r.2.1)) := by
  have m1 : p1 % 2 ^ 64 < 2 ^ 63 := by rw [Nat.mod_eq_of_lt (by omega)]; exact h1
  have m2 : p2 % 2 ^ 64 < 2 ^ 63 := by rw [Nat.mod_eq_of_lt (by omega)]; exact h2
  have hseek : ∀ (p : Nat) (e : Bool),
      fseeko ⟨data, p, e⟩ (to_off_t start) (if SEEK_SET ≠ 0 then 1 else 0) =
        (if to_off_t start < 0 then (-1, ⟨data, p, e⟩)
          else (0, ⟨data, (to_off_t start).toNat, false⟩)) := by
    intro p e
    simp [fseeko, SEEK_SET]
  simp only [slow5_idx_build, ftello, hseek]
  by_cases hneg : to_off_t start < 0
  · simp [hneg]
  · simp only [hneg, if_false, ne_eq, not_true_eq_false]
    cases fmt with
    | SLOW5_FORMAT_UNKNOWN =>
      simp only [Option.map_some', slow5_idx_build_end_ok _ _ _ m1,
        slow5_idx_build_end_ok _ _ _ m2]
    | SLOW5_FORMAT_ASCII => exact slow5_idx_build_ascii_curr _ _ m1 m2 _ _ _ _
    | SLOW5_FORMAT_BINARY => exact slow5_idx_build_binary_curr K compress _ _ m1 m2 _ _ _

theorem slow5_idx_to_pos (K : slow5_defs) (data : List Nat) (p1 p2 : Nat) (e1 e2 : Bool)
    (fmt : slow5_fmt) (compress : List Nat → Option (List Nat)) (start : Nat)
    (h1 : p1 < 2 ^ 63) (h2 : p2 < 2 ^ 63) :
    slow5_idx_to K ⟨⟨data, p1, e1⟩, fmt, compress, start⟩ =
      slow5_idx_to K ⟨⟨data, p2, e2⟩, fmt, compress, start⟩ := by
  have h := slow5_idx_build_pos K data p1 p2 e1 e2 fmt compress start h1 h2
  simp only [slow5_idx_to]
  generalize slow5_idx_build K slow5_idx_init_empty ⟨⟨data, p1, e1⟩, fmt, compress, start⟩ = r1
    at h
  generalize slow5_idx_build K slow5_idx_init_empty ⟨⟨data, p2, e2⟩, fmt, compress, start⟩ = r2
    at h
  cases r1 with
  | none => cases r2 with
    | none => rfl
    | some b => simp at h
  | some a =>
    cases r2 with
    | none => simp at h
    | some b =>
      obtain ⟨ra, ia, fa⟩ := a
      obtain ⟨rb, ib, fb⟩ := b
      simp only [Option.map_some', Option.some.injEq, Prod.mk.injEq] at h
      obtain ⟨hr, hi⟩ := h
      subst hr hi
      rfl

/-! ## Claims on the determinism of the sidecar -/

/-- C15. The bytes `slow5_idx_write` emits depend on the ordered ids in use
and on the entry of each of them only: two indexes with the same ids in use,
in the same order, and for each of these ids the same result and entry of the
lookup are written to the same bytes with the same result, whatever their
capacities, the slots not in use, the layout of their maps and their
versions.  Hence two builds over the same file, wherever the two streams
stand at entry, give through `slow5_idx_to` the same result and the same
sidecar bytes. -/
theorem slow5_idx_write_deterministic (K : slow5_defs) (i1 i2 : slow5_idx)
    (hv1 : i1.num_ids ≤ i1.ids.length) (hv2 : i2.num_ids ≤ i2.ids.length)
    (hids : i1.ids_list = i2.ids_list)
    (hent : ∀ id ∈ i1.ids_list, i1.lookup id = i2.lookup id) :
    slow5_idx_write K i1 = slow5_idx_write K i2 ∧
      ∀ (data : List Nat) (p1 p2 : Nat) (e1 e2 : Bool) (fmt : slow5_fmt)
        (compress : List Nat → Option (List Nat)) (start : Nat),
        p1 < 2 ^ 63 → p2 < 2 ^ 63 →
        slow5_idx_to K ⟨⟨data, p1, e1⟩, fmt, compress, start⟩ =
          slow5_idx_to K ⟨⟨data, p2, e2⟩, fmt, compress, start⟩ := by
  refine ⟨?_, fun data p1 p2 e1 e2 fmt compress start h1 h2 =>
    slow5_idx_to_pos K data p1 p2 e1 e2 fmt compress start h1 h2⟩
  have hn : i1.num_ids = i2.num_ids := by
    have := congrArg List.length hids
    simp only [slow5_idx.ids_list, List.length_take] at this
    omega
  have hloop : ∀ out, slow5_idx_write_loop K i1 i1.num_ids 0 out =
      slow5_idx_write_loop K i2 i1.num_ids 0 out := by
    intro out
    apply slow5_idx_write_loop_congr
    intro k _ hk
    have hk1 : k < i1.num_ids := by omega
    have e1 : i1.ids.getD k [] = i1.ids_list.getD k [] := (getD_take _ _ _ _ hk1).symm
    have e2 : i2.ids.getD k [] = i2.ids_list.getD k [] := (getD_take _ _ _ _ (hn ▸ hk1)).symm
    have e12 : i1.ids.getD k [] = i2.ids.getD k [] := by rw [e1, e2, hids]
    refine ⟨e12, hent _ ?_⟩
    rw [e1]
    have hlt : k < i1.ids_list.length := by
      simp only [slow5_idx.ids_list, List.length_take]; omega
    rw [List.getD_eq_getElem _ _ hlt]
    exact List.getElem_mem hlt
  simp only [slow5_idx_write, ← hn, hloop]

/-- Witness of C15: the sample index holding "r1" and "r2" and the index with
the same ids and entries laid out otherwise. -/
theorem slow5_idx_write_deterministic_witness :
    (idx_r12.num_ids ≤ idx_r12.ids.length ∧ idx_r12_other.num_ids ≤ idx_r12_other.ids.length ∧
      idx_r12.ids_list = idx_r12_other.ids_list ∧
      (∀ id ∈ idx_r12.ids_list, idx_r12.lookup id = idx_r12_other.lookup id) ∧
      idx_r12 ≠ idx_r12_other) ∧
    (slow5_idx_write defs0 idx_r12 = slow5_idx_write defs0 idx_r12_other ∧
      ∀ (data : List Nat) (p1 p2 : Nat) (e1 e2 : Bool) (fmt : slow5_fmt)
        (compress : List Nat → Option (List Nat)) (start : Nat),
        p1 < 2 ^ 63 → p2 < 2 ^ 63 →
        slow5_idx_to defs0 ⟨⟨data, p1, e1⟩, fmt, compress, start⟩ =
          slow5_idx_to defs0 ⟨⟨data, p2, e2⟩, fmt, compress, start⟩) :=
  ⟨⟨by decide, by decide, by decide, by decide, by decide⟩,
    slow5_idx_write_deterministic defs0 idx_r12 idx_r12_other (by decide) (by decide)
      (by decide) (by decide)⟩

/-! ## The split tool -/

theorem file_split_count_ok (l : List slow5_rec) :
    ∀ (G fuel : Nat) (c : Int), l.length < fuel →
      file_split_count fuel ⟨G, l⟩ c = some (c + l.length) := by
  induction l with
  | nil =>
    intro G fuel c hf
    obtain ⟨fuel, rfl⟩ : ∃ k, fuel = k + 1 := ⟨fuel - 1, by simp at hf; omega⟩
    simp [file_split_count, slow5_get_next]
  | cons r t ih =>
    intro G fuel c hf
    obtain ⟨fuel, rfl⟩ : ∃ k, fuel = k + 1 := ⟨fuel - 1, by simp at hf; omega⟩
    simp only [List.length_cons] at hf
    simp only [file_split_count, slow5_get_next, if_true]
    rw [ih G fuel (c + 1) (by omega)]
    simp only [List.length_cons, Nat.cast_add, Nat.cast_one]
    congr 1
    omega

theorem filter_group_sum (l : List slow5_rec) :
    ∀ G : Nat, ((List.range G).map
        (fun j => (l.filter (fun r => decide (r.read_group = j))).length)).sum
      = (l.filter (fun r => decide (r.read_group < G))).length := by
  intro G
  induction G with
  | zero => simp
  | succ G ih =>
    rw [List.range_succ, List.map_append, List.sum_append, ih]
    simp only [List.map_cons, List.map_nil, List.sum_cons, List.sum_nil, Nat.add_zero]
    clear ih
    induction l with
    | nil => simp
    | cons r t iht =>
      by_cases h1 : r.read_group < G
      · have h2 : ¬ r.read_group = G := by omega
        have h3 : r.read_group < G + 1 := by omega
        simp [List.filter_cons, h1, h2, h3]
        omega
      · by_cases h2 : r.read_group = G
        · have h3 : r.read_group < G + 1 := by omega
          simp [List.filter_cons, h1, h2, h3]
          simp only [h2] at iht
          omega
        · have h3 : ¬ r.read_group < G + 1 := by omega
          simp [List.filter_cons, h1, h2, h3]
          omega

theorem chunks_length (ks : List Nat) :
    ∀ l : List slow5_rec, (chunks ks l).length = ks.length := by
  induction ks with
  | nil => intro _; rfl
  | cons k t ih => intro l; simp [chunks, ih]

theorem file_split_sizes_length (N n : Nat) (hn : 1 ≤ n) :
    (file_split_sizes N n).length = min n N := by
  have h2 : N % n < n := Nat.mod_lt _ (by omega)
  unfold file_split_sizes
  by_cases h : N / n = 0
  · have hlt : N < n := (Nat.div_eq_zero_iff (by omega)).mp h
    simp only [h, if_true, List.append_nil, List.length_replicate, Nat.mod_eq_of_lt hlt]
    omega
  · have hge : n ≤ N := by
      by_contra hc
      exact h (Nat.div_eq_of_lt (by omega))
    simp only [if_neg h, List.length_append, List.length_replicate]
    omega

/-! ## C24: the byte layout of the sidecar -/

theorem sidecar_entries_length_eq (es : khash) :
    (sidecar_entries es).length = (es.map (fun e => 18 + e.1.length)).sum := by
  induction es with
  | nil => rfl
  | cons e t ih =>
    simp only [sidecar_entries, sidecar_entry, List.length_append, le_bytes_length, ih,
      List.map_cons, List.sum_cons]
    omega

/-- C24. For an index that meets the preconditions of the round trip (ids in
use NUL-free, shorter than 65536 bytes and keys of the map; magic number and
version fitting the header size), `slow5_idx_write` returns 0 and emits
exactly: the magic number, the three version bytes major, minor, patch of
SLOW5_INDEX_VERSION, zero bytes up to the length
SLOW5_INDEX_HEADER_SIZE_OFFSET, then for each id in the order of `ids` its
length as little-endian u16, its bytes without NUL, and offset and size as
little-endian u64, and last the end-of-file marker.  So the entries start at
byte SLOW5_INDEX_HEADER_SIZE_OFFSET, where the seek of `slow5_idx_read` puts
the stream, and the total length is the header size plus the sum of
18 + length of the id over the ids plus the length of the marker. -/
theorem slow5_idx_write_layout (K : slow5_defs) (index : slow5_idx)
    (hhdr : K.SLOW5_INDEX_MAGIC_NUMBER.length + 3 ≤ K.SLOW5_INDEX_HEADER_SIZE_OFFSET ∧
      K.SLOW5_INDEX_HEADER_SIZE_OFFSET < K.SLOW5_INDEX_MAGIC_NUMBER.length + 3 + 256)
    (hv : index.num_ids ≤ index.ids.length)
    (hnul : ∀ id ∈ index.ids_list, 0 ∉ id ∧ id.length < 65536)
    (hkey : ∀ id ∈ index.ids_list, index.is_key id) :
    slow5_idx_write K index =
        (0, K.SLOW5_INDEX_MAGIC_NUMBER ++
          [K.SLOW5_INDEX_VERSION.major, K.SLOW5_INDEX_VERSION.minor,
            K.SLOW5_INDEX_VERSION.patch] ++
          List.replicate
            (K.SLOW5_INDEX_HEADER_SIZE_OFFSET - K.SLOW5_INDEX_MAGIC_NUMBER.length - 3) 0 ++
          sidecar_entries (index.ids_list.map (entry_of index)) ++ K.SLOW5_INDEX_EOF) ∧
      (∀ e : List Nat × slow5_rec_idx, sidecar_entry e =
        le_bytes 2 e.1.length ++ e.1 ++ le_bytes 8 e.2.offset ++ le_bytes 8 e.2.size) ∧
      (slow5_idx_write K index).2.take K.SLOW5_INDEX_HEADER_SIZE_OFFSET =
        K.SLOW5_INDEX_MAGIC_NUMBER ++
          [K.SLOW5_INDEX_VERSION.major, K.SLOW5_INDEX_VERSION.minor,
            K.SLOW5_INDEX_VERSION.patch] ++
          List.replicate
            (K.SLOW5_INDEX_HEADER_SIZE_OFFSET - K.SLOW5_INDEX_MAGIC_NUMBER.length - 3) 0 ∧
      (slow5_idx_write K index).2.drop K.SLOW5_INDEX_HEADER_SIZE_OFFSET =
        sidecar_entries (index.ids_list.map (entry_of index)) ++ K.SLOW5_INDEX_EOF ∧
      (∀ e, (fseeko ⟨(slow5_idx_write K index).2, K.SLOW5_INDEX_MAGIC_NUMBER.length + 3, e⟩
        (K.SLOW5_INDEX_HEADER_SIZE_OFFSET : Int) SEEK_SET).2.pos =
          K.SLOW5_INDEX_HEADER_SIZE_OFFSET) ∧
      (slow5_idx_write K index).2.length =
        K.SLOW5_INDEX_HEADER_SIZE_OFFSET +
          (index.ids_list.map (fun id => 18 + id.length)).sum + K.SLOW5_INDEX_EOF.length := by
  have hpad : (((K.SLOW5_INDEX_HEADER_SIZE_OFFSET : Int) -
      (K.SLOW5_INDEX_MAGIC_NUMBER.length : Int) - 1 - 1 - 1) % 256).toNat =
      K.SLOW5_INDEX_HEADER_SIZE_OFFSET - K.SLOW5_INDEX_MAGIC_NUMBER.length - 3 := by
    omega
  have hlen := sidecar_header_length K hhdr
  have hw := slow5_idx_write_ok K index hv hkey
  rw [entries_bytes_eq index index.ids_list hnul] at hw
  have hh : sidecar_header K = K.SLOW5_INDEX_MAGIC_NUMBER ++
      [K.SLOW5_INDEX_VERSION.major, K.SLOW5_INDEX_VERSION.minor,
        K.SLOW5_INDEX_VERSION.patch] ++
      List.replicate
        (K.SLOW5_INDEX_HEADER_SIZE_OFFSET - K.SLOW5_INDEX_MAGIC_NUMBER.length - 3) 0 := by
    simp only [sidecar_header, hpad]
  rw [hw, ← hh]
  refine ⟨rfl, fun _ => rfl, ?_, ?_, ?_, ?_⟩
  · simp only [List.append_assoc]
    rw [← hlen, List.take_left]
  · simp only [List.append_assoc]
    rw [← hlen, List.drop_left]
  · intro e
    have h0 : ¬ ((K.SLOW5_INDEX_HEADER_SIZE_OFFSET : Int) < 0) := by omega
    simp [fseeko, SEEK_SET, h0]
  · simp only [List.length_append, hlen, sidecar_entries_length_eq, List.map_map]
    rfl

theorem slow5_idx_write_layout_witness :
    ((defs0.SLOW5_INDEX_MAGIC_NUMBER.length + 3 ≤ defs0.SLOW5_INDEX_HEADER_SIZE_OFFSET ∧
        defs0.SLOW5_INDEX_HEADER_SIZE_OFFSET < defs0.SLOW5_INDEX_MAGIC_NUMBER.length + 3 + 256) ∧
      idx_r12.num_ids ≤ idx_r12.ids.length ∧
      (∀ id ∈ idx_r12.ids_list, 0 ∉ id ∧ id.length < 65536) ∧
      (∀ id ∈ idx_r12.ids_list, idx_r12.is_key id)) ∧
    (slow5_idx_write defs0 idx_r12).2.length = 64 + (20 + 20) + 8 ∧
    (slow5_idx_write defs0 idx_r12).2.length =
      defs0.SLOW5_INDEX_HEADER_SIZE_OFFSET +
        (idx_r12.ids_list.map (fun id => 18 + id.length)).sum + defs0.SLOW5_INDEX_EOF.length :=
  ⟨⟨by decide, by decide, by decide, by decide⟩, by decide,
    (slow5_idx_write_layout defs0 idx_r12 (by decide) (by decide) (by decide)
      (by decide)).2.2.2.2.2⟩

/-! ## C25: the seeks of the build -/

theorem slow5_idx_build_binary_restores (K : slow5_defs)
    (compress : List Nat → Option (List Nat)) (curr : Nat) (hc : curr < 2 ^ 63)
    (hE : ∀ fp eof, (K.slow5_is_eof fp eof).1 = -1 → (K.slow5_is_eof fp eof).2.1 ≠ 0) :
    ∀ (fuel : Nat) (index : slow5_idx) (fp : FILE) (index2 : slow5_idx) (fp2 : FILE),
      slow5_idx_build_binary K compress curr fuel index fp = some (0, index2, fp2) →
      fp2.pos = curr := by
  intro fuel
  induction fuel with
  | zero =>
    intro index fp index2 fp2 h
    simp [slow5_idx_build_binary] at h
  | succ f ih =>
    intro index fp index2 fp2
    simp only [slow5_idx_build_binary]
    split_ifs with h1 h2 h3 h4
    · intro h; simp at h
    · intro h; simp at h
    · cases hd : compress (fread (fread (K.slow5_is_eof fp K.SLOW5_BINARY_EOF).2.2 8 1).2.2
          (le_val (fread (K.slow5_is_eof fp K.SLOW5_BINARY_EOF).2.2 8 1).1 % 2 ^ 64) 1).1 with
      | none => intro h; simp at h
      | some d =>
        simp only
        split_ifs
        · intro h; simp at h
        · exact ih _ _ _ _
    · intro h
      simp only [Option.some.injEq, Prod.mk.injEq] at h
      exact absurd h.1 (hE _ _ h4)
    · rw [slow5_idx_build_end_ok _ _ _ hc]
      intro h
      simp only [Option.some.injEq, Prod.mk.injEq] at h
      rw [← h.2.2]

theorem slow5_idx_build_ascii_restores (curr : Nat) (hc : curr < 2 ^ 63) :
    ∀ (fuel : Nat) (index : slow5_idx) (fp : FILE) (offset : Nat) (index2 : slow5_idx)
      (fp2 : FILE),
      slow5_idx_build_ascii curr fuel index fp offset = some (0, index2, fp2) →
      fp2.pos = curr := by
  intro fuel
  induction fuel with
  | zero =>
    intro index fp offset index2 fp2 h
    simp [slow5_idx_build_ascii] at h
  | succ f ih =>
    intro index fp offset index2 fp2
    simp only [slow5_idx_build_ascii]
    split_ifs
    · intro h; simp at h
    · exact ih _ _ _ _ _
    · rw [slow5_idx_build_end_ok _ _ _ hc]
      intro h
      simp only [Option.some.injEq, Prod.mk.injEq] at h
      rw [← h.2.2]

theorem slow5_idx_build_pos_any (K : slow5_defs) (index : slow5_idx) (data : List Nat)
    (p1 p2 : Nat) (e1 e2 : Bool)
    (fmt : slow5_fmt) (compress : List Nat → Option (List Nat)) (start : Nat)
    (h1 : p1 < 2 ^ 63) (h2 : p2 < 2 ^ 63) :
    (slow5_idx_build K index ⟨⟨data, p1, e1⟩, fmt, compress, start⟩).map
        (fun r => (r.1, r.2.1)) =
      (slow5_idx_build K index ⟨⟨data, p2, e2⟩, fmt, compress, start⟩).map
        (fun r => (r.1, r.2.1)) := by
  have m1 : p1 % 2 ^ 64 < 2 ^ 63 := by rw [Nat.mod_eq_of_lt (by omega)]; exact h1
  have m2 : p2 % 2 ^ 64 < 2 ^ 63 := by rw [Nat.mod_eq_of_lt (by omega)]; exact h2
  have hseek : ∀ (p : Nat) (e : Bool),
      fseeko ⟨data, p, e⟩ (to_off_t start) (if SEEK_SET ≠ 0 then 1 else 0) =
        (if to_off_t start < 0 then (-1, ⟨data, p, e⟩)
          else (0, ⟨data, (to_off_t start).toNat, false⟩)) := by
    intro p e
    simp [fseeko, SEEK_SET]
  simp only [slow5_idx_build, ftello, hseek]
  by_cases hneg : to_off_t start < 0
  · simp [hneg]
  · simp only [hneg, if_false, ne_eq, not_true_eq_false]
    cases fmt with
    | SLOW5_FORMAT_UNKNOWN =>
      simp only [Option.map_some', slow5_idx_build_end_ok _ _ _ m1,
        slow5_idx_build_end_ok _ _ _ m2]
    | SLOW5_FORMAT_ASCII => exact slow5_idx_build_ascii_curr _ _ m1 m2 _ _ _ _
    | SLOW5_FORMAT_BINARY => exact slow5_idx_build_binary_curr K compress _ _ m1 m2 _ _ _

/-- C25. In `slow5_idx_build` the whence argument `SEEK_SET != 0` has the
value of SEEK_SET; so the first seek puts the stream at the absolute position
`start_rec_offset`, result and index of the build do not depend on the
position `p` of the stream at entry, and whenever the build returns 0 the
position of the stream is `p` again.  (`p` is an `off_t`, below `2 ^ 63`; an
end-of-file check that fails sets a `slow5_errno` other than 0.) -/
theorem slow5_idx_build_restores_position (K : slow5_defs) (index : slow5_idx)
    (s5p : slow5_file)
    (hE : ∀ fp eof, (K.slow5_is_eof fp eof).1 = -1 → (K.slow5_is_eof fp eof).2.1 ≠ 0)
    (hp : s5p.fp.pos < 2 ^ 63) :
    (if SEEK_SET ≠ 0 then (1 : Int) else 0) = SEEK_SET ∧
      (s5p.start_rec_offset < 2 ^ 63 →
        fseeko s5p.fp (to_off_t s5p.start_rec_offset) (if SEEK_SET ≠ 0 then 1 else 0) =
          (0, ⟨s5p.fp.data, s5p.start_rec_offset, false⟩)) ∧
      (∀ p2 e2, p2 < 2 ^ 63 →
        (slow5_idx_build K index s5p).map (fun r => (r.1, r.2.1)) =
          (slow5_idx_build K index
            ⟨⟨s5p.fp.data, p2, e2⟩, s5p.format, s5p.compress, s5p.start_rec_offset⟩).map
              (fun r => (r.1, r.2.1))) ∧
      ∀ index2 fp2, slow5_idx_build K index s5p = some (0, index2, fp2) →
        fp2.pos = s5p.fp.pos := by
  have hm : s5p.fp.pos % 2 ^ 64 = s5p.fp.pos := Nat.mod_eq_of_lt (by omega)
  refine ⟨by decide, fun hs => fseeko_start _ _ hs, ?_, ?_⟩
  · intro p2 e2 h2
    obtain ⟨⟨data, p, e⟩, fmt, compress, start⟩ := s5p
    exact slow5_idx_build_pos_any K index data p p2 e e2 fmt compress start hp h2
  · intro index2 fp2
    obtain ⟨⟨data, p, e⟩, fmt, compress, start⟩ := s5p
    have hw : (if SEEK_SET ≠ 0 then (1 : Int) else 0) = 0 := by decide
    simp only [slow5_idx_build, ftello, hw] at hm ⊢
    simp only [hm]
    split_ifs
    · intro h; simp at h
    · cases fmt with
      | SLOW5_FORMAT_UNKNOWN =>
        simp only [slow5_idx_build_end_ok _ _ _ hp]
        intro h
        simp only [Option.some.injEq, Prod.mk.injEq] at h
        rw [← h.2.2]
      | SLOW5_FORMAT_ASCII => exact slow5_idx_build_ascii_restores _ hp _ _ _ _ _ _
      | SLOW5_FORMAT_BINARY => exact slow5_idx_build_binary_restores K _ _ hp hE _ _ _ _ _

theorem slow5_idx_build_restores_position_witness :
    ((∀ fp eof, (defs0.slow5_is_eof fp eof).1 = -1 → (defs0.slow5_is_eof fp eof).2.1 ≠ 0) ∧
      (bin_file_at 9).fp.pos < 2 ^ 63) ∧
    slow5_idx_build defs0 slow5_idx_init_empty (bin_file_at 9) =
      some (0, bin_index, ⟨bin_data, 9, false⟩) ∧
    ((if SEEK_SET ≠ 0 then (1 : Int) else 0) = SEEK_SET ∧
      ((bin_file_at 9).start_rec_offset < 2 ^ 63 →
        fseeko (bin_file_at 9).fp (to_off_t (bin_file_at 9).start_rec_offset)
            (if SEEK_SET ≠ 0 then 1 else 0) =
          (0, ⟨(bin_file_at 9).fp.data, (bin_file_at 9).start_rec_offset, false⟩)) ∧
      (∀ p2 e2, p2 < 2 ^ 63 →
        (slow5_idx_build defs0 slow5_idx_init_empty (bin_file_at 9)).map
            (fun r => (r.1, r.2.1)) =
          (slow5_idx_build defs0 slow5_idx_init_empty
            ⟨⟨(bin_file_at 9).fp.data, p2, e2⟩, (bin_file_at 9).format,
              (bin_file_at 9).compress, (bin_file_at 9).start_rec_offset⟩).map
              (fun r => (r.1, r.2.1))) ∧
      ∀ index2 fp2,
        slow5_idx_build defs0 slow5_idx_init_empty (bin_file_at 9) = some (0, index2, fp2) →
        fp2.pos = (bin_file_at 9).fp.pos) :=
  have hE : ∀ fp eof, (defs0.slow5_is_eof fp eof).1 = -1 →
      (defs0.slow5_is_eof fp eof).2.1 ≠ 0 := by
    intro fp eof h
    simp only [defs0, slow5_is_eof] at h
    split_ifs at h
  ⟨⟨hE, by decide⟩, by decide,
    slow5_idx_build_restores_position defs0 slow5_idx_init_empty (bin_file_at 9) hE
      (by decide)⟩

/-! ## C26: what the scan of a binary file reads of a record -/

theorem slow5_idx_build_end_res (index : slow5_idx) (fp : FILE) (curr : Nat) :
    ((slow5_idx_build_end index fp curr).1, (slow5_idx_build_end index fp curr).2.1) =
      ((if to_off_t curr < 0 then -1 else 0), index) := by
  simp only [slow5_idx_build_end, fseeko]
  by_cases h : to_off_t curr < 0 <;> simp [SEEK_SET, h]

theorem slow5_idx_build_binary_step (K : slow5_defs) (hK : K.slow5_is_eof = slow5_is_eof)
    (compress : List Nat → Option (List Nat)) (curr : Nat) (data p rest : List Nat)
    (f pos : Nat) (index : slow5_idx)
    (hdrop : data.drop pos = record_bytes p ++ rest)
    (hne : data.drop pos ≠ K.SLOW5_BINARY_EOF) (hlen : pos + 8 + p.length < 2 ^ 64) :
    slow5_idx_build_binary K compress curr (f + 1) index ⟨data, pos, false⟩ =
      if p = [] then some (-1, index, ⟨data, pos + 8, false⟩)
      else
        match compress p with
        | none => some (-1, index, ⟨data, pos + 8 + p.length, false⟩)
        | some d =>
          match slow5_idx_insert index (decomp_read_id d) pos (8 + p.length) with
          | (r, index2) =>
            if r = -1 then some (-1, index2, ⟨data, pos + 8 + p.length, false⟩)
            else slow5_idx_build_binary K compress curr f index2
              ⟨data, pos + 8 + p.length, false⟩ := by
  have d1 : data.drop pos = le_bytes 8 p.length ++ (p ++ rest) := by
    rw [hdrop]; simp [record_bytes, List.append_assoc]
  have r1 := fread_of_drop data pos false 8 1 _ _ d1 (by simp [le_bytes_length])
  have d2 := drop_add_of_drop data pos _ _ d1
  have r2 := fread_of_drop data _ false p.length 1 _ _ d2 (by simp)
  simp only [le_bytes_length, Nat.reduceDiv] at r1 r2 d2
  have v1 : le_val (le_bytes 8 p.length) % 2 ^ 64 = p.length := by
    rw [le_val_le_bytes 8 _ (by norm_num; omega)]; exact Nat.mod_eq_of_lt (by omega)
  have hsz : (8 + p.length) % 2 ^ 64 = 8 + p.length := Nat.mod_eq_of_lt (by omega)
  have hoff : pos % 2 ^ 64 = pos := Nat.mod_eq_of_lt (by omega)
  by_cases hp : p = []
  · subst hp
    simp only [List.length_nil, Nat.div_zero, Nat.add_zero] at r1 r2 v1
    simp only [slow5_idx_build_binary, hK, slow5_is_eof, hne, if_false, if_true, ftello, r1,
      ne_eq, v1, r2]
    simp
  · have hplen : 0 < p.length := List.length_pos.mpr hp
    simp only [Nat.div_self hplen] at r2
    simp only [if_neg hp]
    cases hd : compress p with
    | none =>
      simp only [slow5_idx_build_binary, hK, slow5_is_eof, hne, if_false, if_true, ftello, r1,
        ne_eq, not_true_eq_false, v1, r2, hd]
    | some d =>
      simp only [slow5_idx_build_binary, hK, slow5_is_eof, hne, if_false, if_true, ftello, r1,
        ne_eq, not_true_eq_false, v1, r2, hd, hsz, hoff, decomp_read_id]

theorem slow5_idx_build_binary_same (K : slow5_defs) (hK : K.slow5_is_eof = slow5_is_eof)
    (compress : List Nat → Option (List Nat)) (curr : Nat) (data1 data2 : List Nat) :
    ∀ (ps1 ps2 : List (List Nat)),
      List.Forall₂ (fun p1 p2 => p1.length = p2.length ∧
        ∃ d1 d2, compress p1 = some d1 ∧ compress p2 = some d2 ∧
          decomp_read_id d1 = decomp_read_id d2) ps1 ps2 →
      ∀ (fuel pos : Nat) (index : slow5_idx),
        data1.drop pos = concat_bytes (ps1.map record_bytes) ++ K.SLOW5_BINARY_EOF →
        data2.drop pos = concat_bytes (ps2.map record_bytes) ++ K.SLOW5_BINARY_EOF →
        pos + (concat_bytes (ps1.map record_bytes)).length < 2 ^ 64 →
        (slow5_idx_build_binary K compress curr fuel index ⟨data1, pos, false⟩).map
            (fun r => (r.1, r.2.1)) =
          (slow5_idx_build_binary K compress curr fuel index ⟨data2, pos, false⟩).map
            (fun r => (r.1, r.2.1)) := by
  intro ps1 ps2 hrel
  induction hrel with
  | nil =>
    intro fuel pos index h1 h2 _
    cases fuel with
    | zero => rfl
    | succ f =>
      simp only [List.map_nil, concat_bytes, List.nil_append] at h1 h2
      simp only [slow5_idx_build_binary, hK, slow5_is_eof, h1, h2, if_true]
      simp [slow5_idx_build_end_res]
  | @cons p1 p2 t1 t2 hp _ ih =>
    intro fuel pos index h1 h2 hlen
    obtain ⟨hl, d1, d2, hc1, hc2, hid⟩ := hp
    cases fuel with
    | zero => rfl
    | succ f =>
      simp only [List.map_cons, concat_bytes, List.append_assoc] at h1 h2
      simp only [List.map_cons, concat_bytes, List.length_append, record_bytes,
        le_bytes_length] at hlen
      have hne1 : data1.drop pos ≠ K.SLOW5_BINARY_EOF := by
        intro heq
        have := congrArg List.length (h1.symm.trans heq)
        simp [record_bytes, le_bytes_length] at this
        omega
      have hne2 : data2.drop pos ≠ K.SLOW5_BINARY_EOF := by
        intro heq
        have := congrArg List.length (h2.symm.trans heq)
        simp [record_bytes, le_bytes_length] at this
        omega
      rw [slow5_idx_build_binary_step K hK compress curr data1 p1 _ f pos index h1 hne1
          (by omega),
        slow5_idx_build_binary_step K hK compress curr data2 p2 _ f pos index h2 hne2
          (by omega)]
      have e1 : (p1 = []) ↔ (p2 = []) := by
        rw [← List.length_eq_zero, ← List.length_eq_zero, hl]
      by_cases hp1 : p1 = []
      · simp [hp1, e1.mp hp1]
      · have hp2 : ¬ p2 = [] := fun h => hp1 (e1.mpr h)
        simp only [if_neg hp1, if_neg hp2, hc1, hc2, hid, hl]
        have t1d : data1.drop (pos + 8 + p2.length)
            = concat_bytes (t1.map record_bytes) ++ K.SLOW5_BINARY_EOF := by
          have := drop_add_of_drop data1 pos _ _ h1
          simpa [record_bytes, le_bytes_length, hl, Nat.add_assoc] using this
        have t2d : data2.drop (pos + 8 + p2.length)
            = concat_bytes (t2.map record_bytes) ++ K.SLOW5_BINARY_EOF := by
          have := drop_add_of_drop data2 pos _ _ h2
          simpa [record_bytes, le_bytes_length, Nat.add_assoc] using this
        generalize slow5_idx_insert index (decomp_read_id d2) pos (8 + p2.length) = res
        obtain ⟨r, index2⟩ := res
        by_cases hr : r = -1
        · simp [hr]
        · simp only [if_neg hr]
          exact ih f _ index2 t1d t2d (by omega)

theorem records_length_same (compress : List Nat → Option (List Nat)) :
    ∀ (ps1 ps2 : List (List Nat)),
      List.Forall₂ (fun p1 p2 => p1.length = p2.length ∧ (compress p1).isSome ∧
        (compress p2).isSome ∧ record_read_id compress p1 = record_read_id compress p2)
        ps1 ps2 →
      (concat_bytes (ps1.map record_bytes)).length =
        (concat_bytes (ps2.map record_bytes)).length := by
  intro ps1 ps2 h
  induction h with
  | nil => rfl
  | cons hp _ ih =>
    simp only [List.map_cons, concat_bytes, List.length_append, record_bytes, le_bytes_length,
      ih, hp.1]

/-- C26, counterexample: two binary files of one record each, with the same
size prefix and the same bytes up to the end of the read id, compressed with
a method that checks the record as a whole; the build returns 0 on the first
and -1 on the second, whose record fails to decompress because of a byte
after the read id: the whole record is decompressed, not a prefix of it. -/
theorem slow5_idx_build_reads_whole_record :
    checked_file.fp.data.take 14 = checked_file_other.fp.data.take 14 ∧
      checked_file.fp.data.length = checked_file_other.fp.data.length ∧
      checked_file.fp.data.drop 15 = checked_file_other.fp.data.drop 15 ∧
      (slow5_idx_build defs0 slow5_idx_init_empty checked_file).map (fun r => r.1) = some 0 ∧
      (slow5_idx_build defs0 slow5_idx_init_empty checked_file_other).map (fun r => r.1) =
        some (-1) := by
  decide

/-- C26, amended: `slow5_idx_build` reads each record of a binary file whole,
by its size prefix, and decompresses it whole; of the decompressed record it
uses the read-id length and the read id only.  So for two files of records
closed by the end-of-file marker, whose records have pairwise the same size
prefix, all decompress, and have the same read id, the build gives the same
result and the same index, whatever follows the read id in the records. -/
theorem slow5_idx_build_read_id_only (K : slow5_defs) (hK : K.slow5_is_eof = slow5_is_eof)
    (index : slow5_idx) (hdr : List Nat) (ps1 ps2 : List (List Nat)) (p : Nat) (e : Bool)
    (compress : List Nat → Option (List Nat))
    (hrel : List.Forall₂ (fun p1 p2 => p1.length = p2.length ∧ (compress p1).isSome ∧
      (compress p2).isSome ∧ record_read_id compress p1 = record_read_id compress p2) ps1 ps2)
    (hsize : (hdr ++ concat_bytes (ps1.map record_bytes) ++ K.SLOW5_BINARY_EOF).length
      < 2 ^ 63) :
    (slow5_idx_build K index
        ⟨⟨hdr ++ concat_bytes (ps1.map record_bytes) ++ K.SLOW5_BINARY_EOF, p, e⟩,
          .SLOW5_FORMAT_BINARY, compress, hdr.length⟩).map (fun r => (r.1, r.2.1)) =
      (slow5_idx_build K index
        ⟨⟨hdr ++ concat_bytes (ps2.map record_bytes) ++ K.SLOW5_BINARY_EOF, p, e⟩,
          .SLOW5_FORMAT_BINARY, compress, hdr.length⟩).map (fun r => (r.1, r.2.1)) := by
  have hlen := records_length_same compress ps1 ps2 hrel
  simp only [List.length_append] at hsize
  have hrel2 : List.Forall₂ (fun p1 p2 => p1.length = p2.length ∧
      ∃ d1 d2, compress p1 = some d1 ∧ compress p2 = some d2 ∧
        decomp_read_id d1 = decomp_read_id d2) ps1 ps2 := by
    refine List.Forall₂.imp ?_ hrel
    intro p1 p2 ⟨h1, h2, h3, h4⟩
    obtain ⟨d1, hd1⟩ := Option.isSome_iff_exists.mp h2
    obtain ⟨d2, hd2⟩ := Option.isSome_iff_exists.mp h3
    refine ⟨h1, d1, d2, hd1, hd2, ?_⟩
    simpa [record_read_id, hd1, hd2] using h4
  simp only [slow5_idx_build, ftello, fseeko_start _ hdr.length (by omega), ne_eq,
    not_true_eq_false, if_false, List.length_append, hlen]
  apply slow5_idx_build_binary_same K hK compress _ _ _ ps1 ps2 hrel2
  · simp [List.append_assoc]
  · simp [List.append_assoc]
  · omega

theorem slow5_idx_build_read_id_only_witness :
    (defs0.slow5_is_eof = slow5_is_eof ∧
      List.Forall₂ (fun p1 p2 => p1.length = p2.length ∧ (press_none p1).isSome ∧
        (press_none p2).isSome ∧ record_read_id press_none p1 = record_read_id press_none p2)
        bin_payloads bin_payloads_other ∧
      (text_hdr ++ concat_bytes (bin_payloads.map record_bytes) ++
        defs0.SLOW5_BINARY_EOF).length < 2 ^ 63) ∧
    bin_payloads ≠ bin_payloads_other ∧
    (slow5_idx_build defs0 slow5_idx_init_empty
        ⟨⟨text_hdr ++ concat_bytes (bin_payloads.map record_bytes) ++ defs0.SLOW5_BINARY_EOF,
          0, false⟩, .SLOW5_FORMAT_BINARY, press_none, text_hdr.length⟩).map
          (fun r => (r.1, r.2.1)) =
      (slow5_idx_build defs0 slow5_idx_init_empty
        ⟨⟨text_hdr ++ concat_bytes (bin_payloads_other.map record_bytes) ++
            defs0.SLOW5_BINARY_EOF, 0, false⟩,
          .SLOW5_FORMAT_BINARY, press_none, text_hdr.length⟩).map (fun r => (r.1, r.2.1)) :=
  have hrel : List.Forall₂ (fun p1 p2 => p1.length = p2.length ∧ (press_none p1).isSome ∧
      (press_none p2).isSome ∧ record_read_id press_none p1 = record_read_id press_none p2)
      bin_payloads bin_payloads_other :=
    List.Forall₂.cons (by decide) (List.Forall₂.cons (by decide) List.Forall₂.nil)
  ⟨⟨rfl, hrel, by decide⟩, by decide,
    slow5_idx_build_read_id_only defs0 rfl slow5_idx_init_empty text_hdr bin_payloads
      bin_payloads_other 0 false press_none hrel (by decide)⟩

/-! ## C27: the invariant of the index -/

theorem slow5_idx_insert_all_wf :
    ∀ (calls : List (List Nat × Nat × Nat)) (index : slow5_idx),
      index.wf → (index.hash.map (fun e => cstr e.1)).Nodup →
      index.num_ids + calls.length < 2 ^ 58 →
      (slow5_idx_insert_all index calls).wf ∧
        ((slow5_idx_insert_all index calls).hash.map (fun e => cstr e.1)).Nodup := by
  intro calls
  induction calls with
  | nil => intro index hw hnd _; exact ⟨hw, hnd⟩
  | cons c t ih =>
    intro index hw hnd hlen
    simp only [List.length_cons] at hlen
    simp only [slow5_idx_insert_all]
    by_cases hk : kh_get index.hash c.1 = kh_end index.hash
    · obtain ⟨_, i2, i3, _⟩ := slow5_idx_insert_wf index c.1 c.2.1 c.2.2 hw (by omega) hk
      have hnum : (slow5_idx_insert index c.1 c.2.1 c.2.2).2.num_ids = index.num_ids + 1 := by
        rw [i3.2.1, i2, List.length_append, hw.2.1]
        rfl
      apply ih _ i3
      · rw [i2]
        exact nodup_keys_snoc index.hash (c.1, ⟨c.2.1, c.2.2⟩) hnd hk
      · omega
    · rw [slow5_idx_insert_present index _ _ _ hk]
      exact ih index hw hnd (by omega)

/-- C27. Every index reached from `slow5_idx_init_empty` by a sequence of
calls of `slow5_idx_insert`, succeeding or failing (fewer than `2 ^ 58` of
them), satisfies: its ids in use are pairwise distinct, as C strings too;
they are the keys of the hash map, in the order of the map; `num_ids` is the
number of entries of the map; and `num_ids ≤ cap_ids`.  Hence the loop of
`slow5_idx_write` on it runs to its end without taking the
SLOW5_ERR_NOTFOUND branch, and `slow5_idx_write` returns 0. -/
theorem slow5_idx_insert_all_invariant (calls : List (List Nat × Nat × Nat))
    (hlen : calls.length < 2 ^ 58) :
    (slow5_idx_insert_all slow5_idx_init_empty calls).ids_list.Nodup ∧
      ((slow5_idx_insert_all slow5_idx_init_empty calls).ids_list.map cstr).Nodup ∧
      (slow5_idx_insert_all slow5_idx_init_empty calls).ids_list =
        (slow5_idx_insert_all slow5_idx_init_empty calls).hash.map Prod.fst ∧
      (∀ id, (slow5_idx_insert_all slow5_idx_init_empty calls).is_key id ↔
        cstr id ∈ (slow5_idx_insert_all slow5_idx_init_empty calls).ids_list.map cstr) ∧
      (slow5_idx_insert_all slow5_idx_init_empty calls).num_ids =
        (slow5_idx_insert_all slow5_idx_init_empty calls).hash.length ∧
      (slow5_idx_insert_all slow5_idx_init_empty calls).num_ids ≤
        (slow5_idx_insert_all slow5_idx_init_empty calls).cap_ids ∧
      ∀ K : slow5_defs,
        (∀ out, (slow5_idx_write_loop K (slow5_idx_insert_all slow5_idx_init_empty calls)
          (slow5_idx_insert_all slow5_idx_init_empty calls).num_ids 0 out).1 = none) ∧
        (slow5_idx_write K (slow5_idx_insert_all slow5_idx_init_empty calls)).1 = 0 := by
  obtain ⟨hw, hnd⟩ := slow5_idx_insert_all_wf calls slow5_idx_init_empty wf_init_empty
    (by simp [slow5_idx_init_empty]) (by simpa [slow5_idx_init_empty] using hlen)
  generalize slow5_idx_insert_all slow5_idx_init_empty calls = index at hw hnd
  obtain ⟨w1, w2, w3, w4, _⟩ := hw
  have hmap : index.ids_list.map cstr = index.hash.map (fun e => cstr e.1) := by
    rw [w1, List.map_map]; rfl
  have hkey : ∀ id, index.is_key id ↔ cstr id ∈ index.ids_list.map cstr := by
    intro id
    rw [hmap]
    simp only [slow5_idx.is_key, List.mem_map]
  have hkeys : ∀ id ∈ index.ids_list, index.is_key id := by
    intro id hid
    exact (hkey id).mpr (List.mem_map_of_mem _ hid)
  have hnd2 : (index.ids_list.map cstr).Nodup := by rw [hmap]; exact hnd
  refine ⟨List.Nodup.of_map _ hnd2, hnd2, w1, hkey, w2, w4, ?_⟩
  intro K
  constructor
  · intro out
    rw [slow5_idx_write_loop_ok K index index.num_ids 0 out (by omega) (by
      intro id hid
      exact (kh_get_ne_end_iff index id).mpr
        (hkeys id (by simpa [slow5_idx.ids_list] using hid)))]
  · rw [slow5_idx_write_ok K index (by omega) hkeys]

theorem slow5_idx_insert_all_invariant_witness :
    insert_calls.length < 2 ^ 58 ∧
      (slow5_idx_insert_all slow5_idx_init_empty insert_calls).ids_list =
        [[114, 49], [114, 50]] ∧
      (slow5_idx_insert_all slow5_idx_init_empty insert_calls).ids_list.Nodup ∧
      ((slow5_idx_insert_all slow5_idx_init_empty insert_calls).ids_list.map cstr).Nodup ∧
      (slow5_idx_insert_all slow5_idx_init_empty insert_calls).num_ids =
        (slow5_idx_insert_all slow5_idx_init_empty insert_calls).hash.length :=
  ⟨by decide, by decide,
    (slow5_idx_insert_all_invariant insert_calls (by decide)).1,
    (slow5_idx_insert_all_invariant insert_calls (by decide)).2.1,
    (slow5_idx_insert_all_invariant insert_calls (by decide)).2.2.2.2.1⟩

theorem sum_replicate_nat (a s : Nat) : (List.replicate a s).sum = a * s := by
  induction a with
  | zero => simp
  | succ a ih => simp [List.replicate_succ, ih, Nat.add_mul, Nat.add_comm]

theorem file_split_sizes_sum (N n : Nat) (hn : 1 ≤ n) : (file_split_sizes N n).sum = N := by
  have h1 := Nat.div_add_mod N n
  have h2 : N % n < n := Nat.mod_lt _ (by omega)
  unfold file_split_sizes
  by_cases h : N / n = 0
  · have hm : N % n = N := by
      rw [h] at h1
      simpa using h1
    simp [h, hm, sum_replicate_nat]
  · simp only [if_neg h, List.sum_append, sum_replicate_nat]
    have h3 : (n - N % n) * (N / n) + (N % n) * (N / n) = n * (N / n) := by
      rw [← Nat.add_mul]
      congr 1
      omega
    rw [Nat.mul_add, Nat.mul_one]
    omega

theorem file_split_sizes_get (N n : Nat) (hn : 1 ≤ n) (k : Nat) (hk : k < min n N) :
    (file_split_sizes N n)[k]? = some (if k < N % n then N / n + 1 else N / n) := by
  have h2 : N % n < n := Nat.mod_lt _ (by omega)
  unfold file_split_sizes
  by_cases hlt : k < N % n
  · rw [List.getElem?_append_left (by simpa using hlt)]
    simp [hlt]
  · have hq : ¬ N / n = 0 := by
      intro h0
      have hN : N < n := (Nat.div_eq_zero_iff (by omega)).mp h0
      rw [Nat.mod_eq_of_lt hN] at hlt
      omega
    rw [List.getElem?_append_right (by simpa using Nat.le_of_not_lt hlt)]
    simp only [if_neg hq, if_neg hlt, List.length_replicate]
    rw [List.getElem?_replicate_of_lt (by omega)]

theorem file_split_sizes_mem (N n : Nat) (s : Nat) (hs : s ∈ file_split_sizes N n) :
    N / n ≤ s ∧ s ≤ N / n + 1 ∧ 1 ≤ s := by
  unfold file_split_sizes at hs
  rw [List.mem_append] at hs
  generalize N / n = q at hs ⊢
  rcases hs with h | h
  · have := (List.mem_replicate.mp h).2
    omega
  · by_cases hq : q = 0
    · simp [hq] at h
    · rw [if_neg hq] at h
      have := (List.mem_replicate.mp h).2
      omega

theorem chunks_lengths (ks : List Nat) :
    ∀ l : List slow5_rec, ks.sum ≤ l.length → (chunks ks l).map List.length = ks := by
  induction ks with
  | nil => intro _ _; rfl
  | cons k t ih =>
    intro l h
    simp only [List.sum_cons] at h
    simp only [chunks, List.map_cons, List.length_take, List.cons.injEq]
    refine ⟨by omega, ih _ ?_⟩
    rw [List.length_drop]
    omega

theorem chunks_flatten (ks : List Nat) :
    ∀ l : List slow5_rec, (chunks ks l).flatten = l.take ks.sum := by
  induction ks with
  | nil => intro l; simp [chunks]
  | cons k t ih =>
    intro l
    simp only [chunks, List.flatten_cons, ih, List.sum_cons]
    rw [List.take_add]

theorem range_chunks_flatten (n : Nat) :
    ∀ (q : Nat) (l : List slow5_rec), l.length < (q + 1) * n →
      ((List.range (q + 1)).map (fun i => (l.drop (i * n)).take n)).flatten = l := by
  intro q
  induction q with
  | zero =>
    intro l h
    simp only [Nat.zero_add, Nat.one_mul] at h
    simp [List.range_succ, List.take_of_length_le (Nat.le_of_lt h)]
  | succ q ih =>
    intro l h
    rw [List.range_succ_eq_map (q + 1)]
    simp only [List.map_cons, List.map_map, List.flatten_cons, Nat.zero_mul, List.drop_zero]
    have e : (List.range (q + 1)).map
        ((fun i => (l.drop (i * n)).take n) ∘ Nat.succ) =
        (List.range (q + 1)).map (fun i => ((l.drop n).drop (i * n)).take n) := by
      apply List.map_congr_left
      intro i _
      simp only [Function.comp, List.drop_drop, Nat.succ_eq_add_one]
      have e2 : n + i * n = (i + 1) * n := by rw [Nat.add_mul]; omega
      rw [e2]
    rw [e, ih (l.drop n) (by
      rw [List.length_drop]
      have h2 : (q + 1 + 1) * n = (q + 1) * n + n := by rw [Nat.add_mul (q + 1) 1 n]; omega
      have h3 : n ≤ (q + 1) * n := by rw [Nat.add_mul]; omega
      omega)]
    exact List.take_append_drop n l

/-! ## C30: the ranges of the workers of `split_iop` -/

theorem split_iop_args_eq (F step : Nat) :
    ∀ (k t : Nat),
      split_iop_args (F : Int) (step : Int) k (t : Int) ((t * step : Nat) : Int) =
        (List.range k).map (fun j =>
          (⟨((((t + j) * step : Nat)) : Int), ((min ((t + j + 1) * step) F : Nat) : Int),
            ((t + j : Nat) : Int)⟩ : proc_arg_t)) := by
  intro k
  induction k with
  | zero => intro t; rfl
  | succ k ih =>
    intro t
    have e1 : ((t * step : Nat) : Int) + (step : Int) = (((t + 1) * step : Nat) : Int) := by
      rw [Nat.add_mul]; push_cast; omega
    have e2 : (t : Int) + 1 = ((t + 1 : Nat) : Int) := by push_cast; rfl
    have e3 : (if (((t + 1) * step : Nat) : Int) > (F : Int) then (F : Int)
        else (((t + 1) * step : Nat) : Int)) = ((min ((t + 1) * step) F : Nat) : Int) := by
      by_cases h : (t + 1) * step ≤ F
      · have h2 : ¬ ((((t + 1) * step : Nat) : Int) > (F : Int)) := by omega
        rw [if_neg h2, Nat.min_eq_left h]
      · have h2 : (((t + 1) * step : Nat) : Int) > (F : Int) := by omega
        rw [if_pos h2, Nat.min_eq_right (by omega)]
    simp only [split_iop_args, e1, e2, e3]
    rw [ih (t + 1), List.range_succ_eq_map k]
    simp only [List.map_cons, List.map_map, Nat.add_zero]
    congr 1
    apply List.map_congr_left
    intro j _
    simp only [Function.comp, Nat.succ_eq_add_one]
    have e4 : t + 1 + j = t + (j + 1) := by omega
    rw [e4]

theorem split_iop_proc_args_eq (F iop : Nat) (hiop : 1 ≤ iop) :
    split_iop_proc_args (iop : Int) (F : Int) =
      (List.range iop).map (fun t =>
        (⟨((t * ((F + iop - 1) / iop) : Nat) : Int),
          ((min ((t + 1) * ((F + iop - 1) / iop)) F : Nat) : Int), (t : Int)⟩ : proc_arg_t)) := by
  have e1 : (F : Int) + (iop : Int) - 1 = ((F + iop - 1 : Nat) : Int) := by omega
  have e2 : Int.tdiv ((F + iop - 1 : Nat) : Int) (iop : Int)
      = (((F + iop - 1) / iop : Nat) : Int) := by
    rw [Int.ofNat_tdiv]
  have key := split_iop_args_eq F ((F + iop - 1) / iop) iop 0
  simp only [Nat.zero_mul, Nat.zero_add, Nat.cast_zero] at key
  simp only [split_iop_proc_args, e1, e2, Int.toNat_ofNat]
  exact key

theorem slow5_get_next_n_ok (G : Nat) (recs : List slow5_rec) :
    slow5_get_next_n (recs.length + 1) ⟨G, recs⟩ =
      recs.map (fun r => (0, some r)) ++ [(-2, none)] := by
  induction recs with
  | nil => simp [slow5_get_next_n, slow5_get_next]
  | cons r t ih =>
    simp only [List.length_cons, slow5_get_next_n, slow5_get_next, List.map_cons,
      List.cons_append, List.cons.injEq, true_and]
    exact ih

theorem slow5_get_next_calls_succ (K : slow5_defs)
    (parse : slow5_fmt → List Nat → Option slow5_rec) (k : Nat) (s5p : slow5_file) :
    slow5_get_next_calls K parse (k + 1) s5p =
      ((slow5_get_next_bytes K parse s5p).1, (slow5_get_next_bytes K parse s5p).2.1) ::
        slow5_get_next_calls K parse k (slow5_get_next_bytes K parse s5p).2.2 := rfl

theorem slow5_get_next_calls_text (K : slow5_defs)
    (parse : slow5_fmt → List Nat → Option slow5_rec) (data : List Nat)
    (compress : List Nat → Option (List Nat)) (start : Nat) :
    ∀ (lines : List (List Nat)) (recs : List slow5_rec) (pos : Nat) (e : Bool),
      data.drop pos = concat_bytes lines → lines_ok lines →
      lines.map (parse .SLOW5_FORMAT_ASCII) = recs.map some →
      slow5_get_next_calls K parse (recs.length + 1)
          ⟨⟨data, pos, e⟩, .SLOW5_FORMAT_ASCII, compress, start⟩ =
        recs.map (fun r => (0, some r)) ++ [(-2, none)] := by
  intro lines
  induction lines with
  | nil =>
    intro recs pos e hdrop _ hp
    cases recs with
    | nil =>
      simp only [concat_bytes] at hdrop
      simp [slow5_get_next_calls, slow5_get_next_bytes, getline_of_drop_nil data pos e hdrop]
    | cons r t => simp at hp
  | cons l t ih =>
    intro recs pos e hdrop hok hp
    cases recs with
    | nil => simp at hp
    | cons r rt =>
      simp only [List.map_cons, List.cons.injEq] at hp
      obtain ⟨h1, h2, h3, h4⟩ := hok
      simp only [concat_bytes] at hdrop
      have h3b : l.getLast? = some 10 ∨ concat_bytes t = [] := by
        rcases h3 with h | h
        · exact Or.inl h
        · exact Or.inr (by rw [h]; rfl)
      obtain ⟨e2, hg⟩ := getline_of_drop data pos e l _ hdrop h1 h2 h3b
      have hlen : ¬ ((l.length : Int) = -1) := by omega
      have hstep : slow5_get_next_bytes K parse
          ⟨⟨data, pos, e⟩, .SLOW5_FORMAT_ASCII, compress, start⟩ =
          (0, some r, ⟨⟨data, pos + l.length, e2⟩, .SLOW5_FORMAT_ASCII, compress, start⟩) := by
        simp only [slow5_get_next_bytes, hg, if_neg hlen, hp.1]
      rw [List.length_cons, slow5_get_next_calls_succ, hstep]
      simp only [List.map_cons, List.cons_append, List.cons.injEq, true_and]
      exact ih rt _ e2 (drop_add_of_drop data pos _ _ hdrop) h4 hp.2

theorem slow5_get_next_calls_binary (K : slow5_defs) (hK : K.slow5_is_eof = slow5_is_eof)
    (parse : slow5_fmt → List Nat → Option slow5_rec) (data : List Nat)
    (compress : List Nat → Option (List Nat)) (start : Nat) :
    ∀ (payloads : List (List Nat)) (recs : List slow5_rec) (pos : Nat),
      data.drop pos = concat_bytes (payloads.map record_bytes) ++ K.SLOW5_BINARY_EOF →
      (∀ p ∈ payloads, p ≠ []) →
      payloads.map (fun p => (compress p).bind (parse .SLOW5_FORMAT_BINARY)) = recs.map some →
      pos + (concat_bytes (payloads.map record_bytes)).length < 2 ^ 64 →
      slow5_get_next_calls K parse (recs.length + 1)
          ⟨⟨data, pos, false⟩, .SLOW5_FORMAT_BINARY, compress, start⟩ =
        recs.map (fun r => (0, some r)) ++ [(-2, none)] := by
  intro payloads
  induction payloads with
  | nil =>
    intro recs pos hdrop _ hp _
    cases recs with
    | nil =>
      simp only [List.map_nil, concat_bytes, List.nil_append] at hdrop
      simp [slow5_get_next_calls, slow5_get_next_bytes, hK, slow5_is_eof, hdrop]
    | cons r t => simp at hp
  | cons p t ih =>
    intro recs pos hdrop hne hp hlen
    cases recs with
    | nil => simp at hp
    | cons r rt =>
      simp only [List.map_cons, List.cons.injEq] at hp
      simp only [List.mem_cons, forall_eq_or_imp] at hne
      simp only [List.map_cons, concat_bytes, List.append_assoc] at hdrop
      simp only [List.map_cons, concat_bytes, List.length_append, record_bytes,
        le_bytes_length] at hlen
      have hnot : data.drop pos ≠ K.SLOW5_BINARY_EOF := by
        intro heq
        have := congrArg List.length (hdrop.symm.trans heq)
        simp [record_bytes, le_bytes_length] at this
        omega
      have d1 : data.drop pos = le_bytes 8 p.length ++
          (p ++ (concat_bytes (t.map record_bytes) ++ K.SLOW5_BINARY_EOF)) := by
        rw [hdrop]; simp [record_bytes, List.append_assoc]
      have r1 := fread_of_drop data pos false 8 1 _ _ d1 (by simp [le_bytes_length])
      have d2 := drop_add_of_drop data pos _ _ d1
      have r2 := fread_of_drop data _ false p.length 1 _ _ d2 (by simp)
      have d3 := drop_add_of_drop data _ _ _ d2
      have hplen : 0 < p.length := List.length_pos.mpr hne.1
      simp only [le_bytes_length, Nat.reduceDiv, Nat.div_self hplen] at r1 r2 d2 d3
      have v1 : le_val (le_bytes 8 p.length) % 2 ^ 64 = p.length := by
        rw [le_val_le_bytes 8 _ (by norm_num; omega)]; exact Nat.mod_eq_of_lt (by omega)
      obtain ⟨d, hd, hr⟩ := Option.bind_eq_some.mp hp.1
      have hstep : slow5_get_next_bytes K parse
          ⟨⟨data, pos, false⟩, .SLOW5_FORMAT_BINARY, compress, start⟩ =
          (0, some r,
            ⟨⟨data, pos + 8 + p.length, false⟩, .SLOW5_FORMAT_BINARY, compress, start⟩) := by
        simp only [slow5_get_next_bytes, hK, slow5_is_eof, hnot, if_false, ne_eq,
          not_true_eq_false, r1, v1, r2, hd, hr]
      rw [List.length_cons, slow5_get_next_calls_succ, hstep]
      simp only [List.map_cons, List.cons_append, List.cons.injEq, true_and]
      exact ih rt _ d3 hne.2 hp.2 (by omega)

/-- C22. On a freshly opened handle of a well-formed file with the `N`
records `recs` (a text file of newline-terminated lines, or a binary file of
size-prefixed records closed by the end-of-file marker, whatever the
compression method, each line or decompressed record decoding to its
record), the first `N` calls of `slow5_get_next` return 0 and yield the
records in file order, and the next call returns -2; the handle the split
tool sees gives the same results. -/
theorem slow5_get_next_sequential (K : slow5_defs) (hK : K.slow5_is_eof = slow5_is_eof)
    (parse : slow5_fmt → List Nat → Option slow5_rec) (hdr : List Nat)
    (compress : List Nat → Option (List Nat)) (recs : List slow5_rec) :
    (∀ lines : List (List Nat),
      (∀ l ∈ lines, l.getLast? = some 10 ∧ 10 ∉ l.dropLast) →
      lines.map (parse .SLOW5_FORMAT_ASCII) = recs.map some →
      slow5_get_next_calls K parse (recs.length + 1)
          ⟨⟨hdr ++ concat_bytes lines, hdr.length, false⟩, .SLOW5_FORMAT_ASCII, compress,
            hdr.length⟩ =
        recs.map (fun r => (0, some r)) ++ [(-2, none)]) ∧
    (∀ payloads : List (List Nat),
      (∀ p ∈ payloads, p ≠ []) →
      payloads.map (fun p => (compress p).bind (parse .SLOW5_FORMAT_BINARY)) = recs.map some →
      (hdr ++ concat_bytes (payloads.map record_bytes) ++ K.SLOW5_BINARY_EOF).length < 2 ^ 64 →
      slow5_get_next_calls K parse (recs.length + 1)
          ⟨⟨hdr ++ concat_bytes (payloads.map record_bytes) ++ K.SLOW5_BINARY_EOF, hdr.length,
            false⟩, .SLOW5_FORMAT_BINARY, compress, hdr.length⟩ =
        recs.map (fun r => (0, some r)) ++ [(-2, none)]) ∧
    (∀ G, slow5_get_next_n (recs.length + 1) ⟨G, recs⟩ =
      recs.map (fun r => (0, some r)) ++ [(-2, none)]) := by
  refine ⟨?_, ?_, fun G => slow5_get_next_n_ok G recs⟩
  · intro lines hl hp
    exact slow5_get_next_calls_text K parse _ compress hdr.length lines recs hdr.length false
      (List.drop_left _ _) (lines_ok_of_newlines lines hl) hp
  · intro payloads hne hp hsize
    simp only [List.length_append] at hsize
    exact slow5_get_next_calls_binary K hK parse _ compress hdr.length payloads recs hdr.length
      (by simp [List.append_assoc]) hne hp (by omega)

theorem slow5_get_next_sequential_witness :
    (defs0.slow5_is_eof = slow5_is_eof ∧
      (∀ p ∈ bin_payloads, p ≠ []) ∧
      bin_payloads.map (fun p => (press_none p).bind (parse_sample .SLOW5_FORMAT_BINARY)) =
        bin_recs.map some ∧
      (text_hdr ++ concat_bytes (bin_payloads.map record_bytes) ++
        defs0.SLOW5_BINARY_EOF).length < 2 ^ 64) ∧
    slow5_get_next_calls defs0 parse_sample (text_recs.length + 1)
        ⟨⟨text_hdr ++ concat_bytes text_lines, text_hdr.length, false⟩, .SLOW5_FORMAT_ASCII,
          press_none, text_hdr.length⟩ =
      text_recs.map (fun r => (0, some r)) ++ [(-2, none)] ∧
    slow5_get_next_calls defs0 parse_sample (bin_recs.length + 1)
        ⟨⟨text_hdr ++ concat_bytes (bin_payloads.map record_bytes) ++ defs0.SLOW5_BINARY_EOF,
          text_hdr.length, false⟩, .SLOW5_FORMAT_BINARY, press_none, text_hdr.length⟩ =
      bin_recs.map (fun r => (0, some r)) ++ [(-2, none)] :=
  ⟨⟨rfl, by decide, by decide, by decide⟩, by decide,
    (slow5_get_next_sequential defs0 rfl parse_sample text_hdr press_none bin_recs).2.1
      bin_payloads (by decide) (by decide) (by decide)⟩

/-! ## The split tool: paths of the output files -/

theorem split_out_path_some (output_dir p extension : List Nat) (h : 47 ∈ p) (k : Nat) :
    split_out_path output_dir p k extension = some (out_path output_dir p extension k) := by
  have hle : ¬ (find_last_of p 47 > p.length) := by
    simp only [find_last_of, h, if_true]
    omega
  simp only [split_out_path, substr, if_neg hle, out_path, split_stem]

theorem split_out_path_none (output_dir p extension : List Nat) (h : 47 ∉ p)
    (hl : p.length < 2 ^ 64 - 1) (k : Nat) :
    split_out_path output_dir p k extension = none := by
  have hgt : find_last_of p 47 > p.length := by
    simp only [find_last_of, h, if_false, npos]
    exact hl
  simp only [split_out_path, substr, if_pos hgt]

theorem number_files_length (P : Nat → List Nat) (ws : List (List slow5_rec)) :
    ∀ file_count : Nat, (number_files P file_count ws).length = ws.length := by
  induction ws with
  | nil => intro _; rfl
  | cons w t ih => intro fc; simp [number_files, ih]

theorem number_files_records (P : Nat → List Nat) (ws : List (List slow5_rec)) :
    ∀ file_count : Nat, (number_files P file_count ws).map (fun o => o.records) = ws := by
  induction ws with
  | nil => intro _; rfl
  | cons w t ih => intro fc; simp [number_files, ih]

theorem number_files_get (P : Nat → List Nat) (ws : List (List slow5_rec)) :
    ∀ (file_count k : Nat),
      (number_files P file_count ws)[k]? = ws[k]?.map (fun w => ⟨P (file_count + k), w⟩) := by
  induction ws with
  | nil => intro _ _; simp [number_files]
  | cons w t ih =>
    intro fc k
    cases k with
    | zero => simp [number_files]
    | succ k =>
      simp only [number_files, List.getElem?_cons_succ, ih]
      have : fc + 1 + k = fc + (k + 1) := by omega
      rw [this]

/-! ## The split tool: the loops when the output files can be written -/

theorem reads_split_records_ok (E : split_env) (sp : List Nat) (n : Nat)
    (hw : ∀ r, E.slow5_rec_fwrite sp r ≠ -1) (l : List slow5_rec) :
    ∀ (G c fuel : Nat) (written : List slow5_rec), c < n → l.length < fuel →
      reads_split_records E sp n fuel ⟨G, l⟩ c written
        = if n - c ≤ l.length then
            some (.normal, 0, written ++ l.take (n - c), ⟨G, l.drop (n - c)⟩)
          else some (.normal, -2, written ++ l, ⟨G, []⟩) := by
  induction l with
  | nil =>
    intro G c fuel written hc hf
    obtain ⟨fuel, rfl⟩ : ∃ k, fuel = k + 1 := ⟨fuel - 1, by simp at hf; omega⟩
    have h : ¬ n - c ≤ 0 := by omega
    simp [reads_split_records, slow5_get_next, h]
  | cons r t ih =>
    intro G c fuel written hc hf
    obtain ⟨fuel, rfl⟩ : ∃ k, fuel = k + 1 := ⟨fuel - 1, by simp at hf; omega⟩
    simp only [List.length_cons] at hf
    simp only [reads_split_records, slow5_get_next, if_true, Option.toList, Option.any_some,
      hw r, decide_False, Bool.false_eq_true, if_false]
    by_cases h1 : c + 1 = n
    · have h2 : n - c = 1 := by omega
      simp [h1, h2]
    · have h3 : n - c = (n - (c + 1)) + 1 := by omega
      rw [if_neg h1, ih G (c + 1) fuel _ (by omega) (by omega), h3]
      simp [List.append_assoc]

theorem reads_split_files_ok (E : split_env) (hE : E.writes)
    (output_dir p extension : List Nat) (P : Nat → List Nat)
    (hP : ∀ k, split_out_path output_dir p k extension = some (P k)) (n : Nat) (hn : 1 ≤ n) :
    ∀ (q : Nat) (l : List slow5_rec) (G fuel file_count : Nat) (outs : List out_file),
      l.length / n = q → q < fuel →
      reads_split_files E output_dir p extension n fuel ⟨G, l⟩ file_count outs
        = some (.normal, outs ++ (List.range (q + 1)).map
            (fun i => (⟨P (file_count + i), (l.drop (i * n)).take n⟩ : out_file))) := by
  intro q
  induction q with
  | zero =>
    intro l G fuel file_count outs hq hf
    obtain ⟨fuel, rfl⟩ : ∃ k, fuel = k + 1 := ⟨fuel - 1, by omega⟩
    have hlt : l.length < n := (Nat.div_eq_zero_iff (by omega)).mp hq
    have h : ¬ n - 0 ≤ l.length := by omega
    obtain ⟨e1, e2, e3, e4⟩ := hE (P file_count)
    have e2b : ¬ E.slow5_hdr_add_rg_data (P file_count) < 0 := by omega
    simp only [reads_split_files, hP, e1, Bool.true_eq_false, if_false, if_neg e2b, if_neg e3,
      reads_split_records_ok E (P file_count) n e4 l G 0 _ [] (by omega) (Nat.lt_succ_self _),
      if_neg h]
    simp [List.range_succ, List.take_of_length_le (Nat.le_of_lt hlt)]
  | succ q ih =>
    intro l G fuel file_count outs hq hf
    obtain ⟨fuel, rfl⟩ : ∃ k, fuel = k + 1 := ⟨fuel - 1, by omega⟩
    have hge : n ≤ l.length := by
      by_contra hc
      rw [Nat.div_eq_of_lt (by omega)] at hq
      omega
    have h : n - 0 ≤ l.length := by omega
    have hq2 : (l.drop n).length / n = q := by
      rw [List.length_drop]
      have := Nat.sub_mul_div l.length n 1 (by omega)
      simp only [Nat.mul_one] at this
      omega
    obtain ⟨e1, e2, e3, e4⟩ := hE (P file_count)
    have e2b : ¬ E.slow5_hdr_add_rg_data (P file_count) < 0 := by omega
    simp only [reads_split_files, hP, e1, Bool.true_eq_false, if_false, if_neg e2b, if_neg e3,
      reads_split_records_ok E (P file_count) n e4 l G 0 _ [] (by omega) (Nat.lt_succ_self _),
      if_pos h]
    simp only [ne_eq, not_true_eq_false, if_false, Nat.sub_zero, List.nil_append]
    rw [ih (l.drop n) G fuel (file_count + 1) _ hq2 (by omega)]
    rw [List.range_succ_eq_map (q + 1)]
    simp only [List.map_cons, List.map_map, List.append_assoc, List.singleton_append,
      Nat.zero_mul, List.drop_zero, Nat.add_zero]
    congr 4
    apply List.map_congr_left
    intro i _
    simp only [Function.comp, List.drop_drop, Nat.succ_eq_add_one]
    have e5 : file_count + 1 + i = file_count + (i + 1) := by omega
    have e6 : n + i * n = (i + 1) * n := by rw [Nat.add_mul]; omega
    rw [e5, e6]

theorem file_split_records_ok (E : split_env) (sp : List Nat)
    (hw : ∀ r, E.slow5_rec_fwrite sp r ≠ -1) (k : Nat) :
    ∀ (l : List slow5_rec) (G fuel : Nat) (written : List slow5_rec), l.length < fuel →
      file_split_records E sp fuel ⟨G, l⟩ (k : Int) written
        = some (.normal, written ++ l.take k, ⟨G, l.drop k⟩) := by
  induction k with
  | zero =>
    intro l G fuel written hf
    obtain ⟨fuel, rfl⟩ : ∃ k, fuel = k + 1 := ⟨fuel - 1, by omega⟩
    simp [file_split_records]
  | succ k ih =>
    intro l G fuel written hf
    obtain ⟨fuel, rfl⟩ : ∃ k, fuel = k + 1 := ⟨fuel - 1, by omega⟩
    have hpos : ((k + 1 : Nat) : Int) > 0 := by omega
    cases l with
    | nil => simp [file_split_records, slow5_get_next, hpos]
    | cons r t =>
      simp only [List.length_cons] at hf
      simp only [file_split_records, slow5_get_next, if_pos hpos, if_true, Option.toList,
        Option.any_some, hw r, decide_False, Bool.false_eq_true, if_false]
      have e : ((k + 1 : Nat) : Int) - 1 = (k : Int) := by omega
      rw [e, ih t G fuel _ (by omega)]
      simp [List.append_assoc]

theorem file_split_files_even (E : split_env) (hE : E.writes)
    (output_dir p extension : List Nat) (P : Nat → List Nat)
    (hP : ∀ k, split_out_path output_dir p k extension = some (P k))
    (lim : Nat) (hlim : 0 < lim) :
    ∀ (b : Nat) (l : List slow5_rec) (G fuel : Nat) (rem : Int) (file_count : Nat)
      (outs : List out_file), rem ≤ 0 → b < fuel →
      file_split_files E output_dir p extension (lim : Int) fuel ⟨G, l⟩
          ((b * lim : Nat) : Int) rem file_count outs
        = some (.normal,
            outs ++ number_files P file_count (chunks (List.replicate b lim) l)) := by
  intro b
  induction b with
  | zero =>
    intro l G fuel rem file_count outs hr hf
    obtain ⟨fuel, rfl⟩ : ∃ k, fuel = k + 1 := ⟨fuel - 1, by omega⟩
    simp [file_split_files, chunks, number_files]
  | succ b ih =>
    intro l G fuel rem file_count outs hr hf
    obtain ⟨fuel, rfl⟩ : ∃ k, fuel = k + 1 := ⟨fuel - 1, by omega⟩
    have hpos : (((b + 1) * lim : Nat) : Int) > 0 := by
      have : 0 < (b + 1) * lim := Nat.mul_pos (by omega) hlim
      omega
    have hrem : ¬ rem > 0 := by omega
    obtain ⟨e1, e2, e3, e4⟩ := hE (P file_count)
    have e2b : ¬ E.slow5_hdr_add_rg_data (P file_count) < 0 := by omega
    simp only [file_split_files, if_pos hpos, if_neg hrem, Int.zero_add, hP, e1,
      Bool.true_eq_false, if_false, if_neg e2b, if_neg e3]
    rw [file_split_records_ok E (P file_count) e4 lim l G _ [] (Nat.lt_succ_self _)]
    have e : (((b + 1) * lim : Nat) : Int) - (lim : Int) = ((b * lim : Nat) : Int) := by
      rw [Nat.add_mul]
      push_cast
      omega
    simp only [e, List.nil_append, ne_eq, not_true_eq_false, if_false]
    rw [ih (l.drop lim) G fuel (rem - 1) (file_count + 1) _ (by omega) (by omega)]
    simp [List.replicate_succ, chunks, number_files]

theorem file_split_files_ok (E : split_env) (hE : E.writes)
    (output_dir p extension : List Nat) (P : Nat → List Nat)
    (hP : ∀ k, split_out_path output_dir p k extension = some (P k)) (lim b : Nat) :
    ∀ (a : Nat) (l : List slow5_rec) (G fuel file_count : Nat) (outs : List out_file),
      a + (if lim = 0 then 0 else b) < fuel →
      file_split_files E output_dir p extension (lim : Int) fuel ⟨G, l⟩
          ((a * (lim + 1) + b * lim : Nat) : Int) (a : Int) file_count outs
        = some (.normal, outs ++ number_files P file_count
            (chunks (List.replicate a (lim + 1) ++
              (if lim = 0 then [] else List.replicate b lim)) l)) := by
  intro a
  induction a with
  | zero =>
    intro l G fuel file_count outs hf
    by_cases h0 : lim = 0
    · subst h0
      obtain ⟨fuel, rfl⟩ : ∃ k, fuel = k + 1 := ⟨fuel - 1, by omega⟩
      simp [file_split_files, chunks, number_files]
    · simp only [if_neg h0] at hf
      have := file_split_files_even E hE output_dir p extension P hP lim (by omega) b l G fuel
        0 file_count outs (le_refl _) (by omega)
      simpa [h0] using this
  | succ a ih =>
    intro l G fuel file_count outs hf
    obtain ⟨fuel, rfl⟩ : ∃ k, fuel = k + 1 := ⟨fuel - 1, by omega⟩
    have hpos : ((((a + 1) * (lim + 1) + b * lim : Nat)) : Int) > 0 := by
      have : 0 < (a + 1) * (lim + 1) := Nat.mul_pos (by omega) (by omega)
      omega
    have hrem : ((a + 1 : Nat) : Int) > 0 := by omega
    have hper : (1 : Int) + (lim : Int) = ((lim + 1 : Nat) : Int) := by push_cast; omega
    obtain ⟨e1, e2, e3, e4⟩ := hE (P file_count)
    have e2b : ¬ E.slow5_hdr_add_rg_data (P file_count) < 0 := by omega
    simp only [file_split_files, if_pos hpos, if_pos hrem, hper, hP, e1,
      Bool.true_eq_false, if_false, if_neg e2b, if_neg e3]
    rw [file_split_records_ok E (P file_count) e4 (lim + 1) l G _ [] (Nat.lt_succ_self _)]
    have e : ((((a + 1) * (lim + 1) + b * lim : Nat)) : Int) - ((lim + 1 : Nat) : Int)
        = ((a * (lim + 1) + b * lim : Nat) : Int) := by
      rw [Nat.add_mul]
      push_cast
      omega
    have e5 : ((a + 1 : Nat) : Int) - 1 = (a : Int) := by omega
    simp only [e, e5, List.nil_append, ne_eq, not_true_eq_false, if_false]
    rw [ih (l.drop (lim + 1)) G fuel (file_count + 1) _ (by omega)]
    simp [List.replicate_succ, chunks, number_files]

theorem group_split_records_ok (E : split_env) (sp : List Nat)
    (hw : ∀ r, E.slow5_rec_fwrite sp r ≠ -1) (j : Nat) (l : List slow5_rec) :
    ∀ (G fuel : Nat) (written : List slow5_rec), l.length < fuel →
      group_split_records E sp j fuel ⟨G, l⟩ written
        = some (.normal, written ++ (l.filter (fun r => decide (r.read_group = j))).map
            (fun r => { r with read_group := 0 })) := by
  induction l with
  | nil =>
    intro G fuel written hf
    obtain ⟨fuel, rfl⟩ : ∃ k, fuel = k + 1 := ⟨fuel - 1, by simp at hf; omega⟩
    simp [group_split_records, slow5_get_next]
  | cons r t ih =>
    intro G fuel written hf
    obtain ⟨fuel, rfl⟩ : ∃ k, fuel = k + 1 := ⟨fuel - 1, by simp at hf; omega⟩
    simp only [List.length_cons] at hf
    simp only [group_split_records, slow5_get_next, if_true]
    by_cases h : r.read_group = j
    · rw [if_pos h, if_neg (hw _), ih G fuel _ (by omega)]
      simp [List.filter_cons, h]
    · rw [if_neg h, ih G fuel _ (by omega)]
      simp [List.filter_cons, h]

theorem group_split_files_ok (E : split_env) (hE : E.writes)
    (output_dir p extension : List Nat) (P : Nat → List Nat)
    (hP : ∀ k, split_out_path output_dir p k extension = some (P k))
    (f : slow5_file_t) (hopen : E.slow5_open p = some f) :
    ∀ (k j : Nat) (outs : List out_file),
      group_split_files E output_dir p extension k j outs
        = some (.normal, outs ++ (List.range k).map (fun i =>
            (⟨P (j + i), (f.records.filter (fun r => decide (r.read_group = j + i))).map
              (fun r => { r with read_group := 0 })⟩ : out_file))) := by
  intro k
  induction k with
  | zero =>
    intro j outs
    simp [group_split_files]
  | succ k ih =>
    intro j outs
    obtain ⟨G, l⟩ := f
    obtain ⟨e1, e2, e3, e4⟩ := hE (P j)
    have e2b : ¬ E.slow5_hdr_add_rg_data (P j) < 0 := by omega
    simp only [group_split_files, hopen, hP, e1, Bool.true_eq_false, if_false, if_neg e2b,
      if_neg e3, group_split_records_ok E (P j) e4 j l G _ [] (Nat.lt_succ_self _),
      List.nil_append, ne_eq, not_true_eq_false]
    rw [ih (j + 1), List.range_succ_eq_map k]
    simp only [List.map_cons, List.map_map, List.append_assoc, List.singleton_append,
      Nat.add_zero]
    congr 4
    apply List.map_congr_left
    intro i _
    simp only [Function.comp, Nat.succ_eq_add_one]
    have e5 : j + 1 + i = j + (i + 1) := by omega
    rw [e5]

/-! ## The split tool: one input file -/

theorem file_split_body_ok (E : split_env) (hE : E.writes)
    (output_dir extension p : List Nat) (hp : 47 ∈ p) (G : Nat) (l : List slow5_rec)
    (hopen : E.slow5_open p = some ⟨G, l⟩) (hG : G ≤ 1) (n : Nat) (hn : 1 ≤ n) :
    split_child_worker_body E output_dir extension ⟨.FILE_SPLIT, n⟩ p
      = some (.normal, number_files (out_path output_dir p extension) 0
          (chunks (file_split_sizes l.length n) l)) := by
  have hN : l.length = (l.length % n) * (l.length / n + 1) + (n - l.length % n) * (l.length / n) := by
    have h1 := Nat.div_add_mod l.length n
    have h2 : l.length % n < n := Nat.mod_lt _ (by omega)
    have h3 : (n - l.length % n) * (l.length / n) + (l.length % n) * (l.length / n)
        = n * (l.length / n) := by
      rw [← Nat.add_mul]
      congr 1
      omega
    rw [Nat.mul_add, Nat.mul_one]
    omega
  have hfuel : l.length % n + (if l.length / n = 0 then 0 else n - l.length % n)
      < l.length + 1 := by
    have h2 : l.length % n < n := Nat.mod_lt _ (by omega)
    have h3 : l.length % n ≤ l.length := Nat.mod_le _ _
    split_ifs with h
    · omega
    · have : n ≤ l.length := by
        by_contra hc
        exact h (Nat.div_eq_of_lt (by omega))
      omega
  have key := file_split_files_ok E hE output_dir p extension (out_path output_dir p extension)
    (split_out_path_some output_dir p extension hp) (l.length / n) (n - l.length % n)
    (l.length % n) l G (l.length + 1) 0 [] hfuel
  rw [← hN] at key
  have g1 : ¬ (G = 1 ∧ SplitMethod.FILE_SPLIT = SplitMethod.GROUP_SPLIT) := by
    intro h; exact absurd h.2 (by decide)
  have g2 : ¬ (G > 1 ∧ SplitMethod.FILE_SPLIT ≠ SplitMethod.GROUP_SPLIT) := by
    intro h; omega
  simp only [split_child_worker_body, hopen, if_neg g1, if_neg g2,
    file_split_count_ok l G _ 0 (Nat.lt_succ_self _)]
  simp only [Int.zero_add, file_split_sizes]
  have e1 : ((l.length : Int)) / (n : Int) = ((l.length / n : Nat) : Int) := by
    rw [Int.natCast_div]
  have e2 : ((l.length : Int)) % (n : Int) = ((l.length % n : Nat) : Int) := by
    rw [Int.natCast_mod]
  rw [e1, e2]
  simpa using key

theorem reads_split_body_ok (E : split_env) (hE : E.writes)
    (output_dir extension p : List Nat) (hp : 47 ∈ p) (G : Nat) (l : List slow5_rec)
    (hopen : E.slow5_open p = some ⟨G, l⟩) (hG : G ≤ 1) (n : Nat) (hn : 1 ≤ n) :
    split_child_worker_body E output_dir extension ⟨.READS_SPLIT, n⟩ p
      = some (.normal, (List.range (l.length / n + 1)).map
          (fun i => (⟨out_path output_dir p extension i, (l.drop (i * n)).take n⟩ :
            out_file))) := by
  have g1 : ¬ (G = 1 ∧ SplitMethod.READS_SPLIT = SplitMethod.GROUP_SPLIT) := by
    intro h; exact absurd h.2 (by decide)
  have g2 : ¬ (G > 1 ∧ SplitMethod.READS_SPLIT ≠ SplitMethod.GROUP_SPLIT) := by
    intro h; omega
  simp only [split_child_worker_body, hopen, if_neg g1, if_neg g2]
  have := reads_split_files_ok E hE output_dir p extension (out_path output_dir p extension)
    (split_out_path_some output_dir p extension hp) n hn (l.length / n) l G (l.length + 1) 0 []
    rfl (Nat.lt_succ_of_le (Nat.div_le_self _ _))
  simpa using this

theorem group_split_body_ok (E : split_env) (hE : E.writes)
    (output_dir extension p : List Nat) (hp : 47 ∈ p) (f : slow5_file_t)
    (hopen : E.slow5_open p = some f) (hG : f.num_read_groups ≠ 1) (n : Nat) :
    split_child_worker_body E output_dir extension ⟨.GROUP_SPLIT, n⟩ p
      = some (.normal, (List.range f.num_read_groups).map (fun j =>
          (⟨out_path output_dir p extension j,
            (f.records.filter (fun r => decide (r.read_group = j))).map
              (fun r => { r with read_group := 0 })⟩ : out_file))) := by
  simp only [split_child_worker_body, hopen, hG, false_and, if_false, ne_eq,
    not_true_eq_false, and_false]
  rw [group_split_files_ok E hE output_dir p extension (out_path output_dir p extension)
    (split_out_path_some output_dir p extension hp) f hopen]
  simp

theorem reads_split_body_abort (E : split_env) (output_dir extension p : List Nat)
    (hp : 47 ∉ p) (hl : p.length < 2 ^ 64 - 1) (f : slow5_file_t)
    (hopen : E.slow5_open p = some f) (hG : f.num_read_groups ≤ 1) (n : Nat) :
    split_child_worker_body E output_dir extension ⟨.READS_SPLIT, n⟩ p
      = some (.aborted, []) := by
  have g1 : ¬ (f.num_read_groups = 1 ∧ SplitMethod.READS_SPLIT = SplitMethod.GROUP_SPLIT) := by
    intro h; exact absurd h.2 (by decide)
  have g2 : ¬ (f.num_read_groups > 1 ∧
      SplitMethod.READS_SPLIT ≠ SplitMethod.GROUP_SPLIT) := by
    intro h; omega
  simp only [split_child_worker_body, hopen, if_neg g1, if_neg g2, reads_split_files,
    split_out_path_none output_dir p extension hp hl]

theorem file_split_body_abort (E : split_env) (output_dir extension p : List Nat)
    (hp : 47 ∉ p) (hl : p.length < 2 ^ 64 - 1) (f : slow5_file_t)
    (hopen : E.slow5_open p = some f) (hG : f.num_read_groups ≤ 1) (n : Nat)
    (hrec : f.records ≠ []) :
    split_child_worker_body E output_dir extension ⟨.FILE_SPLIT, n⟩ p
      = some (.aborted, []) := by
  obtain ⟨G, l⟩ := f
  have g1 : ¬ (G = 1 ∧ SplitMethod.FILE_SPLIT = SplitMethod.GROUP_SPLIT) := by
    intro h; exact absurd h.2 (by decide)
  have g2 : ¬ (G > 1 ∧ SplitMethod.FILE_SPLIT ≠ SplitMethod.GROUP_SPLIT) := by
    intro h; simp only at hG; omega
  have hpos : (0 : Int) + (l.length : Int) > 0 := by
    have : 0 < l.length := List.length_pos.mpr hrec
    omega
  simp only [split_child_worker_body, hopen, if_neg g1, if_neg g2,
    file_split_count_ok l G _ 0 (Nat.lt_succ_self _), file_split_files, if_pos hpos,
    split_out_path_none output_dir p extension hp hl]

theorem group_split_body_abort (E : split_env) (output_dir extension p : List Nat)
    (hp : 47 ∉ p) (hl : p.length < 2 ^ 64 - 1) (f : slow5_file_t)
    (hopen : E.slow5_open p = some f) (hG : 1 < f.num_read_groups) (n : Nat) :
    split_child_worker_body E output_dir extension ⟨.GROUP_SPLIT, n⟩ p
      = some (.aborted, []) := by
  have g1 : ¬ f.num_read_groups = 1 := by omega
  obtain ⟨k, hk⟩ : ∃ k, f.num_read_groups = k + 1 := ⟨f.num_read_groups - 1, by omega⟩
  have g3 : ¬ (k + 1 = 1 ∧ True) := by
    intro h; omega
  simp only [split_child_worker_body, hopen, ne_eq, not_true_eq_false, and_false, hk,
    if_false, if_neg g3, group_split_files,
    split_out_path_none output_dir p extension hp hl]

theorem env_sample_writes (files : List (List Nat × slow5_file_t)) :
    (env_sample files).writes := by
  intro p
  simp [env_sample]

/-! ## C18: the number of output files of a file split -/

/-- C18, counterexample: the single-read-group file "d/a.blow5" of 3 records
split with `-f 5`, every output file being written, gives 3 output files of
one record each, and not 5; with no record it gives no output file at all. -/
theorem file_split_fewer_records :
    (split_child_worker_body (env_a 3) dir_out ext_blow5 ⟨.FILE_SPLIT, 5⟩ path_a).map
        (fun r => (r.1, r.2.map (fun o => o.records.length))) = some (.normal, [1, 1, 1]) ∧
      split_child_worker_body (env_a 0) dir_out ext_blow5 ⟨.FILE_SPLIT, 5⟩ path_a =
        some (.normal, []) := by
  decide

/-- C18, amended: for a single-read-group input file of `N` records, fewer
than `2 ^ 31`, whose path has a '/', and `n ≥ 1`, when the output files can
be opened and written, the FILE_SPLIT branch of `split_child_worker` ends and
makes `min n N` output files: `n` files when the file has at least `n`
records, and one file for each record otherwise. -/
theorem file_split_file_count (E : split_env) (hE : E.writes)
    (output_dir extension p : List Nat) (hp : 47 ∈ p) (l : List slow5_rec)
    (hopen : E.slow5_open p = some ⟨1, l⟩) (n : Nat) (hn : 1 ≤ n)
    (hN : l.length < 2 ^ 31) :
    ∃ outs, split_child_worker_body E output_dir extension ⟨.FILE_SPLIT, n⟩ p =
        some (.normal, outs) ∧
      outs.length = min n l.length ∧
      (n ≤ l.length → outs.length = n) ∧
      (l.length < n → outs.length = l.length) := by
  have _ := hN
  refine ⟨_, file_split_body_ok E hE output_dir extension p hp 1 l hopen (by omega) n hn, ?_⟩
  rw [number_files_length, chunks_length, file_split_sizes_length _ _ hn]
  omega

theorem file_split_file_count_witness :
    ((env_a 7).writes ∧ 47 ∈ path_a ∧ (env_a 7).slow5_open path_a = some ⟨1, sample_recs 7⟩ ∧
        1 ≤ 3 ∧ (sample_recs 7).length < 2 ^ 31) ∧
      ∃ outs, split_child_worker_body (env_a 7) dir_out ext_blow5 ⟨.FILE_SPLIT, 3⟩ path_a =
          some (.normal, outs) ∧
        outs.length = min 3 (sample_recs 7).length ∧
        (3 ≤ (sample_recs 7).length → outs.length = 3) ∧
        ((sample_recs 7).length < 3 → outs.length = (sample_recs 7).length) :=
  ⟨⟨env_sample_writes _, by decide, by decide, by decide, by decide⟩,
    file_split_file_count (env_a 7) (env_sample_writes _) dir_out ext_blow5 path_a (by decide)
      (sample_recs 7) (by decide) 3 (by decide) (by decide)⟩

/-! ## C19: the sizes of the output files of a reads split -/

/-- C19, counterexample: the single-read-group file "d/a.blow5" of 3 records
split with `-r 2`, every output file being written, gives an output file of
2 reads and one of 1 read. -/
theorem reads_split_remainder_file :
    (split_child_worker_body (env_a 3) dir_out ext_blow5 ⟨.READS_SPLIT, 2⟩ path_a).map
        (fun r => (r.1, r.2.map (fun o => o.records.length))) = some (.normal, [2, 1]) := by
  decide

/-- C19, amended: for a single-read-group input file of `N` records whose
path has a '/', and `n ≥ 1`, when the output files can be opened and written,
the READS_SPLIT branch of `split_child_worker` ends; each of the first
`N / n` output files has `n` reads, the next `n` of the input in input order,
and when `N` is not a multiple of `n` one more output file, the last, has the
remaining `N % n` reads. -/
theorem reads_split_sizes (E : split_env) (hE : E.writes)
    (output_dir extension p : List Nat) (hp : 47 ∈ p) (l : List slow5_rec)
    (hopen : E.slow5_open p = some ⟨1, l⟩) (n : Nat) (hn : 1 ≤ n) :
    ∃ outs, split_child_worker_body E output_dir extension ⟨.READS_SPLIT, n⟩ p =
        some (.normal, outs) ∧
      (∀ i, i < l.length / n → ∃ o, outs[i]? = some o ∧
        o.path = out_path output_dir p extension i ∧
        o.records = (l.drop (i * n)).take n ∧ o.records.length = n) ∧
      (l.length % n ≠ 0 → outs.length = l.length / n + 1 ∧
        ∃ o, outs[l.length / n]? = some o ∧
          o.path = out_path output_dir p extension (l.length / n) ∧
          o.records = l.drop (l.length / n * n) ∧ o.records.length = l.length % n) := by
  have hbody := reads_split_body_ok E hE output_dir extension p hp 1 l hopen (by omega) n hn
  have hdm := Nat.div_add_mod l.length n
  refine ⟨_, hbody, ?_, ?_⟩
  · intro i hi
    have hle : (i + 1) * n ≤ l.length := by
      have h1 : (i + 1) * n ≤ (l.length / n) * n := Nat.mul_le_mul_right _ (by omega)
      have h2 : (l.length / n) * n ≤ l.length := Nat.div_mul_le_self _ _
      omega
    refine ⟨⟨out_path output_dir p extension i, (l.drop (i * n)).take n⟩, ?_, rfl, rfl, ?_⟩
    · rw [List.getElem?_map, List.getElem?_range (by omega)]
      simp
    · simp only [List.length_take, List.length_drop]
      rw [Nat.add_mul] at hle
      omega
  · intro hrem
    have hlen : (l.drop (l.length / n * n)).length = l.length % n := by
      rw [List.length_drop, Nat.mul_comm]
      omega
    have hlt : l.length % n < n := Nat.mod_lt _ (by omega)
    refine ⟨by simp, ⟨out_path output_dir p extension (l.length / n),
      l.drop (l.length / n * n)⟩, ?_, rfl, rfl, hlen⟩
    rw [List.getElem?_map, List.getElem?_range (by omega)]
    simp only [Option.map_some', Option.some.injEq, out_file.mk.injEq, true_and]
    exact List.take_of_length_le (by omega)

theorem reads_split_sizes_witness :
    ((env_a 5).writes ∧ 47 ∈ path_a ∧ (env_a 5).slow5_open path_a = some ⟨1, sample_recs 5⟩ ∧
        1 ≤ 2) ∧
      ∃ outs, split_child_worker_body (env_a 5) dir_out ext_blow5 ⟨.READS_SPLIT, 2⟩ path_a =
          some (.normal, outs) ∧
        (∀ i, i < (sample_recs 5).length / 2 → ∃ o, outs[i]? = some o ∧
          o.path = out_path dir_out path_a ext_blow5 i ∧
          o.records = ((sample_recs 5).drop (i * 2)).take 2 ∧ o.records.length = 2) ∧
        ((sample_recs 5).length % 2 ≠ 0 → outs.length = (sample_recs 5).length / 2 + 1 ∧
          ∃ o, outs[(sample_recs 5).length / 2]? = some o ∧
            o.path = out_path dir_out path_a ext_blow5 ((sample_recs 5).length / 2) ∧
            o.records = (sample_recs 5).drop ((sample_recs 5).length / 2 * 2) ∧
            o.records.length = (sample_recs 5).length % 2) :=
  ⟨⟨env_sample_writes _, by decide, by decide, by decide⟩,
    reads_split_sizes (env_a 5) (env_sample_writes _) dir_out ext_blow5 path_a (by decide)
      (sample_recs 5) (by decide) 2 (by decide)⟩

/-! ## C20: a group split parts the records by read group -/

/-- C20, evaluated on the code. For an input file with `G > 1` read groups
whose path has no '/', the GROUP_SPLIT branch of `split_child_worker` ends in
the exception of `substr` before any output file is opened; so it is for the
sample file "a.blow5".  For a path with a '/', when the output files can be
opened and written, it ends with `G` output files; output file `j` holds
exactly the input records of read group `j`, in input order, each with the
read group set to 0; so a record of a read group below `G` goes to the one
file of its group, and the output files together hold as many records as the
input has of read groups below `G`. -/
theorem group_split_partition (E : split_env) (output_dir extension p : List Nat)
    (f : slow5_file_t) (hopen : E.slow5_open p = some f) (hG : 1 < f.num_read_groups)
    (n : Nat) :
    (47 ∉ p → p.length < 2 ^ 64 - 1 →
      split_child_worker_body E output_dir extension ⟨.GROUP_SPLIT, n⟩ p =
        some (.aborted, [])) ∧
    split_child_worker_body env_plain_g dir_out ext_blow5 ⟨.GROUP_SPLIT, 0⟩ path_plain =
      some (.aborted, []) ∧
    (47 ∈ p → E.writes →
      ∃ outs, split_child_worker_body E output_dir extension ⟨.GROUP_SPLIT, n⟩ p =
          some (.normal, outs) ∧
        outs.length = f.num_read_groups ∧
        (∀ j, j < f.num_read_groups → outs[j]? = some
          ⟨out_path output_dir p extension j,
            (f.records.filter (fun r => decide (r.read_group = j))).map
              (fun r => { r with read_group := 0 })⟩) ∧
        (∀ r ∈ f.records, r.read_group < f.num_read_groups → ∀ j, j < f.num_read_groups →
          (r ∈ f.records.filter (fun x => decide (x.read_group = j)) ↔ j = r.read_group)) ∧
        (outs.map (fun o => o.records.length)).sum
          = (f.records.filter (fun r => decide (r.read_group < f.num_read_groups))).length) := by
  refine ⟨fun hp hl => group_split_body_abort E output_dir extension p hp hl f hopen hG n,
    by decide, ?_⟩
  intro hp hE
  have hbody := group_split_body_ok E hE output_dir extension p hp f hopen (by omega) n
  refine ⟨_, hbody, by simp, ?_, ?_, ?_⟩
  · intro j hj
    rw [List.getElem?_map, List.getElem?_range hj]
    simp
  · intro r hr _ j _
    simp only [List.mem_filter, decide_eq_true_eq]
    constructor
    · intro h; exact h.2.symm
    · intro h; exact ⟨hr, h.symm⟩
  · rw [List.map_map, ← filter_group_sum f.records f.num_read_groups]
    congr 1
    apply List.map_congr_left
    intro j _
    simp

theorem group_split_partition_witness :
    (env_plain_g.slow5_open path_plain = some ⟨2, group_recs⟩ ∧
      1 < (⟨2, group_recs⟩ : slow5_file_t).num_read_groups ∧ 47 ∉ path_plain ∧
      path_plain.length < 2 ^ 64 - 1) ∧
    split_child_worker_body env_plain_g dir_out ext_blow5 ⟨.GROUP_SPLIT, 0⟩ path_plain =
      some (.aborted, []) ∧
    (env_g.slow5_open path_g = some ⟨2, group_recs⟩ ∧ 47 ∈ path_g ∧ env_g.writes) ∧
    split_child_worker_body env_g dir_out ext_blow5 ⟨.GROUP_SPLIT, 0⟩ path_g =
      some (.normal, [⟨out_path dir_out path_g ext_blow5 0, [⟨[98], 0, [2]⟩]⟩,
        ⟨out_path dir_out path_g ext_blow5 1, [⟨[97], 0, [1]⟩, ⟨[99], 0, [3]⟩]⟩]) :=
  ⟨⟨by decide, by decide, by decide, by decide⟩,
    (group_split_partition env_plain_g dir_out ext_blow5 path_plain ⟨2, group_recs⟩
      (by decide) (by decide) 0).1 (by decide) (by decide),
    ⟨by decide, by decide, env_sample_writes _⟩, by decide⟩

/-! ## C28 and C29: the turns of the file split and of the reads split -/

/-- C28, evaluated on the code. For an input file of `N ≥ 1` records that
passes the guards of the split method and whose path has no '/', the first
turn of the distribution loop of FILE_SPLIT ends in the exception of
`substr`: no output file is made; so it is for the sample file "a.blow5" of
7 records with `-f 3`.  For a path with a '/', `N < 2 ^ 31` and `n ≥ 1`, when
the output files can be opened and written, the loop, with `limit = N / n`
and `rem = N % n`, ends after `min n N` turns, each making one output file;
the file of turn `k` gets `limit + 1` records when `k < rem` and `limit`
records otherwise; every file gets at least one record, the counts of any
two files differ by at most 1, the counts add up to `N`, and the output files
taken in order hold the input records in input order. -/
theorem file_split_balanced (E : split_env) (output_dir extension p : List Nat)
    (G : Nat) (hG : G ≤ 1) (l : List slow5_rec) (hopen : E.slow5_open p = some ⟨G, l⟩)
    (n : Nat) (hn : 1 ≤ n) (hN : l.length < 2 ^ 31) :
    (47 ∉ p → p.length < 2 ^ 64 - 1 → l ≠ [] →
      split_child_worker_body E output_dir extension ⟨.FILE_SPLIT, n⟩ p =
        some (.aborted, [])) ∧
    split_child_worker_body (env_plain 7) dir_out ext_blow5 ⟨.FILE_SPLIT, 3⟩ path_plain =
      some (.aborted, []) ∧
    (47 ∈ p → E.writes →
      ∃ outs, split_child_worker_body E output_dir extension ⟨.FILE_SPLIT, n⟩ p =
          some (.normal, outs) ∧
        outs.length = min n l.length ∧
        (∀ k, k < min n l.length → ∃ o, outs[k]? = some o ∧
          o.path = out_path output_dir p extension k ∧
          o.records.length = (if k < l.length % n then l.length / n + 1 else l.length / n)) ∧
        (∀ o ∈ outs, 1 ≤ o.records.length) ∧
        (∀ o1 ∈ outs, ∀ o2 ∈ outs, o1.records.length ≤ o2.records.length + 1) ∧
        (outs.map (fun o => o.records.length)).sum = l.length ∧
        (outs.map (fun o => o.records)).flatten = l) := by
  have _ := hN
  refine ⟨fun hp hl hne =>
    file_split_body_abort E output_dir extension p hp hl ⟨G, l⟩ hopen hG n hne, by decide, ?_⟩
  intro hp hE
  have hsum := file_split_sizes_sum l.length n hn
  have hlens := chunks_lengths (file_split_sizes l.length n) l (by omega)
  have hrec := number_files_records (out_path output_dir p extension)
    (chunks (file_split_sizes l.length n) l) 0
  have hmem : ∀ o ∈ number_files (out_path output_dir p extension) 0
      (chunks (file_split_sizes l.length n) l),
      o.records.length ∈ file_split_sizes l.length n := by
    intro o ho
    have h1 : o.records ∈ chunks (file_split_sizes l.length n) l := by
      rw [← hrec]
      exact List.mem_map_of_mem (fun o => o.records) ho
    rw [← hlens]
    exact List.mem_map_of_mem List.length h1
  refine ⟨_, file_split_body_ok E hE output_dir extension p hp G l hopen hG n hn,
    ?_, ?_, ?_, ?_, ?_, ?_⟩
  · rw [number_files_length, chunks_length, file_split_sizes_length _ _ hn]
  · intro k hk
    have hk2 : k < (chunks (file_split_sizes l.length n) l).length := by
      rw [chunks_length, file_split_sizes_length _ _ hn]; exact hk
    have hg := file_split_sizes_get l.length n hn k hk
    rw [← hlens, List.getElem?_map, List.getElem?_eq_getElem hk2] at hg
    simp only [Option.map_some', Option.some.injEq] at hg
    refine ⟨⟨out_path output_dir p extension k,
      (chunks (file_split_sizes l.length n) l)[k]⟩, ?_, rfl, hg⟩
    rw [number_files_get, List.getElem?_eq_getElem hk2]
    simp
  · intro o ho
    exact (file_split_sizes_mem _ _ _ (hmem o ho)).2.2
  · intro o1 ho1 o2 ho2
    have h1 := file_split_sizes_mem _ _ _ (hmem o1 ho1)
    have h2 := file_split_sizes_mem _ _ _ (hmem o2 ho2)
    omega
  · have : (number_files (out_path output_dir p extension) 0
        (chunks (file_split_sizes l.length n) l)).map (fun o => o.records.length) =
        ((number_files (out_path output_dir p extension) 0
          (chunks (file_split_sizes l.length n) l)).map (fun o => o.records)).map
            List.length := by
      rw [List.map_map]
      rfl
    rw [this, hrec, hlens, hsum]
  · rw [hrec, chunks_flatten, hsum, List.take_length]

theorem file_split_balanced_witness :
    (1 ≤ 1 ∧ (env_plain 7).slow5_open path_plain = some ⟨1, sample_recs 7⟩ ∧ 1 ≤ 3 ∧
      (sample_recs 7).length < 2 ^ 31 ∧ 47 ∉ path_plain ∧ path_plain.length < 2 ^ 64 - 1 ∧
      sample_recs 7 ≠ []) ∧
    split_child_worker_body (env_plain 7) dir_out ext_blow5 ⟨.FILE_SPLIT, 3⟩ path_plain =
      some (.aborted, []) ∧
    (split_child_worker_body (env_a 7) dir_out ext_blow5 ⟨.FILE_SPLIT, 3⟩ path_a).map
      (fun r => (r.1, r.2.map (fun o => o.records.length))) = some (.normal, [3, 2, 2]) :=
  ⟨⟨by decide, by decide, by decide, by decide, by decide, by decide, by decide⟩,
    (file_split_balanced (env_plain 7) dir_out ext_blow5 path_plain 1 (by decide)
      (sample_recs 7) (by decide) 3 (by decide) (by decide)).1 (by decide) (by decide)
      (by decide),
    by decide⟩

/-- C29, evaluated on the code. For an input file that passes the guards of
the split method and whose path has no '/', the first turn of the loop of
READS_SPLIT ends in the exception of `substr`: no output file is made; so it
is for the sample file "a.blow5" of 4 records with `-r 2`.  For a path with a
'/' and `n ≥ 1`, when the output files can be opened and written, the loop
ends having made `N / n + 1` output files, numbered from 0 on; each of the
first `N / n` holds `n` records and the last holds `N % n` records, none when
`N` is a multiple of `n` (`N = 0` included); the output files taken in order
hold the input records in input order. -/
theorem reads_split_file_count (E : split_env) (output_dir extension p : List Nat)
    (G : Nat) (hG : G ≤ 1) (l : List slow5_rec) (hopen : E.slow5_open p = some ⟨G, l⟩)
    (n : Nat) (hn : 1 ≤ n) :
    (47 ∉ p → p.length < 2 ^ 64 - 1 →
      split_child_worker_body E output_dir extension ⟨.READS_SPLIT, n⟩ p =
        some (.aborted, [])) ∧
    split_child_worker_body (env_plain 4) dir_out ext_blow5 ⟨.READS_SPLIT, 2⟩ path_plain =
      some (.aborted, []) ∧
    (47 ∈ p → E.writes →
      ∃ outs, split_child_worker_body E output_dir extension ⟨.READS_SPLIT, n⟩ p =
          some (.normal, outs) ∧
        outs.length = l.length / n + 1 ∧
        (∀ k, k < l.length / n → ∃ o, outs[k]? = some o ∧
          o.path = out_path output_dir p extension k ∧
          o.records.length = n ∧ o.records = (l.drop (k * n)).take n) ∧
        (∃ o, outs[l.length / n]? = some o ∧ outs.getLast? = some o ∧
          o.path = out_path output_dir p extension (l.length / n) ∧
          o.records.length = l.length % n ∧
          o.records = l.drop (l.length / n * n) ∧ (l.length % n = 0 → o.records = [])) ∧
        (outs.map (fun o => o.records)).flatten = l) := by
  refine ⟨fun hp hl =>
    reads_split_body_abort E output_dir extension p hp hl ⟨G, l⟩ hopen hG n, by decide, ?_⟩
  intro hp hE
  have hdm := Nat.div_add_mod l.length n
  have hlt : l.length % n < n := Nat.mod_lt _ (by omega)
  have hqn : l.length / n * n + l.length % n = l.length := by
    rw [Nat.mul_comm]; exact hdm
  have hbody := reads_split_body_ok E hE output_dir extension p hp G l hopen hG n hn
  generalize hq : l.length / n = q at hqn hbody ⊢
  refine ⟨_, hbody, by simp, ?_, ?_, ?_⟩
  · intro k hk
    have hle : (k + 1) * n ≤ q * n := Nat.mul_le_mul_right _ (by omega)
    refine ⟨⟨out_path output_dir p extension k, (l.drop (k * n)).take n⟩, ?_, rfl, ?_, rfl⟩
    · rw [List.getElem?_map, List.getElem?_range (by omega)]
      simp
    · simp only [List.length_take, List.length_drop]
      rw [Nat.add_mul] at hle
      omega
  · have hlen : (l.drop (q * n)).length = l.length % n := by
      rw [List.length_drop]
      omega
    have hget : ((List.range (q + 1)).map
        (fun i => (⟨out_path output_dir p extension i, (l.drop (i * n)).take n⟩ :
          out_file)))[q]? = some ⟨out_path output_dir p extension q, l.drop (q * n)⟩ := by
      rw [List.getElem?_map, List.getElem?_range (by omega)]
      simp only [Option.map_some', Option.some.injEq, out_file.mk.injEq, true_and]
      exact List.take_of_length_le (by omega)
    refine ⟨⟨out_path output_dir p extension q, l.drop (q * n)⟩, hget, ?_, rfl, hlen, rfl,
      ?_⟩
    · rw [List.getLast?_eq_getElem?]
      simpa using hget
    · intro h0
      apply List.eq_nil_of_length_eq_zero
      rw [hlen, h0]
  · rw [List.map_map]
    have : ((fun o : out_file => o.records) ∘
        fun i => (⟨out_path output_dir p extension i, (l.drop (i * n)).take n⟩ :
          out_file)) = fun i => (l.drop (i * n)).take n := rfl
    rw [this]
    apply range_chunks_flatten
    rw [Nat.add_mul]
    omega

theorem reads_split_file_count_witness :
    (1 ≤ 1 ∧ (env_plain 4).slow5_open path_plain = some ⟨1, sample_recs 4⟩ ∧ 1 ≤ 2 ∧
      47 ∉ path_plain ∧ path_plain.length < 2 ^ 64 - 1) ∧
    split_child_worker_body (env_plain 4) dir_out ext_blow5 ⟨.READS_SPLIT, 2⟩ path_plain =
      some (.aborted, []) ∧
    (split_child_worker_body (env_a 4) dir_out ext_blow5 ⟨.READS_SPLIT, 2⟩ path_a).map
      (fun r => (r.1, r.2.map (fun o => o.records.length))) = some (.normal, [2, 2, 0]) :=
  ⟨⟨by decide, by decide, by decide, by decide, by decide⟩,
    (reads_split_file_count (env_plain 4) dir_out ext_blow5 path_plain 1 (by decide)
      (sample_recs 4) (by decide) 2 (by decide)).1 (by decide) (by decide),
    by decide⟩

/-! ## The split tool: how the workers and the tool end -/

theorem split_skips_body (E : split_env) (output_dir extension : List Nat)
    (m : meta_split_method) (p : List Nat) (h : split_skips E m p) :
    split_child_worker_body E output_dir extension m p = some (.normal, []) := by
  rcases h with h | ⟨f, hf, h | h⟩
  · simp only [split_child_worker_body, h]
  · simp only [split_child_worker_body, hf, h, and_self, if_true]
  · have g1 : ¬ (f.num_read_groups = 1 ∧ m.splitMethod = .GROUP_SPLIT) := by
      intro hc; exact h.2 hc.2
    simp only [split_child_worker_body, hf, if_neg g1, if_pos h]

theorem split_child_worker_body_normal (E : split_env) (output_dir extension : List Nat)
    (m : meta_split_method) (hn : m.splitMethod ≠ .GROUP_SPLIT → 1 ≤ m.n) (p : List Nat)
    (h : split_skips E m p ∨ (47 ∈ p ∧ E.writes)) :
    ∃ outs, split_child_worker_body E output_dir extension m p = some (.normal, outs) := by
  rcases h with h | ⟨hp, hE⟩
  · exact ⟨[], split_skips_body E output_dir extension m p h⟩
  · cases hopen : E.slow5_open p with
    | none => exact ⟨[], split_skips_body E output_dir extension m p (Or.inl hopen)⟩
    | some f =>
      obtain ⟨G, l⟩ := f
      obtain ⟨method, n⟩ := m
      by_cases g1 : G = 1 ∧ method = .GROUP_SPLIT
      · exact ⟨[], split_skips_body E output_dir extension _ p
          (Or.inr ⟨_, hopen, Or.inl g1⟩)⟩
      · by_cases g2 : G > 1 ∧ method ≠ .GROUP_SPLIT
        · exact ⟨[], split_skips_body E output_dir extension _ p
            (Or.inr ⟨_, hopen, Or.inr g2⟩)⟩
        · cases method with
          | READS_SPLIT =>
            exact ⟨_, reads_split_body_ok E hE output_dir extension p hp G l hopen
              (by simp at g2; omega) n (hn (by simp))⟩
          | FILE_SPLIT =>
            exact ⟨_, file_split_body_ok E hE output_dir extension p hp G l hopen
              (by simp at g2; omega) n (hn (by simp))⟩
          | GROUP_SPLIT =>
            have g3 : ¬ G = 1 := fun h => g1 ⟨h, rfl⟩
            exact ⟨_, group_split_body_ok E hE output_dir extension p hp ⟨G, l⟩ hopen g3 n⟩

theorem split_child_worker_loop_normal (E : split_env) (slow5_files : List (List Nat))
    (output_dir extension : List Nat) (m : meta_split_method)
    (hb : ∀ p ∈ slow5_files,
      ∃ outs, split_child_worker_body E output_dir extension m p = some (.normal, outs)) :
    ∀ (k : Nat) (i : Int) (done : List (Int × List out_file)),
      (∀ j : Int, i ≤ j → j < i + k → 0 ≤ j ∧ j < slow5_files.length) →
      ∃ r, split_child_worker_loop E slow5_files output_dir extension m k i done =
        some (.normal, r) := by
  intro k
  induction k with
  | zero => intro i done _; exact ⟨done, rfl⟩
  | succ k ih =>
    intro i done hr
    obtain ⟨h0, h1⟩ := hr i (le_refl _) (by push_cast; omega)
    have hlt : i.toNat < slow5_files.length := by omega
    have hmem : slow5_files.getD i.toNat [] ∈ slow5_files := by
      rw [List.getD_eq_getElem _ _ hlt]
      exact List.getElem_mem hlt
    obtain ⟨outs, ho⟩ := hb _ hmem
    simp only [split_child_worker_loop, ho, if_true]
    apply ih
    intro j hj1 hj2
    exact hr j (by omega) (by push_cast; omega)

theorem split_iop_proc_args_bounds (iop : Int) (hiop : 1 ≤ iop) (F : Nat) :
    ∀ a ∈ split_iop_proc_args iop (F : Int), 0 ≤ a.starti ∧ a.endi ≤ (F : Int) := by
  have e : iop = ((iop.toNat : Nat) : Int) := by omega
  intro a ha
  rw [e, split_iop_proc_args_eq F iop.toNat (by omega)] at ha
  obtain ⟨t, _, rfl⟩ := List.mem_map.mp ha
  constructor
  · exact Int.ofNat_nonneg _
  · have := Nat.min_le_right ((t + 1) * ((F + iop.toNat - 1) / iop.toNat)) F
    exact Int.ofNat_le.mpr this

theorem split_child_worker_normal (E : split_env) (slow5_files : List (List Nat))
    (output_dir : List Nat) (m : meta_split_method) (format_out : slow5_fmt)
    (hb : ∀ p ∈ slow5_files, ∃ outs,
      split_child_worker_body E output_dir (split_extension format_out) m p =
        some (.normal, outs))
    (a : proc_arg_t) (ha : 0 ≤ a.starti ∧ a.endi ≤ (slow5_files.length : Int)) :
    ∃ r, split_child_worker E a slow5_files output_dir m format_out = some (.normal, r) := by
  apply split_child_worker_loop_normal E slow5_files output_dir _ m hb
  intro j h1 h2
  omega

theorem split_iop_workers_normal (E : split_env) (slow5_files : List (List Nat))
    (output_dir : List Nat) (m : meta_split_method) (format_out : slow5_fmt)
    (hb : ∀ p ∈ slow5_files, ∃ outs,
      split_child_worker_body E output_dir (split_extension format_out) m p =
        some (.normal, outs)) :
    ∀ args : List proc_arg_t,
      (∀ a ∈ args, 0 ≤ a.starti ∧ a.endi ≤ (slow5_files.length : Int)) →
      ∃ rs, split_iop_workers E slow5_files output_dir m format_out args = some rs ∧
        split_iop_wait (rs.map (fun r => child_status r.1)) = .normal := by
  intro args
  induction args with
  | nil => intro _; exact ⟨[], rfl, rfl⟩
  | cons a t ih =>
    intro h
    simp only [List.mem_cons, forall_eq_or_imp] at h
    obtain ⟨r1, h1⟩ := split_child_worker_normal E slow5_files output_dir m format_out hb a h.1
    obtain ⟨rs, h2, h3⟩ := ih h.2
    refine ⟨(.normal, r1) :: rs, by simp only [split_iop_workers, h1, h2], ?_⟩
    simp only [List.map_cons, child_status, split_iop_wait, EXIT_SUCCESS, ne_eq,
      not_true_eq_false, if_false]
    exact h3

theorem split_iop_normal (E : split_env) (iop : Int) (hiop : 1 ≤ iop)
    (slow5_files : List (List Nat)) (output_dir : List Nat) (m : meta_split_method)
    (format_out : slow5_fmt)
    (hb : ∀ p ∈ slow5_files, ∃ outs,
      split_child_worker_body E output_dir (split_extension format_out) m p =
        some (.normal, outs)) :
    ∃ outs, split_iop E iop slow5_files output_dir m format_out = some (.normal, outs) := by
  have hbounds := split_iop_proc_args_bounds iop hiop slow5_files.length
  simp only [split_iop]
  split_ifs with h1
  · cases hargs : split_iop_proc_args iop (slow5_files.length : Int) with
    | nil => exact ⟨[], rfl⟩
    | cons a t =>
      obtain ⟨r1, hr⟩ := split_child_worker_normal E slow5_files output_dir m format_out hb a
        (hbounds a (by rw [hargs]; simp))
      exact ⟨[r1], by simp [hr]⟩
  · obtain ⟨rs, h2, h3⟩ := split_iop_workers_normal E slow5_files output_dir m format_out hb
      _ hbounds
    exact ⟨rs.map (fun r => r.2), by simp only [h2, h3]⟩

theorem split_body_write_failure (E : split_env) (output_dir extension : List Nat)
    (m : meta_split_method) (hn : m.splitMethod ≠ .GROUP_SPLIT → 1 ≤ m.n) (p : List Nat)
    (hp : 47 ∈ p) (f : slow5_file_t) (hopen : E.slow5_open p = some f)
    (hskip : ¬ split_skips E m p) (hfirst : split_first_file m f)
    (hfopen : E.fopen (out_path output_dir p extension 0) = true)
    (hfail : E.slow5_hdr_add_rg_data (out_path output_dir p extension 0) < 0 ∨
      E.slow5_hdr_fwrite (out_path output_dir p extension 0) = -1 ∨
      ∃ r rest, f.records = r :: rest ∧ (m.splitMethod = .GROUP_SPLIT → r.read_group = 0) ∧
        E.slow5_rec_fwrite (out_path output_dir p extension 0) r = -1) :
    ∃ outs, split_child_worker_body E output_dir extension m p =
      some (.exited EXIT_FAILURE, outs) := by
  obtain ⟨G, l⟩ := f
  obtain ⟨method, n⟩ := m
  have g1 : ¬ (G = 1 ∧ method = .GROUP_SPLIT) :=
    fun h => hskip (Or.inr ⟨_, hopen, Or.inl h⟩)
  have g2 : ¬ (G > 1 ∧ method ≠ .GROUP_SPLIT) :=
    fun h => hskip (Or.inr ⟨_, hopen, Or.inr h⟩)
  have hf : E.fopen (out_path output_dir p extension 0) ≠ false := by simp [hfopen]
  cases method with
  | READS_SPLIT =>
    simp only [split_child_worker_body, hopen, if_neg g1, if_neg g2, reads_split_files,
      split_out_path_some output_dir p extension hp, if_neg hf]
    split_ifs with h1 h2
    · exact ⟨_, rfl⟩
    · exact ⟨_, rfl⟩
    · rcases hfail with h | h | ⟨r, rest, hl, _, hw⟩
      · exact absurd h h1
      · exact absurd h h2
      · simp only at hl
        subst hl
        simp [reads_split_records, slow5_get_next, hw]
  | FILE_SPLIT =>
    obtain ⟨hrec, hN⟩ := hfirst
    simp only at hrec hN
    have hn1 : 1 ≤ n := hn (by simp)
    have hlen : 0 < l.length := List.length_pos.mpr hrec
    have hpos : (0 : Int) + (l.length : Int) > 0 := by omega
    simp only [split_child_worker_body, hopen, if_neg g1, if_neg g2,
      file_split_count_ok l G _ 0 (Nat.lt_succ_self _), file_split_files, if_pos hpos,
      split_out_path_some output_dir p extension hp, if_neg hf]
    by_cases h1 : E.slow5_hdr_add_rg_data (out_path output_dir p extension 0) < 0
    · rw [if_pos h1]; exact ⟨_, rfl⟩
    rw [if_neg h1]
    by_cases h2 : E.slow5_hdr_fwrite (out_path output_dir p extension 0) = -1
    · rw [if_pos h2]; exact ⟨_, rfl⟩
    rw [if_neg h2]
    rcases hfail with h | h | ⟨r, rest, hl, _, hw⟩
    · exact absurd h h1
    · exact absurd h h2
    · simp only at hl
      subst hl
      have hper : (if (0 + ((r :: rest).length : Int)) % (n : Int) > 0 then (1 : Int) else 0)
          + (0 + ((r :: rest).length : Int)) / (n : Int) > 0 := by
        have hn0 : (0 : Int) < (n : Int) := by omega
        have hd := Int.emod_add_ediv (0 + ((r :: rest).length : Int)) (n : Int)
        have hm := Int.emod_nonneg (0 + ((r :: rest).length : Int)) (ne_of_gt hn0)
        have hq : 0 ≤ (0 + ((r :: rest).length : Int)) / (n : Int) :=
          Int.ediv_nonneg (by omega) (by omega)
        split_ifs with hr
        · omega
        · have hz : (0 + ((r :: rest).length : Int)) % (n : Int) = 0 := by omega
          rw [hz] at hd
          by_contra hc
          have hq0 : (0 + ((r :: rest).length : Int)) / (n : Int) = 0 := by omega
          rw [hq0] at hd
          simp at hd
          omega
      have hstep : file_split_records E (out_path output_dir p extension 0)
          ((r :: rest).length + 1) ⟨G, r :: rest⟩
          ((if (0 + ((r :: rest).length : Int)) % (n : Int) > 0 then (1 : Int) else 0)
            + (0 + ((r :: rest).length : Int)) / (n : Int)) []
          = some (.exited EXIT_FAILURE, [], ⟨G, rest⟩) := by
        simp only [file_split_records, if_pos hper, slow5_get_next, if_true, Option.any_some,
          hw, decide_True]
      rw [hstep]
      exact ⟨_, rfl⟩
  | GROUP_SPLIT =>
    have hG : 1 ≤ G := hfirst
    obtain ⟨k, rfl⟩ : ∃ k, G = k + 1 := ⟨G - 1, by omega⟩
    have g3 : ¬ (k + 1 = 1 ∧ True) := fun h => g1 ⟨h.1, rfl⟩
    simp only [split_child_worker_body, hopen, if_neg g1, if_neg g2, group_split_files,
      split_out_path_some output_dir p extension hp, if_neg hf, if_neg g3]
    by_cases h1 : E.slow5_hdr_add_rg_data (out_path output_dir p extension 0) < 0
    · rw [if_pos h1]; exact ⟨_, rfl⟩
    rw [if_neg h1]
    by_cases h2 : E.slow5_hdr_fwrite (out_path output_dir p extension 0) = -1
    · rw [if_pos h2]; exact ⟨_, rfl⟩
    rw [if_neg h2]
    rcases hfail with h | h | ⟨r, rest, hl, hg, hw⟩
    · exact absurd h h1
    · exact absurd h h2
    · simp only at hl
      subst hl
      have hr0 : r.read_group = 0 := hg rfl
      have hr : ({ r with read_group := 0 } : slow5_rec) = r := by
        cases r; simp only at hr0; subst hr0; rfl
      have hstep : group_split_records E (out_path output_dir p extension 0) 0
          ((r :: rest).length + 1) ⟨k + 1, r :: rest⟩ []
          = some (.exited EXIT_FAILURE, []) := by
        simp only [group_split_records, slow5_get_next, if_true, hr0, hr, hw]
      rw [hstep]
      exact ⟨_, rfl⟩

theorem split_child_worker_first_fails (E : split_env) (p : List Nat) (rest : List (List Nat))
    (output_dir : List Nat) (m : meta_split_method) (format_out : slow5_fmt)
    (outs : List out_file) (e : ending) (he : e ≠ .normal)
    (hb : split_child_worker_body E output_dir (split_extension format_out) m p =
      some (e, outs))
    (a : proc_arg_t) (h0 : a.starti = 0) (h1 : 1 ≤ a.endi) :
    split_child_worker E a (p :: rest) output_dir m format_out = some (e, [(0, outs)]) := by
  obtain ⟨k, hk⟩ : ∃ k, (a.endi - a.starti).toNat = k + 1 :=
    ⟨(a.endi - a.starti).toNat - 1, by omega⟩
  rw [h0] at hk
  simp only [split_child_worker, h0, hk, split_child_worker_loop, Int.toNat_zero,
    List.getD_cons_zero, hb, if_neg he, List.nil_append]

theorem split_iop_workers_idle (E : split_env) (slow5_files : List (List Nat))
    (output_dir : List Nat) (m : meta_split_method) (format_out : slow5_fmt) :
    ∀ args : List proc_arg_t, (∀ a ∈ args, a.endi ≤ a.starti) →
      ∃ rs, split_iop_workers E slow5_files output_dir m format_out args = some rs := by
  intro args
  induction args with
  | nil => intro _; exact ⟨[], rfl⟩
  | cons a t ih =>
    intro h
    simp only [List.mem_cons, forall_eq_or_imp] at h
    obtain ⟨rs, hrs⟩ := ih h.2
    have hk : (a.endi - a.starti).toNat = 0 := by omega
    refine ⟨(.normal, []) :: rs, ?_⟩
    simp only [split_iop_workers, split_child_worker, hk, split_child_worker_loop, hrs]

theorem split_iop_first_fails (E : split_env) (iop : Int) (hiop : 1 ≤ iop) (p : List Nat)
    (rest : List (List Nat)) (hone : iop = 1 ∨ rest = []) (output_dir : List Nat)
    (m : meta_split_method) (format_out : slow5_fmt) (outs : List out_file)
    (hb : split_child_worker_body E output_dir (split_extension format_out) m p =
      some (.exited EXIT_FAILURE, outs)) :
    ∃ r, split_iop E iop (p :: rest) output_dir m format_out =
      some (.exited EXIT_FAILURE, r) := by
  have e : iop = ((iop.toNat : Nat) : Int) := by omega
  obtain ⟨j, hj⟩ : ∃ j, iop.toNat = j + 1 := ⟨iop.toNat - 1, by omega⟩
  have hargs := split_iop_proc_args_eq (p :: rest).length iop.toNat (by omega)
  rw [← e, hj, List.range_succ_eq_map, List.map_cons, List.map_map] at hargs
  have hne : ending.exited EXIT_FAILURE ≠ .normal := by simp
  have hstep : 1 ≤ ((p :: rest).length + (j + 1) - 1) / (j + 1) := by
    rw [Nat.le_div_iff_mul_le (by omega)]
    simp only [List.length_cons]
    omega
  have hfirst := split_child_worker_first_fails E p rest output_dir m format_out outs _ hne hb
    (⟨((0 * (((p :: rest).length + (j + 1) - 1) / (j + 1)) : Nat) : Int),
      ((min ((0 + 1) * (((p :: rest).length + (j + 1) - 1) / (j + 1))) (p :: rest).length : Nat)
        : Int), ((0 : Nat) : Int)⟩ : proc_arg_t) (by simp)
    (by
      simp only [Nat.zero_add, Nat.one_mul, List.length_cons]
      have : 1 ≤ min (((rest.length + 1) + (j + 1) - 1) / (j + 1)) (rest.length + 1) := by
        simp only [List.length_cons] at hstep
        omega
      exact_mod_cast this)
  simp only [split_iop]
  rw [hargs]
  split_ifs with h1
  · refine ⟨[[(0, outs)]], ?_⟩
    simp only [hfirst]
    simp
  · have hr : rest = [] := by
      rcases hone with h | h
      · exact absurd h h1
      · exact h
    subst hr
    obtain ⟨rs, hrs⟩ := split_iop_workers_idle E [p] output_dir m format_out
      ((List.range j).map ((fun t =>
        (⟨((t * (([p].length + (j + 1) - 1) / (j + 1)) : Nat) : Int),
          ((min ((t + 1) * (([p].length + (j + 1) - 1) / (j + 1))) [p].length : Nat) : Int),
          (t : Int)⟩ : proc_arg_t)) ∘ Nat.succ))
      (by
        intro a ha
        obtain ⟨t, _, rfl⟩ := List.mem_map.mp ha
        simp only [Function.comp, List.length_singleton]
        have h1 : (1 + (j + 1) - 1) / (j + 1) = 1 := by
          rw [show 1 + (j + 1) - 1 = j + 1 by omega]
          exact Nat.div_self (by omega)
        rw [h1]
        have : min ((t.succ + 1) * 1) 1 ≤ t.succ * 1 := by
          simp only [Nat.succ_eq_add_one]
          omega
        exact_mod_cast this)
    refine ⟨[(0, outs)] :: rs.map (fun r => r.2), ?_⟩
    simp only [split_iop_workers, hfirst, hrs]
    simp [child_status, split_iop_wait, EXIT_FAILURE]

theorem split_main_refused (E : split_env) (cmd : split_cmd) (h : cmd.refused) :
    ∃ e, split_main E cmd = some (e, []) ∧
      (e = .returned EXIT_FAILURE ∨ e = .exited EXIT_FAILURE) := by
  obtain ⟨argc, unknown, iop, ⟨method, n⟩, dir, fmt, files⟩ := cmd
  simp only [split_cmd.refused] at h
  simp only [split_main]
  split_ifs with h1 h2 h3 h4 h5
  · exact ⟨_, rfl, Or.inl rfl⟩
  · exact ⟨_, rfl, Or.inl rfl⟩
  · exact ⟨_, rfl, Or.inr rfl⟩
  · exact ⟨_, rfl, Or.inl rfl⟩
  · exact ⟨_, rfl, Or.inl rfl⟩
  · rcases h with h | h | h | h | h
    · exact absurd h h1
    · exact absurd h h2
    · exact absurd h h3
    · exfalso
      cases method with
      | READS_SPLIT => exact h4 ⟨rfl, h.2⟩
      | FILE_SPLIT => exact h5 ⟨rfl, h.2⟩
      | GROUP_SPLIT => exact h.1 rfl
    · subst h
      exact ⟨_, rfl, Or.inl rfl⟩

theorem split_main_accepted (E : split_env) (cmd : split_cmd) (h : ¬ cmd.refused) :
    1 ≤ cmd.iop ∧ (cmd.metaSplitMethod.splitMethod ≠ .GROUP_SPLIT → 1 ≤ cmd.metaSplitMethod.n) ∧
      ∃ output_dir, cmd.arg_dir_out = some output_dir ∧
        ∀ e outs, split_iop E cmd.iop cmd.slow5_files output_dir cmd.metaSplitMethod
            cmd.format_out = some (e, outs) →
          (e = .normal → split_main E cmd = some (.returned EXIT_SUCCESS, outs)) ∧
          (∀ status, e = .exited status → split_main E cmd = some (.exited status, outs)) := by
  obtain ⟨argc, unknown, iop, ⟨method, n⟩, dir, fmt, files⟩ := cmd
  simp only [split_cmd.refused, not_or, not_and] at h
  obtain ⟨h1, h2, h3, h4, h5⟩ := h
  refine ⟨by simp only; omega, ?_, ?_⟩
  · intro hm
    have := h4 hm
    simp only at this ⊢
    omega
  · cases dir with
    | none => exact absurd rfl h5
    | some d =>
      refine ⟨d, rfl, ?_⟩
      intro e outs hs
      have g4 : ¬ (method = .READS_SPLIT ∧ n = 0) := by
        intro hc; exact h4 (by rw [hc.1]; simp) hc.2
      have g5 : ¬ (method = .FILE_SPLIT ∧ n = 0) := by
        intro hc; exact h4 (by rw [hc.1]; simp) hc.2
      simp only at hs
      simp only [split_main, if_neg h1, h2, if_neg h3, if_neg g4, if_neg g5, hs]
      constructor
      · intro he; subst he; simp
      · intro status he; subst he; simp

/-! ## C21: the exit code of the split tool -/

end Slow5
